import Mathlib

/-!
Verification of the `deduplicationdict` package (`src/deduplicationdict/__init__.py`).

The Python class `DeDuplicationDict` is a mutable mapping backed by two pieces of
state per object: `key_dict` (an insertion-ordered dict from external keys to either
a hash-reference string or a child `DeDuplicationDict` object) and `_value_dict`
(a dict from hash strings to payloads, held BY REFERENCE and shared between objects),
plus a `_parent` object reference.  Because store objects are shared by reference
(for example `to_json_save_dict` returns the live `value_dict` object, and
`from_json_save_dict` installs it by reference), the embedding uses an explicit
heap: node objects and store objects are addressed by natural numbers, and every
method of the source becomes a state-passing function on the heap.  Recursive
methods (which in Python recurse through object references) take a fuel argument;
running out of fuel is a distinguished error, never silently identified with any
behaviour of the source.

Python `dict` is modelled by insertion-ordered association lists:
`d[k] = v` replaces in place when the key is present and appends otherwise,
`d.update(e)` folds the former over `e`, and deletion removes the key.

The content hash `sha256(pickle.dumps(value)).hexdigest()[:hash_length]` is
modelled by a configuration carrying an abstract serializer (`pickle.dumps`),
an abstract digest (`sha256(...).hexdigest()`), and the truncation length;
the claims that depend on hash behaviour take the hypotheses they need about
these functions (determinism is automatic because they are functions; absence
of truncated-digest collisions on the relevant values is an explicit hypothesis,
matching the spec's declared collision caveat).
-/

namespace DeDupDict

/-! ## Python dict as an insertion-ordered association list -/

/-- Lookup in a Python dict: first binding of the key. -/
def alistGet? {α β : Type} [DecidableEq α] : List (α × β) → α → Option β
  | [], _ => none
  | (k', v') :: t, k => if k' = k then some v' else alistGet? t k

/-- Python `d[k] = v`: replace in place if present, append otherwise. -/
def alistSet {α β : Type} [DecidableEq α] : List (α × β) → α → β → List (α × β)
  | [], k, v => [(k, v)]
  | (k', v') :: t, k, v => if k' = k then (k, v) :: t else (k', v') :: alistSet t k v

/-- Python `del d[k]`: drop the binding of `k`. -/
def alistDel {α β : Type} [DecidableEq α] : List (α × β) → α → List (α × β)
  | [], _ => []
  | (k', v') :: t, k => if k' = k then t else (k', v') :: alistDel t k

/-- Python `d.update(e)`: assign every binding of `e` into `d`, in order. -/
def alistUpdate {α β : Type} [DecidableEq α] (d : List (α × β)) : List (α × β) → List (α × β)
  | [] => d
  | (k, v) :: t => alistUpdate (alistSet d k v) t

/-- Keys of a Python dict, in order. -/
def alistKeys {α β : Type} (d : List (α × β)) : List α := d.map Prod.fst

/-! ## Data model -/

/-- Values a slot of `key_dict` can hold: a hash-reference string, a child
`DeDuplicationDict` object (by reference), or — reachable only through
`_set_key_dict` on malformed persisted input — some other raw payload. -/
inductive Slot (V : Type) where
  | str : String → Slot V
  | node : Nat → Slot V
  | raw : V → Slot V
deriving DecidableEq, Repr

/-- One `DeDuplicationDict` object: its `key_dict`, the store object its
`_value_dict` attribute references, and its `_parent` reference. -/
structure NodeObj (V : Type) where
  key_dict : List (String × Slot V)
  value_dict : Nat
  parent : Option Nat
deriving DecidableEq, Repr

/-- The heap: node objects and store objects by address, with bump allocators. -/
structure Heap (V : Type) where
  nodes : List (Nat × NodeObj V)
  stores : List (Nat × List (String × V))
  nextNode : Nat
  nextStore : Nat
deriving DecidableEq, Repr

/-- Errors: Python `KeyError`, `TypeError`, `AttributeError`; `badRef` marks a
dangling object reference (impossible in live Python, the model's analogue of
use-after-free); `noFuel` marks recursion-budget exhaustion of the model. -/
inductive PErr where
  | keyError | typeError | attrError | badRef | noFuel
deriving DecidableEq, Repr

/-- Result of `__getitem__`: a child object (by reference) or a stored payload. -/
inductive GetRes (V : Type) where
  | nodeRef : Nat → GetRes V
  | value : V → GetRes V
deriving DecidableEq, Repr

/-- A nested plain mapping (Python nested dict with non-dict leaves). -/
inductive NVal (V : Type) where
  | leaf : V → NVal V
  | dict : List (String × NVal V) → NVal V
deriving Repr

/-- Values appearing in a persisted (`*_json_save_dict`) key structure:
hash strings, nested dicts, or (malformed input) other raw payloads. -/
inductive JVal (V : Type) where
  | str : String → JVal V
  | dict : List (String × JVal V) → JVal V
  | leaf : V → JVal V
deriving Repr

/-- Arguments acceptable to `__setitem__`: a non-dict payload, a plain dict,
or an existing `DeDuplicationDict` object (by reference). -/
inductive PyVal (V : Type) where
  | leaf : V → PyVal V
  | dict : List (String × PyVal V) → PyVal V
  | node : Nat → PyVal V
deriving Repr

/-- Configuration: the serializer (`pickle.dumps`), the hex digest
(`sha256(b).hexdigest()`), the class attributes `hash_length` and
`auto_clean_up`. -/
structure Cfg (V : Type) where
  ser : V → List Nat
  digest : List Nat → String
  hash_length : Nat
  auto_clean_up : Bool

/-- Content hash of a value: `sha256(pickle.dumps(value)).hexdigest()[:hash_length]`
(source line 147). -/
def hashId {V : Type} (c : Cfg V) (v : V) : String :=
  (c.digest (c.ser v)).take c.hash_length

section Ops

variable {V : Type}

/-- Fetch the node object at an address. -/
def Heap.node? (h : Heap V) (nid : Nat) : Option (NodeObj V) := alistGet? h.nodes nid

/-- Fetch the store object at an address. -/
def Heap.store? (h : Heap V) (sid : Nat) : Option (List (String × V)) := alistGet? h.stores sid

/-- Overwrite the node object at an address. -/
def Heap.setNode (h : Heap V) (nid : Nat) (n : NodeObj V) : Heap V :=
  { h with nodes := alistSet h.nodes nid n }

/-- Overwrite the contents of the store object at an address. -/
def Heap.setStoreC (h : Heap V) (sid : Nat) (st : List (String × V)) : Heap V :=
  { h with stores := alistSet h.stores sid st }

/-- Allocate a fresh node object. -/
def Heap.allocNode (h : Heap V) (n : NodeObj V) : Heap V × Nat :=
  ({ h with nodes := alistSet h.nodes h.nextNode n, nextNode := h.nextNode + 1 }, h.nextNode)

/-- Allocate a fresh store object. -/
def Heap.allocStore (h : Heap V) (st : List (String × V)) : Heap V × Nat :=
  ({ h with stores := alistSet h.stores h.nextStore st, nextStore := h.nextStore + 1 },
   h.nextStore)

/-- The empty heap (a fresh interpreter). -/
def emptyHeap : Heap V := ⟨[], [], 0, 0⟩

/-- Property getter `value_dict` (lines 103-111):
`self._value_dict if self.parent is None else self.parent.value_dict`,
resolved to the store ADDRESS the attribute holds.  Fuel bounds the parent
chain length. -/
def value_sid (h : Heap V) : Nat → Nat → Except PErr Nat
  | 0, _ => .error .noFuel
  | f + 1, nid =>
    match h.node? nid with
    | none => .error .badRef
    | some n =>
      match n.parent with
      | none => .ok n.value_dict
      | some p => value_sid h f p

/-- Contents of the effective store of a node (dereferenced `value_dict`). -/
def effStore (f : Nat) (h : Heap V) (nid : Nat) : Except PErr (List (String × V)) :=
  match value_sid h f nid with
  | .error e => .error e
  | .ok sid =>
    match h.store? sid with
    | none => .error .badRef
    | some st => .ok st

/-- Property setter `value_dict` (lines 113-127): `AttributeError` unless the
node is a root, otherwise install the given store object BY REFERENCE. -/
def set_value_dict (h : Heap V) (nid sid : Nat) : Heap V × Except PErr Unit :=
  match h.node? nid with
  | none => (h, .error .badRef)
  | some n =>
    match n.parent with
    | some _ => (h, .error .attrError)
    | none => (h.setNode nid { n with value_dict := sid }, .ok ())

/-- Method `__getitem__` (lines 153-177): `KeyError` on an absent key; a child
object is returned directly; a string slot is looked up in the effective store
(Python dict indexing, so an absent hash raises `KeyError` as well); any other
slot raises `TypeError`. -/
def getitem (f : Nat) (h : Heap V) (nid : Nat) (key : String) : Except PErr (GetRes V) :=
  match h.node? nid with
  | none => .error .badRef
  | some n =>
    match alistGet? n.key_dict key with
    | none => .error .keyError
    | some (.node cid) => .ok (.nodeRef cid)
    | some (.str s) =>
      match effStore f h nid with
      | .error e => .error e
      | .ok st =>
        match alistGet? st s with
        | some v => .ok (.value v)
        | none => .error .keyError
    | some (.raw _) => .error .typeError

mutual
/-- Method `all_hashes_in_use` (lines 179-192): collect every string slot in the
subtree, recursing into child objects.  A raw slot has no `all_hashes_in_use`
attribute in Python, hence `AttributeError`. -/
def all_hashes_in_use : Nat → Heap V → Nat → Except PErr (List String)
  | 0, _, _ => .error .noFuel
  | f + 1, h, nid =>
    match h.node? nid with
    | none => .error .badRef
    | some n => hashes_of_slots f h (n.key_dict.map Prod.snd)

/-- Iteration of `all_hashes_in_use` over the slot values of one `key_dict`. -/
def hashes_of_slots : Nat → Heap V → List (Slot V) → Except PErr (List String)
  | 0, _, _ => .error .noFuel
  | _ + 1, _, [] => .ok []
  | f + 1, h, .str s :: rest =>
    match hashes_of_slots f h rest with
    | .error e => .error e
    | .ok r => .ok (s :: r)
  | f + 1, h, .node cid :: rest =>
    match all_hashes_in_use f h cid with
    | .error e => .error e
    | .ok hs =>
      match hashes_of_slots f h rest with
      | .error e => .error e
      | .ok r => .ok (hs ++ r)
  | _ + 1, _, .raw _ :: _ => .error .attrError
end

/-- Method `clean_up` (lines 194-210): a parented node delegates to its parent;
a root computes the in-use hash set and deletes every other store key from its
own store object. -/
def clean_up : Nat → Heap V → Nat → Heap V × Except PErr Unit
  | 0, h, _ => (h, .error .noFuel)
  | f + 1, h, nid =>
    match h.node? nid with
    | none => (h, .error .badRef)
    | some n =>
      match n.parent with
      | some p => clean_up f h p
      | none =>
        match all_hashes_in_use f h nid with
        | .error e => (h, .error e)
        | .ok inUse =>
          match h.store? n.value_dict with
          | none => (h, .error .badRef)
          | some st =>
            (h.setStoreC n.value_dict (st.filter (fun p => decide (p.1 ∈ inUse))), .ok ())

/-- Property setter `parent` (lines 85-101).  With `None`: replace `_value_dict`
by a deep copy of the (current) effective store, clear `_parent`, and clean up
when `auto_clean_up` holds.  With a parent: `parent.value_dict.update(self.value_dict)`
on the live store objects, set `_parent`, and give `self` a fresh empty
`_value_dict`. -/
def set_parent (c : Cfg V) : Nat → Heap V → Nat → Option Nat → Heap V × Except PErr Unit
  | 0, h, _, _ => (h, .error .noFuel)
  | f + 1, h, nid, none =>
    match effStore f h nid with
    | .error e => (h, .error e)
    | .ok st =>
      let (h1, sid) := h.allocStore st
      match h1.node? nid with
      | none => (h1, .error .badRef)
      | some n =>
        let h2 := h1.setNode nid { n with value_dict := sid, parent := none }
        if c.auto_clean_up then clean_up f h2 nid else (h2, .ok ())
  | f + 1, h, nid, some p =>
    match value_sid h f p with
    | .error e => (h, .error e)
    | .ok psid =>
      match value_sid h f nid with
      | .error e => (h, .error e)
      | .ok csid =>
        match h.store? psid, h.store? csid with
        | some pst, some cst =>
          let h1 := h.setStoreC psid (alistUpdate pst cst)
          let (h2, esid) := h1.allocStore []
          match h2.node? nid with
          | none => (h2, .error .badRef)
          | some n =>
            (h2.setNode nid { n with parent := some p, value_dict := esid }, .ok ())
        | _, _ => (h, .error .badRef)

/-- Method `__delitem__` (lines 224-244): `KeyError` before any mutation when the
key is absent; otherwise remove the slot, detach a child object by setting its
parent to `None`, and clean up when `auto_clean_up` holds. -/
def delitem (c : Cfg V) : Nat → Heap V → Nat → String → Heap V × Except PErr Unit
  | 0, h, _, _ => (h, .error .noFuel)
  | f + 1, h, nid, key =>
    match h.node? nid with
    | none => (h, .error .badRef)
    | some n =>
      match alistGet? n.key_dict key with
      | none => (h, .error .keyError)
      | some v =>
        let h1 := h.setNode nid { n with key_dict := alistDel n.key_dict key }
        match v with
        | .node cid =>
          match set_parent c f h1 cid none with
          | (h2, .error e) => (h2, .error e)
          | (h2, .ok _) =>
            if c.auto_clean_up then clean_up f h2 nid else (h2, .ok ())
        | _ => if c.auto_clean_up then clean_up f h1 nid else (h1, .ok ())

mutual
/-- Method `__setitem__` (lines 129-151): first delete an already-present key;
promote a plain-dict value to a fresh `DeDuplicationDict`; reparent a
`DeDuplicationDict` value onto `self` and store the object reference; otherwise
store the truncated content hash and insert the payload into the effective store
when the hash is absent there. -/
def setitem (c : Cfg V) : Nat → Heap V → Nat → String → PyVal V → Heap V × Except PErr Unit
  | 0, h, _, _, _ => (h, .error .noFuel)
  | f + 1, h, nid, key, value =>
    match h.node? nid with
    | none => (h, .error .badRef)
    | some n =>
      match (if (alistGet? n.key_dict key).isSome then delitem c f h nid key
             else (h, .ok ())) with
      | (h1, .error e) => (h1, .error e)
      | (h1, .ok _) =>
        match value with
        | .dict d =>
          match ddInit c f h1 d none with
          | (h2, .error e) => (h2, .error e)
          | (h2, .ok cid) => setitem_node_case c f h2 nid key cid
        | .node cid => setitem_node_case c f h1 nid key cid
        | .leaf v =>
          match h1.node? nid with
          | none => (h1, .error .badRef)
          | some n1 =>
            let hid := hashId c v
            let h2 := h1.setNode nid { n1 with key_dict := alistSet n1.key_dict key (.str hid) }
            match value_sid h2 f nid with
            | .error e => (h2, .error e)
            | .ok sid =>
              match h2.store? sid with
              | none => (h2, .error .badRef)
              | some st =>
                if (alistGet? st hid).isSome then (h2, .ok ())
                else (h2.setStoreC sid (alistSet st hid v), .ok ())

/-- Lines 143-145 of `__setitem__`: `value.parent = self` then
`self.key_dict[key] = value`, for a `DeDuplicationDict` value. -/
def setitem_node_case (c : Cfg V) :
    Nat → Heap V → Nat → String → Nat → Heap V × Except PErr Unit
  | 0, h, _, _, _ => (h, .error .noFuel)
  | f + 1, h, nid, key, cid =>
    match set_parent c f h cid (some nid) with
    | (h1, .error e) => (h1, .error e)
    | (h1, .ok _) =>
      match h1.node? nid with
      | none => (h1, .error .badRef)
      | some n =>
        (h1.setNode nid { n with key_dict := alistSet n.key_dict key (.node cid) }, .ok ())

/-- Constructor `__init__` (lines 59-73): fresh `key_dict`, `_value_dict` either
fresh and empty or the store object passed by reference, no parent; then each
initial item is written through `__setitem__`. -/
def ddInit (c : Cfg V) :
    Nat → Heap V → List (String × PyVal V) → Option Nat → Heap V × Except PErr Nat
  | 0, h, _, _ => (h, .error .noFuel)
  | f + 1, h, init, vdRef =>
    let (h1, sid) :=
      match vdRef with
      | none => h.allocStore []
      | some s => (h, s)
    let (h2, nid) := h1.allocNode { key_dict := [], value_dict := sid, parent := none }
    setitems c f h2 nid init

/-- The item loop of `__init__` (lines 72-73). -/
def setitems (c : Cfg V) :
    Nat → Heap V → Nat → List (String × PyVal V) → Heap V × Except PErr Nat
  | 0, h, _, _ => (h, .error .noFuel)
  | _ + 1, h, nid, [] => (h, .ok nid)
  | f + 1, h, nid, (k, v) :: rest =>
    match setitem c f h nid k v with
    | (h1, .error e) => (h1, .error e)
    | (h1, .ok _) => setitems c f h1 nid rest
end

mutual
/-- Method `_get_key_dict` (lines 307-314): the key structure with child objects
replaced by their own recursive `_get_key_dict`. -/
def get_key_dict : Nat → Heap V → Nat → Except PErr (List (String × JVal V))
  | 0, _, _ => .error .noFuel
  | f + 1, h, nid =>
    match h.node? nid with
    | none => .error .badRef
    | some n => get_key_dict_entries f h n.key_dict

/-- Iteration of `_get_key_dict` over one `key_dict`. -/
def get_key_dict_entries :
    Nat → Heap V → List (String × Slot V) → Except PErr (List (String × JVal V))
  | 0, _, _ => .error .noFuel
  | _ + 1, _, [] => .ok []
  | f + 1, h, (k, sl) :: rest =>
    match ((match sl with
            | .node cid =>
              match get_key_dict f h cid with
              | .error e => .error e
              | .ok d => .ok (JVal.dict d)
            | .str s => .ok (JVal.str s)
            | .raw v => .ok (JVal.leaf v)) : Except PErr (JVal V)) with
    | .error e => .error e
    | .ok jv =>
      match get_key_dict_entries f h rest with
      | .error e => .error e
      | .ok r => .ok ((k, jv) :: r)
end

/-- Method `to_json_save_dict` (lines 316-326): the pair of `_get_key_dict()`
and the effective store, the latter BY REFERENCE (its address). -/
def to_json_save_dict (f : Nat) (h : Heap V) (nid : Nat) :
    Except PErr (List (String × JVal V) × Nat) :=
  match get_key_dict f h nid with
  | .error e => .error e
  | .ok kd =>
    match value_sid h f nid with
    | .error e => .error e
    | .ok sid => .ok (kd, sid)

/-- Method `_set_key_dict` (lines 328-347): a dict value becomes a fresh
`DeDuplicationDict` whose `value_dict` is set (by reference) to `self.value_dict`
and which is filled recursively; any other value is stored in the slot as-is. -/
def set_key_dict (c : Cfg V) :
    Nat → Heap V → Nat → List (String × JVal V) → Heap V × Except PErr Unit
  | 0, h, _, _ => (h, .error .noFuel)
  | _ + 1, h, _, [] => (h, .ok ())
  | f + 1, h, nid, (k, jv) :: rest =>
    match jv with
    | .dict d =>
      match ddInit c f h [] none with
      | (h1, .error e) => (h1, .error e)
      | (h1, .ok cid) =>
        match value_sid h1 f nid with
        | .error e => (h1, .error e)
        | .ok sid =>
          match set_value_dict h1 cid sid with
          | (h2, .error e) => (h2, .error e)
          | (h2, .ok _) =>
            match set_key_dict c f h2 cid d with
            | (h3, .error e) => (h3, .error e)
            | (h3, .ok _) =>
              match h3.node? nid with
              | none => (h3, .error .badRef)
              | some n =>
                set_key_dict c f
                  (h3.setNode nid { n with key_dict := alistSet n.key_dict k (.node cid) })
                  nid rest
    | .str s =>
      match h.node? nid with
      | none => (h, .error .badRef)
      | some n =>
        set_key_dict c f
          (h.setNode nid { n with key_dict := alistSet n.key_dict k (.str s) }) nid rest
    | .leaf v =>
      match h.node? nid with
      | none => (h, .error .badRef)
      | some n =>
        set_key_dict c f
          (h.setNode nid { n with key_dict := alistSet n.key_dict k (.raw v) }) nid rest

/-- Classmethod `from_json_save_dict` (lines 349-367): a fresh instance whose
`value_dict` is installed BY REFERENCE and whose key structure is rebuilt by
`_set_key_dict`. -/
def from_json_save_dict (c : Cfg V) (f : Nat) (h : Heap V)
    (kd : List (String × JVal V)) (sid : Nat) : Heap V × Except PErr Nat :=
  match ddInit c f h [] none with
  | (h1, .error e) => (h1, .error e)
  | (h1, .ok nid) =>
    match set_value_dict h1 nid sid with
    | (h2, .error e) => (h2, .error e)
    | (h2, .ok _) =>
      match set_key_dict c f h2 nid kd with
      | (h3, .error e) => (h3, .error e)
      | (h3, .ok _) => (h3, .ok nid)

/-- Method `detach` (lines 212-222): `from_json_save_dict(to_json_save_dict(self))`. -/
def detach (c : Cfg V) (f : Nat) (h : Heap V) (nid : Nat) : Heap V × Except PErr Nat :=
  match to_json_save_dict f h nid with
  | .error e => (h, .error e)
  | .ok (kd, sid) => from_json_save_dict c f h kd sid

mutual
/-- Method `to_dict` (lines 285-292): the flat nested mapping, reading each key
through `__getitem__` (that is what `self.items()` does) and recursing into
child objects. -/
def to_dict : Nat → Heap V → Nat → Except PErr (List (String × NVal V))
  | 0, _, _ => .error .noFuel
  | f + 1, h, nid =>
    match h.node? nid with
    | none => .error .badRef
    | some n => to_dict_entries f h nid (n.key_dict.map Prod.fst)

/-- Iteration of `to_dict` over the keys of one node. -/
def to_dict_entries : Nat → Heap V → Nat → List String → Except PErr (List (String × NVal V))
  | 0, _, _, _ => .error .noFuel
  | _ + 1, _, _, [] => .ok []
  | f + 1, h, nid, k :: rest =>
    match getitem f h nid k with
    | .error e => .error e
    | .ok (.value v) =>
      match to_dict_entries f h nid rest with
      | .error e => .error e
      | .ok r => .ok ((k, NVal.leaf v) :: r)
    | .ok (.nodeRef cid) =>
      match to_dict f h cid with
      | .error e => .error e
      | .ok sub =>
        match to_dict_entries f h nid rest with
        | .error e => .error e
        | .ok r => .ok ((k, NVal.dict sub) :: r)
end

end Ops

/-! ## Nested plain mappings as constructor input -/

mutual
/-- Embed a nested plain mapping into `__setitem__` argument values. -/
def NVal.toPy {V : Type} : NVal V → PyVal V
  | .leaf v => .leaf v
  | .dict d => .dict (npToPy d)

/-- Embed the items of a nested plain mapping. -/
def npToPy {V : Type} : List (String × NVal V) → List (String × PyVal V)
  | [] => []
  | (k, v) :: t => (k, v.toPy) :: npToPy t
end

/-- Decidable equality of results, used to evaluate the model on concrete inputs. -/
instance {ε α : Type} [DecidableEq ε] [DecidableEq α] : DecidableEq (Except ε α) := fun x y =>
  match x, y with
  | .ok a, .ok b =>
    if h : a = b then isTrue (by rw [h]) else isFalse (by intro hh; cases hh; exact h rfl)
  | .error a, .error b =>
    if h : a = b then isTrue (by rw [h]) else isFalse (by intro hh; cases hh; exact h rfl)
  | .ok _, .error _ => isFalse (by intro hh; cases hh)
  | .error _, .ok _ => isFalse (by intro hh; cases hh)

/-- Build `DeDuplicationDict(**D)` for a nested plain mapping `D`. -/
def build {V : Type} (c : Cfg V) (f : Nat) (h : Heap V) (d : List (String × NVal V)) :
    Heap V × Except PErr Nat :=
  ddInit c f h (npToPy d) none

/-! ## Derived definitions used by the verification -/

section Derived

variable {V : Type}

/-- Every store object in the heap is a genuine dict: its keys are unique.
True of every heap Python can reach, and preserved by every operation. -/
def Heap.StoresNodup (h : Heap V) : Prop :=
  ∀ sid st, h.store? sid = some st → (alistKeys st).Nodup

mutual
/-- Leaf values of a nested plain mapping, in traversal order. -/
def NVal.leaves : NVal V → List V
  | .leaf v => [v]
  | .dict d => leavesND d

/-- Leaf values of the items of a nested plain mapping. -/
def leavesND : List (String × NVal V) → List V
  | [] => []
  | (_, v) :: t => v.leaves ++ leavesND t
end

mutual
/-- Check that every dict level of a nested plain mapping has unique keys
(true of every value a Python dict can denote). -/
def NVal.nodupKeysB : NVal V → Bool
  | .leaf _ => true
  | .dict d => decide ((alistKeys d).Nodup) && nodupKeysLB d

/-- Item-list form of `NVal.nodupKeysB`. -/
def nodupKeysLB : List (String × NVal V) → Bool
  | [] => true
  | (_, v) :: t => v.nodupKeysB && nodupKeysLB t
end

/-- Unique keys at every level, starting from the item list of a mapping. -/
def ndWellFormed (d : List (String × NVal V)) : Bool :=
  decide ((alistKeys d).Nodup) && nodupKeysLB d

mutual
/-- The persisted key structure `_get_key_dict` produces for a tree built
from a nested plain mapping: leaves become their content-hash strings. -/
def jOfN (c : Cfg V) : NVal V → JVal V
  | .leaf v => .str (hashId c v)
  | .dict d => .dict (jOfND c d)

/-- Item-list form of `jOfN`. -/
def jOfND (c : Cfg V) : List (String × NVal V) → List (String × JVal V)
  | [] => []
  | (k, v) :: t => (k, jOfN c v) :: jOfND c t
end

/-- Fueled check that a `key_dict` mirrors a nested plain mapping, with every
child node id in `[lo, hi)`, every child's `parent` attribute pointing at the
enclosing node (`pid` at the top): the shape of a tree built by `__setitem__`. -/
def mirrorA (c : Cfg V) :
    Nat → Heap V → Nat → Nat → Nat → List (String × Slot V) → List (String × NVal V) → Bool
  | 0, _, _, _, _, _, _ => false
  | _ + 1, _, _, _, _, [], [] => true
  | _ + 1, _, _, _, _, [], _ :: _ => false
  | _ + 1, _, _, _, _, _ :: _, [] => false
  | f + 1, h, lo, hi, pid, (k, Slot.str s) :: t, (k', NVal.leaf v) :: t' =>
    decide (k = k') && decide (s = hashId c v) && mirrorA c f h lo hi pid t t'
  | f + 1, h, lo, hi, pid, (k, Slot.node cid) :: t, (k', NVal.dict d) :: t' =>
    decide (k = k') && decide (lo ≤ cid) && decide (cid < hi) &&
    (match h.node? cid with
     | some n => decide (n.parent = some pid) && mirrorA c f h lo hi cid n.key_dict d
     | none => false) &&
    mirrorA c f h lo hi pid t t'
  | _ + 1, _, _, _, _, (_, Slot.str _) :: _, (_, NVal.dict _) :: _ => false
  | _ + 1, _, _, _, _, (_, Slot.node _) :: _, (_, NVal.leaf _) :: _ => false
  | _ + 1, _, _, _, _, (_, Slot.raw _) :: _, _ :: _ => false

/-- Fueled check that a `key_dict` mirrors a nested plain mapping, with every
child node id in `[lo, hi)` and every child parentless with its `_value_dict`
attribute referencing store `sid`: the shape `_set_key_dict` rebuilds. -/
def mirrorB (c : Cfg V) :
    Nat → Heap V → Nat → Nat → Nat → List (String × Slot V) → List (String × NVal V) → Bool
  | 0, _, _, _, _, _, _ => false
  | _ + 1, _, _, _, _, [], [] => true
  | _ + 1, _, _, _, _, [], _ :: _ => false
  | _ + 1, _, _, _, _, _ :: _, [] => false
  | f + 1, h, lo, hi, sid, (k, Slot.str s) :: t, (k', NVal.leaf v) :: t' =>
    decide (k = k') && decide (s = hashId c v) && mirrorB c f h lo hi sid t t'
  | f + 1, h, lo, hi, sid, (k, Slot.node cid) :: t, (k', NVal.dict d) :: t' =>
    decide (k = k') && decide (lo ≤ cid) && decide (cid < hi) &&
    (match h.node? cid with
     | some n => decide (n.parent = none) && decide (n.value_dict = sid) &&
                 mirrorB c f h lo hi sid n.key_dict d
     | none => false) &&
    mirrorB c f h lo hi sid t t'
  | _ + 1, _, _, _, _, (_, Slot.str _) :: _, (_, NVal.dict _) :: _ => false
  | _ + 1, _, _, _, _, (_, Slot.node _) :: _, (_, NVal.leaf _) :: _ => false
  | _ + 1, _, _, _, _, (_, Slot.raw _) :: _, _ :: _ => false

/-- Invariant of a store built by writes: every binding pairs the content hash
of its payload with a payload drawn from `L`, and keys are unique. -/
def storeInv (c : Cfg V) (L : List V) (st : List (String × V)) : Prop :=
  (∀ p ∈ st, p.1 = hashId c p.2 ∧ p.2 ∈ L) ∧ (alistKeys st).Nodup

/-- The parent chain of `nid`, whenever the `value_dict` getter resolves it,
resolves it to store `sid`. -/
def chainsTo (h : Heap V) (nid sid : Nat) : Prop :=
  ∀ f r, value_sid h f nid = Except.ok r → r = sid

/-- Fueled Python equality of nested plain mappings (`dict.__eq__`):
same key sets, recursively equal values; insertion order is ignored. -/
def nvEquiv [DecidableEq V] : Nat → NVal V → NVal V → Bool
  | 0, _, _ => false
  | _ + 1, .leaf a, .leaf b => decide (a = b)
  | f + 1, .dict d, .dict e =>
    d.all (fun p => match alistGet? e p.1 with
                    | some w => nvEquiv f p.2 w
                    | none => false) &&
    e.all (fun p => (alistGet? d p.1).isSome)
  | _ + 1, _, _ => false

/-- Item-list form of `nvEquiv`. -/
def ndEquiv [DecidableEq V] (f : Nat) (d e : List (String × NVal V)) : Bool :=
  nvEquiv (f + 1) (NVal.dict d) (NVal.dict e)

/-- Effect envelope of the build operations: apart from node `nid` and store
`sid`, every pre-existing node and store object is untouched; allocators only
grow. -/
def buildExt (h h' : Heap V) (nid sid : Nat) : Prop :=
  (∀ m, m ≠ nid → m < h.nextNode → h'.node? m = h.node? m) ∧
  (∀ s, s ≠ sid → s < h.nextStore → h'.store? s = h.store? s) ∧
  h.nextNode ≤ h'.nextNode ∧ h.nextStore ≤ h'.nextStore

end Derived

/-! ## Concrete evaluation scenarios

A concrete stand-in for the hash collaborators: `ser` is injective (Python
`pickle.dumps` is injective on values that round-trip), and this `digest` is
injective on the inputs exercised here, standing in for the truncated sha256
hex digest exactly as the spec allows (section 6: the hash must merely be
deterministic; collisions are an accepted risk taken as absent on these
inputs). -/

/-- Concrete configuration over natural-number payloads. -/
def cfgNat : Cfg Nat :=
  { ser := fun n => [n]
    digest := fun bs => String.join (bs.map (fun b => toString b ++ "."))
    hash_length := 8
    auto_clean_up := true }

/-- Tree T1 built from the mapping with the single pair ("a", 1). -/
def c2heap1 : Heap Nat := (build cfgNat 20 emptyHeap [("a", NVal.leaf 1)]).1

/-- Heap after `T2 = T1.detach()`; the new root is node 1. -/
def c2heap2 : Heap Nat := (detach cfgNat 20 c2heap1 0).1

/-- Heap after the follow-up write `T2["a"] = 2`. -/
def c2heap3 : Heap Nat := (setitem cfgNat 20 c2heap2 1 "a" (PyVal.leaf 2)).1

/-- A tree reconstructed from a malformed persisted form: key "a" holds hash
"h1" but the installed store is empty. -/
def c3heap : Heap Nat :=
  (from_json_save_dict cfgNat 20 ((emptyHeap (V := Nat)).allocStore []).1
    [("a", JVal.str "h1")] 0).1

/-- Heap holding two store objects {"x": 1} (id 0) and {"x": 2} (id 1). -/
def c5heap0 : Heap Nat :=
  (((emptyHeap (V := Nat)).allocStore [("x", 1)]).1.allocStore [("x", 2)]).1

/-- Adds a root (node 0) whose `_value_dict` is store 0 — `DeDuplicationDict(_value_dict=...)`. -/
def c5heapP : Heap Nat := (ddInit cfgNat 20 c5heap0 [] (some 0)).1

/-- Adds a second root (node 1) whose `_value_dict` is store 1. -/
def c5heapC : Heap Nat := (ddInit cfgNat 20 c5heapP [] (some 1)).1

/-- Tree built from the mapping ("k", 1), ("j", 2); hashes "1." and "2.". -/
def c4heap : Heap Nat := (build cfgNat 20 emptyHeap [("k", NVal.leaf 1), ("j", NVal.leaf 2)]).1

/-- Heap after the overwrite `node[" k"] = 2` on `c4heap` (key already present). -/
def c4heap2 : Heap Nat := (setitem cfgNat 20 c4heap 0 "k" (PyVal.leaf 2)).1

/-- Tree built from the single-pair mapping ("k", 1). -/
def c4bheap : Heap Nat := (build cfgNat 20 emptyHeap [("k", NVal.leaf 1)]).1

/-- Malformed persisted form whose key slot holds the raw integer 7. -/
def c9heap : Heap Nat :=
  (from_json_save_dict cfgNat 20 ((emptyHeap (V := Nat)).allocStore []).1
    [("a", JVal.leaf 7)] 0).1

/-- Heap with a pre-existing store object containing an unreferenced binding. -/
def c8heap0 : Heap Nat := ((emptyHeap (V := Nat)).allocStore [("junk", 0)]).1

/-- Tree reconstructed over that store with an empty key structure. -/
def c8heapR : Heap Nat := (from_json_save_dict cfgNat 20 c8heap0 [] 0).1

/-- Heap after one write `node["k"] = 1`. -/
def c8heapW1 : Heap Nat := (setitem cfgNat 20 c8heapR 0 "k" (PyVal.leaf 1)).1

/-- Heap after writing `node["k"] = 1` a second time. -/
def c8heapW2 : Heap Nat := (setitem cfgNat 20 c8heapW1 0 "k" (PyVal.leaf 1)).1

/-- The C7 scenario input mapping `{"a": 1, "b": {"c": 1, "d": 2}}`. -/
def ddD7 : List (String × NVal Nat) :=
  [("a", NVal.leaf 1), ("b", NVal.dict [("c", NVal.leaf 1), ("d", NVal.leaf 2)])]

/-! ## Association-list lemmas -/

section AlistLemmas

variable {α β : Type} [DecidableEq α]

theorem alistGet?_set_self (l : List (α × β)) (k : α) (v : β) :
    alistGet? (alistSet l k v) k = some v := by
  induction l with
  | nil => simp [alistSet, alistGet?]
  | cons p t ih =>
    obtain ⟨k', v'⟩ := p
    by_cases hk : k' = k
    · subst hk
      simp [alistSet, alistGet?]
    · simp [alistSet, alistGet?, hk, ih]

theorem alistGet?_set_ne (l : List (α × β)) (k k' : α) (v : β) (hne : k' ≠ k) :
    alistGet? (alistSet l k v) k' = alistGet? l k' := by
  induction l with
  | nil =>
    simp only [alistSet, alistGet?]
    rw [if_neg (fun h => hne h.symm)]
  | cons p t ih =>
    obtain ⟨k0, v0⟩ := p
    by_cases hk : k0 = k
    · subst hk
      simp only [alistSet, if_pos rfl, alistGet?]
      rw [if_neg (fun h => hne h.symm), if_neg (fun h => hne h.symm)]
    · simp only [alistSet, if_neg hk, alistGet?, ih]

theorem mem_alistKeys_iff_get?_isSome (l : List (α × β)) (k : α) :
    k ∈ alistKeys l ↔ (alistGet? l k).isSome := by
  induction l with
  | nil => simp [alistKeys, alistGet?]
  | cons p t ih =>
    obtain ⟨k0, v0⟩ := p
    simp only [alistKeys, List.map_cons, List.mem_cons, alistGet?]
    by_cases hk : k0 = k
    · subst hk
      simp
    · rw [if_neg hk]
      simp only [alistKeys] at ih
      constructor
      · rintro (rfl | h)
        · exact absurd rfl hk
        · exact ih.mp h
      · intro h
        exact Or.inr (ih.mpr h)

theorem alistGet?_eq_none_of_not_mem (l : List (α × β)) (k : α)
    (h : k ∉ alistKeys l) : alistGet? l k = none := by
  cases hopt : alistGet? l k with
  | none => rfl
  | some v =>
    exact absurd ((mem_alistKeys_iff_get?_isSome l k).mpr (by rw [hopt]; rfl)) h

theorem alistKeys_set_of_mem (l : List (α × β)) (k : α) (v : β)
    (hmem : k ∈ alistKeys l) : alistKeys (alistSet l k v) = alistKeys l := by
  induction l with
  | nil => simp [alistKeys] at hmem
  | cons p t ih =>
    obtain ⟨k0, v0⟩ := p
    by_cases hk : k0 = k
    · subst hk
      simp [alistSet, alistKeys]
    · simp only [alistKeys, List.map_cons, List.mem_cons] at hmem
      rcases hmem with h | h
      · exact absurd h.symm hk
      · simp only [alistSet, if_neg hk, alistKeys, List.map_cons]
        have ht := ih h
        simp only [alistKeys] at ht
        rw [ht]

theorem alistKeys_set_of_not_mem (l : List (α × β)) (k : α) (v : β)
    (hmem : k ∉ alistKeys l) : alistKeys (alistSet l k v) = alistKeys l ++ [k] := by
  induction l with
  | nil => simp [alistSet, alistKeys]
  | cons p t ih =>
    obtain ⟨k0, v0⟩ := p
    simp only [alistKeys, List.map_cons, List.mem_cons] at hmem
    push_neg at hmem
    simp only [alistSet, alistKeys, List.map_cons, List.cons_append]
    rw [if_neg (fun h => hmem.1 h.symm)]
    simp only [alistKeys, List.map_cons]
    have ht := ih hmem.2
    simp only [alistKeys] at ht
    rw [ht]

theorem mem_alistKeys_set (l : List (α × β)) (k k' : α) (v : β) :
    k' ∈ alistKeys (alistSet l k v) ↔ k' = k ∨ k' ∈ alistKeys l := by
  by_cases hmem : k ∈ alistKeys l
  · rw [alistKeys_set_of_mem l k v hmem]
    constructor
    · exact Or.inr
    · rintro (rfl | h)
      · exact hmem
      · exact h
  · rw [alistKeys_set_of_not_mem l k v hmem]
    simp [or_comm]

theorem nodup_alistKeys_set (l : List (α × β)) (k : α) (v : β)
    (hnd : (alistKeys l).Nodup) : (alistKeys (alistSet l k v)).Nodup := by
  by_cases hmem : k ∈ alistKeys l
  · rwa [alistKeys_set_of_mem l k v hmem]
  · rw [alistKeys_set_of_not_mem l k v hmem]
    simpa [List.nodup_append] using ⟨hnd, hmem⟩

theorem alistGet?_del_self (l : List (α × β)) (k : α)
    (hnd : (alistKeys l).Nodup) : alistGet? (alistDel l k) k = none := by
  induction l with
  | nil => simp [alistDel, alistGet?]
  | cons p t ih =>
    obtain ⟨k0, v0⟩ := p
    simp only [alistKeys, List.map_cons, List.nodup_cons] at hnd
    by_cases hk : k0 = k
    · subst hk
      show alistGet? (if k0 = k0 then t else (k0, v0) :: alistDel t k0) k0 = none
      rw [if_pos rfl]
      exact alistGet?_eq_none_of_not_mem t k0 hnd.1
    · simp [alistDel, hk, alistGet?, ih hnd.2]

theorem alistGet?_del_ne (l : List (α × β)) (k k' : α) (hne : k' ≠ k) :
    alistGet? (alistDel l k) k' = alistGet? l k' := by
  induction l with
  | nil => simp [alistDel]
  | cons p t ih =>
    obtain ⟨k0, v0⟩ := p
    by_cases hk : k0 = k
    · subst hk
      show alistGet? (if k0 = k0 then t else (k0, v0) :: alistDel t k0) k' =
        alistGet? ((k0, v0) :: t) k'
      rw [if_pos rfl]
      show alistGet? t k' = if k0 = k' then some v0 else alistGet? t k'
      rw [if_neg (fun h => hne h.symm)]
    · simp only [alistDel, if_neg hk, alistGet?]
      by_cases hk' : k0 = k'
      · simp [hk']
      · simp [hk', ih]

theorem alistKeys_del_sublist (l : List (α × β)) (k : α) :
    (alistKeys (alistDel l k)).Sublist (alistKeys l) := by
  induction l with
  | nil => simp [alistDel]
  | cons p t ih =>
    obtain ⟨k0, v0⟩ := p
    by_cases hk : k0 = k
    · subst hk
      simp only [alistDel, if_pos rfl, alistKeys, List.map_cons]
      exact (List.sublist_cons_self _ _)
    · simpa [alistDel, hk, alistKeys] using ih.cons₂ k0

theorem nodup_alistKeys_del (l : List (α × β)) (k : α)
    (hnd : (alistKeys l).Nodup) : (alistKeys (alistDel l k)).Nodup :=
  hnd.sublist (alistKeys_del_sublist l k)

theorem mem_alistKeys_del (l : List (α × β)) (k k' : α) (hnd : (alistKeys l).Nodup) :
    k' ∈ alistKeys (alistDel l k) ↔ k' ∈ alistKeys l ∧ k' ≠ k := by
  constructor
  · intro hm
    by_cases hk : k' = k
    · rw [hk] at hm
      rw [mem_alistKeys_iff_get?_isSome, alistGet?_del_self l k hnd] at hm
      simp at hm
    · rw [mem_alistKeys_iff_get?_isSome, alistGet?_del_ne l k k' hk,
        ← mem_alistKeys_iff_get?_isSome] at hm
      exact ⟨hm, hk⟩
  · rintro ⟨hm, hk⟩
    rw [mem_alistKeys_iff_get?_isSome, alistGet?_del_ne l k k' hk,
      ← mem_alistKeys_iff_get?_isSome]
    exact hm

theorem alistGet?_update (a b : List (α × β)) (k : α) (hnd : (alistKeys b).Nodup) :
    alistGet? (alistUpdate a b) k =
      (match alistGet? b k with
       | some v => some v
       | none => alistGet? a k) := by
  induction b generalizing a with
  | nil => simp [alistUpdate, alistGet?]
  | cons p t ih =>
    obtain ⟨k0, v0⟩ := p
    simp only [alistKeys, List.map_cons, List.nodup_cons] at hnd
    by_cases hk : k0 = k
    · subst hk
      have hkt : alistGet? t k0 = none := alistGet?_eq_none_of_not_mem t k0 hnd.1
      simp only [alistUpdate, alistGet?, if_pos rfl, ih _ hnd.2, hkt]
      exact alistGet?_set_self a k0 v0
    · simp only [alistUpdate, alistGet?, if_neg hk, ih _ hnd.2]
      cases hb : alistGet? t k with
      | some v => rfl
      | none => exact alistGet?_set_ne a k0 k v0 (fun h => hk h.symm)

theorem mem_alistKeys_update (a b : List (α × β)) (k : α) :
    k ∈ alistKeys (alistUpdate a b) ↔ k ∈ alistKeys a ∨ k ∈ alistKeys b := by
  induction b generalizing a with
  | nil => simp [alistUpdate, alistKeys]
  | cons p t ih =>
    obtain ⟨k0, v0⟩ := p
    rw [alistUpdate, ih, mem_alistKeys_set]
    simp only [alistKeys, List.map_cons, List.mem_cons]
    tauto

theorem nodup_alistKeys_update (a b : List (α × β)) (hnd : (alistKeys a).Nodup) :
    (alistKeys (alistUpdate a b)).Nodup := by
  induction b generalizing a with
  | nil => exact hnd
  | cons p t ih => exact ih _ (nodup_alistKeys_set a p.1 p.2 hnd)

theorem mem_alistKeys_filter (l : List (α × β)) (S : List α) (k : α) :
    k ∈ alistKeys (l.filter (fun p => decide (p.1 ∈ S))) ↔ k ∈ alistKeys l ∧ k ∈ S := by
  induction l with
  | nil => simp [alistKeys]
  | cons p t ih =>
    obtain ⟨k0, v0⟩ := p
    by_cases hm : k0 ∈ S
    · simp only [List.filter_cons, decide_eq_true hm, alistKeys, List.map_cons,
        List.mem_cons, if_pos]
      rw [alistKeys] at ih
      constructor
      · rintro (rfl | h)
        · exact ⟨Or.inl rfl, hm⟩
        · exact ⟨Or.inr (ih.mp h).1, (ih.mp h).2⟩
      · rintro ⟨rfl | h, hS⟩
        · exact Or.inl rfl
        · exact Or.inr (ih.mpr ⟨h, hS⟩)
    · simp only [List.filter_cons, decide_eq_false hm, if_neg, alistKeys, List.map_cons,
        List.mem_cons, Bool.false_eq_true, not_false_iff]
      rw [alistKeys] at ih
      constructor
      · intro h
        exact ⟨Or.inr (ih.mp h).1, (ih.mp h).2⟩
      · rintro ⟨rfl | h, hS⟩
        · exact absurd hS hm
        · exact ih.mpr ⟨h, hS⟩

theorem nodup_alistKeys_filter (l : List (α × β)) (q : α × β → Bool)
    (hnd : (alistKeys l).Nodup) : (alistKeys (l.filter q)).Nodup := by
  have : (alistKeys (l.filter q)).Sublist (alistKeys l) :=
    (List.filter_sublist l).map Prod.fst
  exact hnd.sublist this

theorem alistGet?_filter_keyPred (l : List (α × β)) (S : List α) (k : α) (hk : k ∈ S) :
    alistGet? (l.filter (fun p => decide (p.1 ∈ S))) k = alistGet? l k := by
  induction l with
  | nil => simp
  | cons p t ih =>
    obtain ⟨k0, v0⟩ := p
    by_cases hm : k0 ∈ S
    · simp only [List.filter_cons, decide_eq_true hm, if_pos, alistGet?]
      by_cases hk0 : k0 = k
      · simp [hk0]
      · simp [hk0, ih]
    · have hk0 : k0 ≠ k := fun h => hm (h ▸ hk)
      simp only [List.filter_cons, decide_eq_false hm, Bool.false_eq_true, if_neg,
        not_false_iff, alistGet?, if_neg hk0]
      exact ih

end AlistLemmas

/-! ## Heap accessor lemmas -/

section HeapLemmas

variable {V : Type}

theorem node?_setNode_self (h : Heap V) (nid : Nat) (n : NodeObj V) :
    (h.setNode nid n).node? nid = some n :=
  alistGet?_set_self h.nodes nid n

theorem node?_setNode_ne (h : Heap V) (nid m : Nat) (n : NodeObj V) (hne : m ≠ nid) :
    (h.setNode nid n).node? m = h.node? m :=
  alistGet?_set_ne h.nodes nid m n hne

theorem store?_setNode (h : Heap V) (nid : Nat) (n : NodeObj V) (sid : Nat) :
    (h.setNode nid n).store? sid = h.store? sid := rfl

theorem node?_setStoreC (h : Heap V) (sid : Nat) (st : List (String × V)) (m : Nat) :
    (h.setStoreC sid st).node? m = h.node? m := rfl

theorem store?_setStoreC_self (h : Heap V) (sid : Nat) (st : List (String × V)) :
    (h.setStoreC sid st).store? sid = some st :=
  alistGet?_set_self h.stores sid st

theorem store?_setStoreC_ne (h : Heap V) (sid : Nat) (st : List (String × V)) (s : Nat)
    (hne : s ≠ sid) : (h.setStoreC sid st).store? s = h.store? s :=
  alistGet?_set_ne h.stores sid s st hne

theorem node?_allocStore (h : Heap V) (st : List (String × V)) (m : Nat) :
    (h.allocStore st).1.node? m = h.node? m := rfl

theorem store?_allocStore_fresh (h : Heap V) (st : List (String × V)) :
    (h.allocStore st).1.store? h.nextStore = some st :=
  alistGet?_set_self h.stores h.nextStore st

theorem store?_allocStore_ne (h : Heap V) (st : List (String × V)) (sid : Nat)
    (hne : sid ≠ h.nextStore) : (h.allocStore st).1.store? sid = h.store? sid :=
  alistGet?_set_ne h.stores h.nextStore sid st hne

theorem store?_allocNode (h : Heap V) (n : NodeObj V) (sid : Nat) :
    (h.allocNode n).1.store? sid = h.store? sid := rfl

theorem node?_allocNode_fresh (h : Heap V) (n : NodeObj V) :
    (h.allocNode n).1.node? h.nextNode = some n :=
  alistGet?_set_self h.nodes h.nextNode n

theorem node?_allocNode_ne (h : Heap V) (n : NodeObj V) (m : Nat) (hne : m ≠ h.nextNode) :
    (h.allocNode n).1.node? m = h.node? m :=
  alistGet?_set_ne h.nodes h.nextNode m n hne

/-- The parent walk of the `value_dict` getter only reads the `parent` and
`_value_dict` attributes, so it is stable under changes to the rest of the heap. -/
theorem value_sid_congr (h h' : Heap V)
    (hag : ∀ m, (h'.node? m).map (fun n => (n.parent, n.value_dict)) =
      (h.node? m).map (fun n => (n.parent, n.value_dict))) :
    ∀ f nid, value_sid h' f nid = value_sid h f nid := by
  intro f
  induction f with
  | zero => intro nid; rfl
  | succ f ih =>
    intro nid
    have := hag nid
    cases hn' : h'.node? nid with
    | none =>
      rw [hn'] at this
      cases hn : h.node? nid with
      | none => simp [value_sid, hn', hn]
      | some n => rw [hn] at this; simp at this
    | some n' =>
      rw [hn'] at this
      cases hn : h.node? nid with
      | none => rw [hn] at this; simp at this
      | some n =>
        rw [hn] at this
        simp only [Option.map_some'] at this
        have hpar : n'.parent = n.parent := congrArg Prod.fst (Option.some.inj this)
        have hvd : n'.value_dict = n.value_dict := congrArg Prod.snd (Option.some.inj this)
        simp only [value_sid, hn', hn, hpar, hvd]
        cases n.parent with
        | none => rfl
        | some p => exact ih p

end HeapLemmas

/-! ## Error-class lemmas: which operations can raise which errors -/

section ErrorLemmas

variable {V : Type}

theorem value_sid_error (h : Heap V) :
    ∀ f nid e, value_sid h f nid = .error e → e = .noFuel ∨ e = .badRef := by
  intro f
  induction f with
  | zero =>
    intro nid e he
    rw [value_sid] at he
    exact Or.inl (Except.error.inj he).symm
  | succ f ih =>
    intro nid e he
    simp only [value_sid] at he
    split at he
    · exact Or.inr (Except.error.inj he).symm
    · split at he
      · simp at he
      · exact ih _ e he

theorem effStore_error (f : Nat) (h : Heap V) (nid : Nat) (e : PErr)
    (he : effStore f h nid = .error e) : e = .noFuel ∨ e = .badRef := by
  simp only [effStore] at he
  split at he
  case _ e' hv =>
    exact (Except.error.inj he) ▸ value_sid_error h f nid e' hv
  · split at he
    · exact Or.inr (Except.error.inj he).symm
    · simp at he

theorem hashes_error (h : Heap V) :
    ∀ f, (∀ nid e, all_hashes_in_use f h nid = .error e →
            e = .noFuel ∨ e = .badRef ∨ e = .attrError) ∧
         (∀ sl e, hashes_of_slots f h sl = .error e →
            e = .noFuel ∨ e = .badRef ∨ e = .attrError) := by
  intro f
  induction f with
  | zero =>
    constructor
    · intro nid e he
      rw [all_hashes_in_use] at he
      exact Or.inl (Except.error.inj he).symm
    · intro sl e he
      rw [hashes_of_slots] at he
      exact Or.inl (Except.error.inj he).symm
  | succ f ih =>
    constructor
    · intro nid e he
      simp only [all_hashes_in_use] at he
      split at he
      · exact Or.inr (Or.inl (Except.error.inj he).symm)
      · exact ih.2 _ e he
    · intro sl e he
      match sl with
      | [] => simp [hashes_of_slots] at he
      | .str s :: rest =>
        simp only [hashes_of_slots] at he
        split at he
        case _ e' hr =>
          exact (Except.error.inj he) ▸ ih.2 rest e' hr
        · simp at he
      | .node cid :: rest =>
        simp only [hashes_of_slots] at he
        split at he
        case _ e' hc =>
          exact (Except.error.inj he) ▸ ih.1 cid e' hc
        · split at he
          case _ e' hr =>
            exact (Except.error.inj he) ▸ ih.2 rest e' hr
          · simp at he
      | .raw v :: rest =>
        simp only [hashes_of_slots] at he
        exact Or.inr (Or.inr (Except.error.inj he).symm)

theorem clean_up_error (h' : Heap V) :
    ∀ f (h : Heap V) nid e, clean_up f h nid = (h', .error e) →
      e = .noFuel ∨ e = .badRef ∨ e = .attrError := by
  intro f
  induction f generalizing h' with
  | zero =>
    intro h nid e he
    rw [clean_up] at he
    simp only [Prod.mk.injEq] at he
    exact Or.inl (Except.error.inj he.2).symm
  | succ f ih =>
    intro h nid e he
    simp only [clean_up] at he
    split at he
    · simp only [Prod.mk.injEq] at he
      exact Or.inr (Or.inl (Except.error.inj he.2).symm)
    · split at he
      · exact ih h' h _ e he
      · split at he
        case _ e' ha =>
          simp only [Prod.mk.injEq] at he
          exact (Except.error.inj he.2) ▸ (hashes_error h f).1 _ e' ha
        · split at he
          · simp only [Prod.mk.injEq] at he
            exact Or.inr (Or.inl (Except.error.inj he.2).symm)
          · simp at he

theorem set_parent_error (c : Cfg V) (h' : Heap V) :
    ∀ f (h : Heap V) nid pp e, set_parent c f h nid pp = (h', .error e) →
      e = .noFuel ∨ e = .badRef ∨ e = .attrError := by
  intro f
  induction f generalizing h' with
  | zero =>
    intro h nid pp e he
    rw [set_parent] at he
    simp only [Prod.mk.injEq] at he
    exact Or.inl (Except.error.inj he.2).symm
  | succ f _ih =>
    intro h nid pp e he
    match pp with
    | none =>
      simp only [set_parent] at he
      split at he
      case _ e' hs =>
        simp only [Prod.mk.injEq] at he
        rw [← Except.error.inj he.2]
        rcases effStore_error f h nid e' hs with h1 | h1
        · exact Or.inl h1
        · exact Or.inr (Or.inl h1)
      · split at he
        · simp only [Prod.mk.injEq] at he
          exact Or.inr (Or.inl (Except.error.inj he.2).symm)
        · split at he
          · exact clean_up_error h' f _ _ e he
          · simp at he
    | some p =>
      simp only [set_parent] at he
      split at he
      case _ e' hp =>
        simp only [Prod.mk.injEq] at he
        rw [← Except.error.inj he.2]
        rcases value_sid_error h f p e' hp with h1 | h1
        · exact Or.inl h1
        · exact Or.inr (Or.inl h1)
      · split at he
        case _ e' hc =>
          simp only [Prod.mk.injEq] at he
          rw [← Except.error.inj he.2]
          rcases value_sid_error h f nid e' hc with h1 | h1
          · exact Or.inl h1
          · exact Or.inr (Or.inl h1)
        · split at he
          · split at he
            · simp only [Prod.mk.injEq] at he
              exact Or.inr (Or.inl (Except.error.inj he.2).symm)
            · simp at he
          · simp only [Prod.mk.injEq] at he
            exact Or.inr (Or.inl (Except.error.inj he.2).symm)

theorem delitem_not_keyError_of_present (c : Cfg V) (f : Nat) (h h' : Heap V)
    (nid : Nat) (key : String) (n : NodeObj V) (hn : h.node? nid = some n)
    (hpres : (alistGet? n.key_dict key).isSome)
    (he : delitem c (f + 1) h nid key = (h', .error .keyError)) : False := by
  simp only [delitem, hn] at he
  cases hget : alistGet? n.key_dict key with
  | none => rw [hget] at hpres; simp at hpres
  | some v =>
    rw [hget] at he
    have notk : ∀ (e : PErr), e = .noFuel ∨ e = .badRef ∨ e = .attrError →
        e ≠ PErr.keyError := by
      rintro e (rfl | rfl | rfl) <;> simp
    match v with
    | .node cid =>
      simp only at he
      split at he
      case _ e hsp =>
        simp only [Prod.mk.injEq] at he
        obtain rfl : e = PErr.keyError := Except.error.inj he.2
        exact notk _ (set_parent_error c _ f _ cid none _ hsp) rfl
      · split at he
        · exact notk _ (clean_up_error h' f _ nid _ he) rfl
        · simp at he
    | .str s =>
      simp only at he
      split at he
      · exact notk _ (clean_up_error h' f _ nid _ he) rfl
      · simp at he
    | .raw w =>
      simp only at he
      split at he
      · exact notk _ (clean_up_error h' f _ nid _ he) rfl
      · simp at he

end ErrorLemmas


/-! ## Store-key uniqueness invariant (Python dicts cannot repeat keys) -/

section NodupLemmas

variable {V : Type}

theorem storesNodup_setNode (h : Heap V) (nid : Nat) (n : NodeObj V)
    (hs : h.StoresNodup) : (h.setNode nid n).StoresNodup := hs

theorem storesNodup_setStoreC (h : Heap V) (sid : Nat) (st : List (String × V))
    (hs : h.StoresNodup) (hnd : (alistKeys st).Nodup) : (h.setStoreC sid st).StoresNodup := by
  intro s t hget
  by_cases hcase : s = sid
  · subst hcase
    rw [store?_setStoreC_self] at hget
    cases hget
    exact hnd
  · rw [store?_setStoreC_ne h sid st s hcase] at hget
    exact hs s t hget

theorem storesNodup_allocStore (h : Heap V) (st : List (String × V))
    (hs : h.StoresNodup) (hnd : (alistKeys st).Nodup) : (h.allocStore st).1.StoresNodup := by
  intro s t hget
  by_cases hcase : s = h.nextStore
  · subst hcase
    rw [store?_allocStore_fresh] at hget
    cases hget
    exact hnd
  · rw [store?_allocStore_ne h st s hcase] at hget
    exact hs s t hget

theorem storesNodup_allocNode (h : Heap V) (n : NodeObj V)
    (hs : h.StoresNodup) : (h.allocNode n).1.StoresNodup := hs

theorem effStore_ok_inv (f : Nat) (h : Heap V) (nid : Nat) (st : List (String × V))
    (hs : effStore f h nid = .ok st) :
    ∃ sid, value_sid h f nid = .ok sid ∧ h.store? sid = some st := by
  simp only [effStore] at hs
  split at hs
  · simp at hs
  · case _ sid hv =>
    split at hs
    · simp at hs
    · case _ t hget =>
      cases hs
      exact ⟨sid, hv, hget⟩

theorem effStore_ok_nodup (f : Nat) (h : Heap V) (nid : Nat) (st : List (String × V))
    (hs : effStore f h nid = .ok st) (hn : h.StoresNodup) : (alistKeys st).Nodup := by
  obtain ⟨sid, _, hget⟩ := effStore_ok_inv f h nid st hs
  exact hn sid st hget

theorem clean_up_nodup :
    ∀ f (h : Heap V) nid h' r, clean_up f h nid = (h', r) → h.StoresNodup → h'.StoresNodup := by
  intro f
  induction f with
  | zero =>
    intro h nid h' r he hs
    rw [clean_up] at he
    injection he with e1 _
    subst e1
    exact hs
  | succ f ih =>
    intro h nid h' r he hs
    simp only [clean_up] at he
    split at he
    · injection he with e1 _
      subst e1
      exact hs
    · split at he
      · exact ih h _ h' r he hs
      · split at he
        · injection he with e1 _
          subst e1
          exact hs
        · split at he
          · injection he with e1 _
            subst e1
            exact hs
          · case _ n hn _ inUse _ st hst =>
            injection he with e1 _
            subst e1
            exact storesNodup_setStoreC h _ _ hs
              (nodup_alistKeys_filter st _ (hs _ st hst))

theorem set_parent_nodup (c : Cfg V) :
    ∀ f (h : Heap V) nid pp h' r, set_parent c f h nid pp = (h', r) →
      h.StoresNodup → h'.StoresNodup := by
  intro f
  induction f with
  | zero =>
    intro h nid pp h' r he hs
    rw [set_parent] at he
    injection he with e1 _
    subst e1
    exact hs
  | succ f _ih =>
    intro h nid pp h' r he hs
    match pp with
    | none =>
      simp only [set_parent] at he
      split at he
      · injection he with e1 _
        subst e1
        exact hs
      · case _ st hst =>
        have hstnd : (alistKeys st).Nodup := effStore_ok_nodup f h nid st hst hs
        have hs1 : (h.allocStore st).1.StoresNodup := storesNodup_allocStore h st hs hstnd
        split at he
        · injection he with e1 _
          subst e1
          exact hs1
        · case _ n hn =>
          split at he
          · exact clean_up_nodup f _ nid h' r he (storesNodup_setNode _ nid _ hs1)
          · injection he with e1 _
            subst e1
            exact storesNodup_setNode _ nid _ hs1
    | some p =>
      simp only [set_parent] at he
      split at he
      · injection he with e1 _
        subst e1
        exact hs
      · case _ psid hpsid =>
        split at he
        · injection he with e1 _
          subst e1
          exact hs
        · case _ csid hcsid =>
          split at he
          case _ pst cst hps hcs =>
            have hnd1 : (alistKeys (alistUpdate pst cst)).Nodup :=
              nodup_alistKeys_update pst cst (hs _ pst hps)
            have hs1 : ((h.setStoreC psid (alistUpdate pst cst)).allocStore []).1.StoresNodup := by
              apply storesNodup_allocStore _ _ (storesNodup_setStoreC h psid _ hs hnd1)
              simp [alistKeys]
            split at he
            · injection he with e1 _
              subst e1
              exact hs1
            · injection he with e1 _
              subst e1
              exact storesNodup_setNode _ nid _ hs1
          case _ =>
            injection he with e1 _
            subst e1
            exact hs

theorem delitem_nodup (c : Cfg V) :
    ∀ f (h : Heap V) nid key h' r, delitem c f h nid key = (h', r) →
      h.StoresNodup → h'.StoresNodup := by
  intro f
  induction f with
  | zero =>
    intro h nid key h' r he hs
    rw [delitem] at he
    injection he with e1 _
    subst e1
    exact hs
  | succ f _ih =>
    intro h nid key h' r he hs
    simp only [delitem] at he
    split at he
    · injection he with e1 _
      subst e1
      exact hs
    · case _ n hn =>
      split at he
      · injection he with e1 _
        subst e1
        exact hs
      · case _ v hv =>
        have hs1 : (h.setNode nid { n with key_dict := alistDel n.key_dict key }).StoresNodup :=
          storesNodup_setNode h nid _ hs
        split at he
        · case _ cid =>
          split at he
          · case _ h2 e hsp =>
            injection he with e1 _
            subst e1
            exact set_parent_nodup c f _ cid none h2 _ hsp hs1
          · case _ h2 u hsp =>
            have hs2 : h2.StoresNodup := set_parent_nodup c f _ cid none h2 _ hsp hs1
            split at he
            · exact clean_up_nodup f h2 nid h' r he hs2
            · injection he with e1 _
              subst e1
              exact hs2
        · split at he
          · exact clean_up_nodup f _ nid h' r he hs1
          · injection he with e1 _
            subst e1
            exact hs1

theorem setitem_family_nodup (c : Cfg V) :
    ∀ f, (∀ (h : Heap V) nid key v h' r, setitem c f h nid key v = (h', r) →
            h.StoresNodup → h'.StoresNodup) ∧
         (∀ (h : Heap V) nid key cid h' r, setitem_node_case c f h nid key cid = (h', r) →
            h.StoresNodup → h'.StoresNodup) ∧
         (∀ (h : Heap V) init vd h' r, ddInit c f h init vd = (h', r) →
            h.StoresNodup → h'.StoresNodup) ∧
         (∀ (h : Heap V) nid init h' r, setitems c f h nid init = (h', r) →
            h.StoresNodup → h'.StoresNodup) := by
  intro f
  induction f with
  | zero =>
    refine ⟨?_, ?_, ?_, ?_⟩
    · intro h nid key v h' r he hs
      rw [setitem] at he
      injection he with e1 _
      subst e1
      exact hs
    · intro h nid key cid h' r he hs
      rw [setitem_node_case] at he
      injection he with e1 _
      subst e1
      exact hs
    · intro h init vd h' r he hs
      rw [ddInit] at he
      injection he with e1 _
      subst e1
      exact hs
    · intro h nid init h' r he hs
      rw [setitems] at he
      injection he with e1 _
      subst e1
      exact hs
  | succ f ih =>
    obtain ⟨ihset, ihnode, ihinit, ihitems⟩ := ih
    refine ⟨?_, ?_, ?_, ?_⟩
    · intro h nid key v h' r he hs
      simp only [setitem] at he
      split at he
      · injection he with e1 _
        subst e1
        exact hs
      · case _ n hn =>
        split at he
        · case _ h1 e hdel =>
          injection he with e1 _
          subst e1
          by_cases hmem : (alistGet? n.key_dict key).isSome
          · rw [if_pos hmem] at hdel
            exact delitem_nodup c f h nid key h1 _ hdel hs
          · rw [if_neg hmem] at hdel
            injection hdel with d1 _
            subst d1
            exact hs
        · case _ h1 u hdel =>
          have hs1 : h1.StoresNodup := by
            by_cases hmem : (alistGet? n.key_dict key).isSome
            · rw [if_pos hmem] at hdel
              exact delitem_nodup c f h nid key h1 _ hdel hs
            · rw [if_neg hmem] at hdel
              injection hdel with d1 _
              subst d1
              exact hs
          split at he
          · case _ d =>
            split at he
            · case _ h2 e hinit =>
              injection he with e1 _
              subst e1
              exact ihinit h1 _ none h2 _ hinit hs1
            · case _ h2 cid hinit =>
              exact ihnode h2 nid key cid h' r he (ihinit h1 _ none h2 _ hinit hs1)
          · case _ cid =>
            exact ihnode h1 nid key cid h' r he hs1
          · case _ v0 =>
            split at he
            · injection he with e1 _
              subst e1
              exact hs1
            · case _ n1 hn1 =>
              have hs2 := storesNodup_setNode h1 nid
                { n1 with key_dict := alistSet n1.key_dict key (Slot.str (hashId c v0)) } hs1
              split at he
              · injection he with e1 _
                subst e1
                exact hs2
              · case _ sid hsid =>
                split at he
                · injection he with e1 _
                  subst e1
                  exact hs2
                · case _ st hst =>
                  split at he
                  · injection he with e1 _
                    subst e1
                    exact hs2
                  · injection he with e1 _
                    subst e1
                    exact storesNodup_setStoreC _ sid _ hs2
                      (nodup_alistKeys_set st _ _ (hs2 sid st hst))
    · intro h nid key cid h' r he hs
      simp only [setitem_node_case] at he
      split at he
      · case _ h1 e hsp =>
        injection he with e1 _
        subst e1
        exact set_parent_nodup c f h cid (some nid) h1 _ hsp hs
      · case _ h1 u hsp =>
        have hs1 : h1.StoresNodup := set_parent_nodup c f h cid (some nid) h1 _ hsp hs
        split at he
        · injection he with e1 _
          subst e1
          exact hs1
        · injection he with e1 _
          subst e1
          exact storesNodup_setNode h1 nid _ hs1
    · intro h init vd h' r he hs
      simp only [ddInit] at he
      match vd with
      | none =>
        have hs1 : ((h.allocStore []).1.allocNode
            { key_dict := [], value_dict := (h.allocStore []).2, parent := none }).1.StoresNodup := by
          apply storesNodup_allocNode
          apply storesNodup_allocStore h [] hs
          simp [alistKeys]
        exact ihitems _ _ init h' r he hs1
      | some s =>
        have hs1 : (h.allocNode
            { key_dict := [], value_dict := s, parent := none }).1.StoresNodup :=
          storesNodup_allocNode h _ hs
        exact ihitems _ _ init h' r he hs1
    · intro h nid init h' r he hs
      match init with
      | [] =>
        rw [setitems] at he
        injection he with e1 _
        subst e1
        exact hs
      | (k, v) :: rest =>
        simp only [setitems] at he
        split at he
        · case _ h1 e hset =>
          injection he with e1 _
          subst e1
          exact ihset h nid k v h1 _ hset hs
        · case _ h1 u hset =>
          exact ihitems h1 nid rest h' r he (ihset h nid k v h1 _ hset hs)

theorem set_value_dict_nodup (h : Heap V) (nid sid : Nat) (h' : Heap V) (r : Except PErr Unit)
    (he : set_value_dict h nid sid = (h', r)) (hs : h.StoresNodup) : h'.StoresNodup := by
  simp only [set_value_dict] at he
  split at he
  · injection he with e1 _
    subst e1
    exact hs
  · split at he
    · injection he with e1 _
      subst e1
      exact hs
    · injection he with e1 _
      subst e1
      exact storesNodup_setNode h nid _ hs

theorem set_key_dict_nodup (c : Cfg V) :
    ∀ f (h : Heap V) nid kd h' r, set_key_dict c f h nid kd = (h', r) →
      h.StoresNodup → h'.StoresNodup := by
  intro f
  induction f with
  | zero =>
    intro h nid kd h' r he hs
    rw [set_key_dict] at he
    injection he with e1 _
    subst e1
    exact hs
  | succ f ih =>
    intro h nid kd h' r he hs
    match kd with
    | [] =>
      rw [set_key_dict] at he
      injection he with e1 _
      subst e1
      exact hs
    | (k, jv) :: rest =>
      match jv with
      | .dict d =>
        simp only [set_key_dict] at he
        split at he
        · case _ h1 e hinit =>
          injection he with e1 _
          subst e1
          exact (setitem_family_nodup c f).2.2.1 h [] none h1 _ hinit hs
        · case _ h1 cid hinit =>
          have hs1 : h1.StoresNodup := (setitem_family_nodup c f).2.2.1 h [] none h1 _ hinit hs
          split at he
          · injection he with e1 _
            subst e1
            exact hs1
          · case _ sid hsid =>
            split at he
            · case _ h2 e hsv =>
              injection he with e1 _
              subst e1
              exact set_value_dict_nodup h1 cid sid h2 _ hsv hs1
            · case _ h2 u hsv =>
              have hs2 : h2.StoresNodup := set_value_dict_nodup h1 cid sid h2 _ hsv hs1
              split at he
              · case _ h3 e hrec =>
                injection he with e1 _
                subst e1
                exact ih h2 cid d h3 _ hrec hs2
              · case _ h3 u2 hrec =>
                have hs3 : h3.StoresNodup := ih h2 cid d h3 _ hrec hs2
                split at he
                · injection he with e1 _
                  subst e1
                  exact hs3
                · exact ih _ nid rest h' r he (storesNodup_setNode h3 nid _ hs3)
      | .str s =>
        simp only [set_key_dict] at he
        split at he
        · injection he with e1 _
          subst e1
          exact hs
        · exact ih _ nid rest h' r he (storesNodup_setNode h nid _ hs)
      | .leaf v =>
        simp only [set_key_dict] at he
        split at he
        · injection he with e1 _
          subst e1
          exact hs
        · exact ih _ nid rest h' r he (storesNodup_setNode h nid _ hs)

end NodupLemmas



/-! ## Claim theorems -/

/-- C2: the specification claims `detach()` produces a fully independent copy
with its own garbage-collected store, so that mutating a leaf in the copy can
never change a value observable in the source.  The code violates this:
`to_json_save_dict` returns the live store object and `from_json_save_dict`
installs it by reference, so for T1 built from ("a", 1), T2 = T1.detach()
resolves to the very same store object (address 0) as T1; the write
T2["a"] = 2 first deletes "a" in T2, whose auto clean-up empties the shared
store, after which T1["a"] — well-defined (value 1) before the write — raises
KeyError.  This contradicts the method's own docstring ("a new
DeDuplicationDict instance with its own value dictionary"), hence a code bug. -/
theorem c2_detach_shares_store_bug :
    (build cfgNat 20 emptyHeap [("a", NVal.leaf 1)]).2 = Except.ok 0 ∧
    (detach cfgNat 20 c2heap1 0).2 = Except.ok 1 ∧
    value_sid c2heap2 20 1 = Except.ok 0 ∧
    value_sid c2heap2 20 0 = Except.ok 0 ∧
    getitem 20 c2heap2 0 "a" = Except.ok (GetRes.value 1) ∧
    (setitem cfgNat 20 c2heap2 1 "a" (PyVal.leaf 2)).2 = Except.ok () ∧
    getitem 20 c2heap3 0 "a" = Except.error PErr.keyError :=
  ⟨rfl, rfl, rfl, rfl, rfl, rfl, rfl⟩

/-- C3 counterexample: a tree reconstructed from a malformed persisted form
(key "a" holding hash "h1" over an empty store) still has "h1" in
`all_hashes_in_use` after `clean_up()`, while the effective store's key set is
empty — so "the key set equals all_hashes_in_use" fails as stated for this
tree, because `clean_up` only ever deletes store entries and cannot create the
missing ones. -/
theorem c3_cleanup_counterexample :
    (from_json_save_dict cfgNat 20 ((emptyHeap (V := Nat)).allocStore []).1
        [("a", JVal.str "h1")] 0).2 = Except.ok 0 ∧
    (clean_up 20 c3heap 0).2 = Except.ok () ∧
    all_hashes_in_use 20 (clean_up 20 c3heap 0).1 0 = Except.ok ["h1"] ∧
    effStore 20 (clean_up 20 c3heap 0).1 0 = Except.ok [] ∧
    "h1" ∉ alistKeys ([] : List (String × Nat)) :=
  ⟨rfl, rfl, rfl, rfl, by simp [alistKeys]⟩

/-- C3 (amended): `clean_up` on a parented node delegates to its parent (hence
to the real root), and on a root it replaces the store contents by exactly the
bindings whose key is in `all_hashes_in_use`; thus the resulting key set is
`all_hashes_in_use ∩ (previous key set)`, which equals `all_hashes_in_use`
exactly when every in-use hash was already present in the store (as after any
sequence of writes). -/
theorem c3_cleanup_exactness {V : Type} (f : Nat) (h : Heap V) (nid : Nat) (n : NodeObj V)
    (hn : h.node? nid = some n) :
    (∀ p, n.parent = some p → clean_up (f + 1) h nid = clean_up f h p) ∧
    (∀ inUse st, n.parent = none →
      all_hashes_in_use f h nid = Except.ok inUse →
      h.store? n.value_dict = some st →
      clean_up (f + 1) h nid =
        (h.setStoreC n.value_dict (st.filter (fun q => decide (q.1 ∈ inUse))), Except.ok ()) ∧
      (∀ k, k ∈ alistKeys (st.filter (fun q => decide (q.1 ∈ inUse))) ↔
        k ∈ alistKeys st ∧ k ∈ inUse) ∧
      ((∀ k, k ∈ inUse → k ∈ alistKeys st) →
        ∀ k, k ∈ alistKeys (st.filter (fun q => decide (q.1 ∈ inUse))) ↔ k ∈ inUse)) := by
  constructor
  · intro p hp
    simp only [clean_up, hn, hp]
  · intro inUse st hpar hin hst
    refine ⟨by simp only [clean_up, hn, hpar, hin, hst], ?_, ?_⟩
    · intro k
      exact mem_alistKeys_filter st inUse k
    · intro hsub k
      rw [mem_alistKeys_filter st inUse k]
      constructor
      · exact And.right
      · intro hk
        exact ⟨hsub k hk, hk⟩

/-- C3 witness: on the well-formed two-entry tree `c4heap` (root node 0, store
0 holding the hashes of 1 and 2, both in use), the amendment applies with every
hypothesis discharged concretely. -/
theorem c3_cleanup_exactness_witness :
    clean_up 21 c4heap 0 =
      (c4heap.setStoreC 0
        ([("1.", 1), ("2.", 2)].filter (fun q => decide (q.1 ∈ ["1.", "2."]))),
       Except.ok ()) ∧
    (∀ k, k ∈ alistKeys ([("1.", 1), ("2.", 2)].filter
        (fun q => decide (q.1 ∈ ["1.", "2."]))) ↔ k ∈ ["1.", "2."]) := by
  have h := (c3_cleanup_exactness 20 c4heap 0
      ⟨[("k", Slot.str "1."), ("j", Slot.str "2.")], 0, none⟩ rfl).2
      ["1.", "2."] [("1.", 1), ("2.", 2)] rfl rfl rfl
  exact ⟨h.1, h.2.2 (by decide)⟩



/-- C5 counterexample: the claim says that on a hash present in both stores the
parent's existing binding wins the merge.  With parent store {"x": 1} (object 0)
and child store {"x": 2} (object 1) — both installed through the public
`_value_dict` constructor argument — `child.parent = parent` executes
`parent.value_dict.update(self.value_dict)`, and Python `dict.update` lets the
child's binding overwrite: the parent's store ends as {"x": 2}, not {"x": 1}. -/
theorem c5_attach_conflict_counterexample :
    (ddInit cfgNat 20 c5heap0 [] (some 0)).2 = Except.ok 0 ∧
    (ddInit cfgNat 20 c5heapP [] (some 1)).2 = Except.ok 1 ∧
    c5heap0.store? 0 = some [("x", 1)] ∧
    c5heap0.store? 1 = some [("x", 2)] ∧
    (set_parent cfgNat 20 c5heapC 1 (some 0)).2 = Except.ok () ∧
    (set_parent cfgNat 20 c5heapC 1 (some 0)).1.store? 0 = some [("x", 2)] ∧
    some [("x", 2)] ≠ some [("x", 1)] :=
  ⟨rfl, rfl, rfl, rfl, rfl, rfl, by decide⟩

/-- C5 (amended): setting `child.parent = parent` merges the child's CURRENT
effective store (resolved through its old parent chain, so never a stale
private store) into the parent's effective store with `dict.update` semantics —
the child's bindings overwrite the parent's on conflict (observationally
irrelevant only when equal hashes carry equal payloads); it then sets the
child's parent attribute and gives the child a fresh empty private store. -/
theorem c5_attach_characterization {V : Type} (c : Cfg V) (f : Nat) (h : Heap V)
    (nid p psid csid : Nat) (pst cst : List (String × V)) (n : NodeObj V)
    (hps : value_sid h f p = Except.ok psid) (hcs : value_sid h f nid = Except.ok csid)
    (hpst : h.store? psid = some pst) (hcst : h.store? csid = some cst)
    (hn : h.node? nid = some n) (hfresh : psid ≠ h.nextStore) :
    set_parent c (f + 1) h nid (some p) =
      (((h.setStoreC psid (alistUpdate pst cst)).allocStore []).1.setNode nid
         { n with parent := some p, value_dict := h.nextStore }, Except.ok ()) ∧
    (set_parent c (f + 1) h nid (some p)).1.store? psid = some (alistUpdate pst cst) ∧
    (set_parent c (f + 1) h nid (some p)).1.node? nid =
      some { n with parent := some p, value_dict := h.nextStore } ∧
    (set_parent c (f + 1) h nid (some p)).1.store? h.nextStore = some [] ∧
    (∀ k w w', (alistKeys cst).Nodup → alistGet? pst k = some w →
      alistGet? cst k = some w' → alistGet? (alistUpdate pst cst) k = some w') := by
  have hrun : set_parent c (f + 1) h nid (some p) =
      (((h.setStoreC psid (alistUpdate pst cst)).allocStore []).1.setNode nid
         { n with parent := some p, value_dict := h.nextStore }, Except.ok ()) := by
    have hn2 : ((h.setStoreC psid (alistUpdate pst cst)).allocStore []).1.node? nid =
        some n := hn
    simp only [set_parent, hps, hcs, hpst, hcst, hn2]
    rfl
  refine ⟨hrun, ?_, ?_, ?_, ?_⟩
  · rw [hrun]
    show (((h.setStoreC psid (alistUpdate pst cst)).allocStore []).1.setNode nid
      { n with parent := some p, value_dict := h.nextStore }).store? psid = _
    rw [store?_setNode,
      store?_allocStore_ne _ _ _
        (show psid ≠ (h.setStoreC psid (alistUpdate pst cst)).nextStore from hfresh),
      store?_setStoreC_self]
  · rw [hrun]
    exact node?_setNode_self _ nid _
  · rw [hrun]
    show (((h.setStoreC psid (alistUpdate pst cst)).allocStore []).1.setNode nid
      { n with parent := some p, value_dict := h.nextStore }).store?
        (h.setStoreC psid (alistUpdate pst cst)).nextStore = _
    rw [store?_setNode, store?_allocStore_fresh]
  · intro k w w' hnd hw hw'
    rw [alistGet?_update pst cst k hnd, hw']

/-- C5 witness: the amendment applied to the concrete two-store scenario, every
hypothesis discharged by evaluation. -/
theorem c5_attach_characterization_witness :
    (set_parent cfgNat 21 c5heapC 1 (some 0)).1.store? 0 =
      some (alistUpdate [("x", 1)] [("x", 2)]) ∧
    (set_parent cfgNat 21 c5heapC 1 (some 0)).1.node? 1 =
      some { key_dict := [], parent := some 0, value_dict := 2 } := by
  have h := c5_attach_characterization cfgNat 20 c5heapC 1 0 0 1
    [("x", 1)] [("x", 2)] ⟨[], 1, none⟩ rfl rfl rfl rfl rfl (by decide)
  exact ⟨h.2.1, h.2.2.1⟩

/-- C9: when a slot holds a hash-reference string that is absent from the
effective store, `__getitem__` raises KeyError (Python dict indexing inside the
string branch), not TypeError; the TypeError branch is reached exactly when the
slot holds neither a string nor a child node. -/
theorem c9_getitem_error_classification {V : Type} (f : Nat) (h : Heap V) (nid : Nat)
    (key : String) (n : NodeObj V) (hn : h.node? nid = some n) :
    (∀ s st, alistGet? n.key_dict key = some (Slot.str s) →
      effStore f h nid = Except.ok st → alistGet? st s = none →
      getitem f h nid key = Except.error PErr.keyError) ∧
    (getitem f h nid key = Except.error PErr.typeError ↔
      ∃ v, alistGet? n.key_dict key = some (Slot.raw v)) := by
  constructor
  · intro s st hslot hst hmiss
    simp only [getitem, hn, hslot, hst, hmiss]
  · constructor
    · intro hty
      simp only [getitem, hn] at hty
      cases hslot : alistGet? n.key_dict key with
      | none => rw [hslot] at hty; simp at hty
      | some sl =>
        rw [hslot] at hty
        match sl with
        | .node cid => simp at hty
        | .raw v => exact ⟨v, rfl⟩
        | .str s =>
          simp only at hty
          split at hty
          case _ e hst =>
            have := effStore_error f h nid e hst
            rcases this with rfl | rfl <;> simp at hty
          case _ st hst =>
            split at hty
            · simp at hty
            · simp at hty
    · rintro ⟨v, hslot⟩
      simp only [getitem, hn, hslot]

/-- C9 witness: on the malformed reconstruction `c3heap` the dangling hash
raises KeyError; on `c9heap`, whose slot holds the raw integer 7, the same read
raises TypeError. -/
theorem c9_getitem_error_classification_witness :
    getitem 20 c3heap 0 "a" = Except.error PErr.keyError ∧
    getitem 20 c9heap 0 "a" = Except.error PErr.typeError :=
  ⟨(c9_getitem_error_classification 20 c3heap 0 "a"
      ⟨[("a", Slot.str "h1")], 0, none⟩ rfl).1 "h1" [] rfl rfl rfl,
   (c9_getitem_error_classification 20 c9heap 0 "a"
      ⟨[("a", Slot.raw 7)], 0, none⟩ rfl).2.mpr ⟨7, rfl⟩⟩

/-- C6 counterexample: in the malformed reconstruction `c3heap` the key "a" IS
present in the node's entries, yet `__getitem__` raises KeyError (the hash it
references is absent from the store) — so "KeyError iff the key is absent"
fails for reads as stated. -/
theorem c6_getitem_iff_counterexample :
    c3heap.node? 0 = some ⟨[("a", Slot.str "h1")], 0, none⟩ ∧
    (alistGet? ([("a", Slot.str "h1")] : List (String × Slot Nat)) "a").isSome = true ∧
    getitem 20 c3heap 0 "a" = Except.error PErr.keyError :=
  ⟨rfl, rfl, rfl⟩

/-- C6 (amended): delete raises KeyError exactly when the key is absent, and
then the heap is returned untouched (the check precedes every mutation); read
raises KeyError exactly when the key is absent OR the slot holds a hash that is
dangling in the effective store; reads never mutate (by the shape of the
embedding of `__getitem__`, which returns no heap). -/
theorem c6_key_error_characterization {V : Type} (c : Cfg V) (f : Nat) (h : Heap V)
    (nid : Nat) (key : String) (n : NodeObj V) (hn : h.node? nid = some n) :
    (alistGet? n.key_dict key = none →
      delitem c (f + 1) h nid key = (h, Except.error PErr.keyError)) ∧
    ((delitem c (f + 1) h nid key).2 = Except.error PErr.keyError ↔
      alistGet? n.key_dict key = none) ∧
    (getitem f h nid key = Except.error PErr.keyError ↔
      (alistGet? n.key_dict key = none ∨
        ∃ s st, alistGet? n.key_dict key = some (Slot.str s) ∧
          effStore f h nid = Except.ok st ∧ alistGet? st s = none)) := by
  refine ⟨?_, ?_, ?_⟩
  · intro habs
    simp only [delitem, hn, habs]
  · constructor
    · intro hke
      by_contra habs
      have hpres : (alistGet? n.key_dict key).isSome := by
        cases hopt : alistGet? n.key_dict key with
        | none => exact absurd hopt habs
        | some v => rfl
      have hpair : delitem c (f + 1) h nid key =
          ((delitem c (f + 1) h nid key).1, Except.error PErr.keyError) := by
        rw [← hke]
      exact delitem_not_keyError_of_present c f h _ nid key n hn hpres hpair
    · intro habs
      simp only [delitem, hn, habs]
  · constructor
    · intro hke
      simp only [getitem, hn] at hke
      cases hslot : alistGet? n.key_dict key with
      | none => exact Or.inl rfl
      | some sl =>
        rw [hslot] at hke
        match sl with
        | .node cid => simp at hke
        | .raw v => simp at hke
        | .str s =>
          simp only at hke
          split at hke
          case _ e hst =>
            have := effStore_error f h nid e hst
            rcases this with rfl | rfl <;> simp at hke
          case _ st hst =>
            split at hke
            · simp at hke
            case _ hl => exact Or.inr ⟨s, st, rfl, hst, hl⟩
    · intro hcase
      rcases hcase with habs | ⟨s, st, hslot, hst, hl⟩
      · simp only [getitem, hn, habs]
      · simp only [getitem, hn, hslot, hst, hl]

/-- C6 witness: deleting the absent key "zz" from the well-formed tree `c4heap`
raises KeyError and returns the heap unchanged; both derived by applying the
characterization with concrete hypotheses. -/
theorem c6_key_error_characterization_witness :
    delitem cfgNat 21 c4heap 0 "zz" = (c4heap, Except.error PErr.keyError) ∧
    (getitem 20 c4heap 0 "k" = Except.error PErr.keyError ↔
      (alistGet? ([("k", Slot.str "1."), ("j", Slot.str "2.")] :
          List (String × Slot Nat)) "k" = none ∨
        ∃ s st, alistGet? ([("k", Slot.str "1."), ("j", Slot.str "2.")] :
            List (String × Slot Nat)) "k" = some (Slot.str s) ∧
          effStore 20 c4heap 0 = Except.ok st ∧ alistGet? st s = none)) := by
  have h := c6_key_error_characterization cfgNat 20 c4heap 0 "zz"
    ⟨[("k", Slot.str "1."), ("j", Slot.str "2.")], 0, none⟩ rfl
  refine ⟨h.1 rfl, ?_⟩
  exact (c6_key_error_characterization cfgNat 20 c4heap 0 "k"
    ⟨[("k", Slot.str "1."), ("j", Slot.str "2.")], 0, none⟩ rfl).2.2



/-- Resolution of the effective store address ignores `key_dict`, so replacing a
node with one agreeing on `parent` and `_value_dict` preserves it. -/
theorem value_sid_setNode_preserve {V : Type} (h : Heap V) (nid : Nat) (n n' : NodeObj V)
    (hn : h.node? nid = some n) (hpar : n'.parent = n.parent)
    (hvd : n'.value_dict = n.value_dict) :
    ∀ f m, value_sid (h.setNode nid n') f m = value_sid h f m :=
  value_sid_congr h _ (fun m => by
    by_cases hm : m = nid
    · subst hm
      rw [node?_setNode_self, hn]
      simp [hpar, hvd]
    · rw [node?_setNode_ne _ _ _ _ hm])

/-- Resolution of the effective store address ignores store contents. -/
theorem value_sid_setStoreC_preserve {V : Type} (h : Heap V) (sid : Nat)
    (st : List (String × V)) :
    ∀ f m, value_sid (h.setStoreC sid st) f m = value_sid h f m :=
  value_sid_congr h _ (fun m => by rw [node?_setStoreC])

/-- C4 counterexample: the claim says a write whose content hash is already
present leaves the store unchanged.  On the tree built from ("k", 1), ("j", 2)
the store holds the hashes of both 1 and 2; overwriting `node["k"] = 2` — whose
hash "2." is already present — first deletes "k", whose auto clean-up removes
the now-unreferenced hash of 1, so the store shrinks from two bindings to one:
it is not left unchanged. -/
theorem c4_overwrite_counterexample :
    (alistGet? ([("1.", 1), ("2.", 2)] : List (String × Nat)) (hashId cfgNat 2)).isSome
      = true ∧
    effStore 20 c4heap 0 = Except.ok [("1.", 1), ("2.", 2)] ∧
    (setitem cfgNat 20 c4heap 0 "k" (PyVal.leaf 2)).2 = Except.ok () ∧
    effStore 20 c4heap2 0 = Except.ok [("2.", 2)] ∧
    ([("2.", 2)] : List (String × Nat)) ≠ [("1.", 1), ("2.", 2)] :=
  ⟨rfl, rfl, rfl, rfl, by decide⟩

/-- C4 (amended): every successful non-mapping write stores under the key the
digest of the serialized value truncated to `hash_length`; when the key is
fresh and the hash already present in the effective store the write leaves
every store object unchanged (an overwrite of an existing key may still
garbage-collect entries the deletion unreferences, which is what the
counterexample forces out of the original claim); and after any successful
write the effective store holds exactly one binding for that content hash, so
two writes of byte-identically serialized values can never create a second
binding (the hash depends only on the serialized bytes). -/
theorem c4_write_characterization {V : Type} (c : Cfg V) (f : Nat) (h : Heap V)
    (nid : Nat) (key : String) (v : V) (n : NodeObj V) (h' : Heap V)
    (hn : h.node? nid = some n)
    (hrun : setitem c (f + 1) h nid key (PyVal.leaf v) = (h', Except.ok ())) :
    (∃ n', h'.node? nid = some n' ∧
      alistGet? n'.key_dict key = some (Slot.str (hashId c v))) ∧
    (alistGet? n.key_dict key = none →
      ∀ sid st, value_sid h f nid = Except.ok sid → h.store? sid = some st →
        (alistGet? st (hashId c v)).isSome → h'.stores = h.stores) ∧
    (h.StoresNodup →
      ∃ sid st', value_sid h' f nid = Except.ok sid ∧ h'.store? sid = some st' ∧
        (alistKeys st').count (hashId c v) = 1) := by
  have hrun0 := hrun
  have hsn' : h.StoresNodup → h'.StoresNodup := fun hsn =>
    (setitem_family_nodup c (f + 1)).1 h nid key (PyVal.leaf v) h' _ hrun0 hsn
  simp only [setitem, hn] at hrun
  by_cases hmem : (alistGet? n.key_dict key).isSome
  · -- key already present: the write begins with a delete
    rw [if_pos hmem] at hrun
    split at hrun
    · exact absurd (congrArg Prod.snd hrun) (by simp)
    case _ h1 u hdel =>
      split at hrun
      · exact absurd (congrArg Prod.snd hrun) (by simp)
      case _ n1 hn1 =>
        split at hrun
        · exact absurd (congrArg Prod.snd hrun) (by simp)
        case _ sid hsid =>
          split at hrun
          · exact absurd (congrArg Prod.snd hrun) (by simp)
          case _ st hst =>
            have hvs2 := value_sid_setNode_preserve h1 nid n1
              { n1 with key_dict := alistSet n1.key_dict key (Slot.str (hashId c v)) }
              hn1 rfl rfl
            split at hrun
            case _ hpres =>
              have hh' : h' = h1.setNode nid
                  { n1 with key_dict := alistSet n1.key_dict key (Slot.str (hashId c v)) } :=
                (congrArg Prod.fst hrun).symm
              subst hh'
              refine ⟨⟨_, node?_setNode_self _ _ _, alistGet?_set_self _ _ _⟩, ?_, ?_⟩
              · intro habs
                rw [habs] at hmem
                simp at hmem
              · intro hsn
                refine ⟨sid, st, hsid, hst, ?_⟩
                have hnd := hsn' hsn sid st hst
                exact List.count_eq_one_of_mem hnd
                  ((mem_alistKeys_iff_get?_isSome st (hashId c v)).mpr hpres)
            case _ hpres =>
              have hh' : h' = ((h1.setNode nid
                  { n1 with key_dict := alistSet n1.key_dict key (Slot.str (hashId c v)) }).setStoreC
                  sid (alistSet st (hashId c v) v)) :=
                (congrArg Prod.fst hrun).symm
              subst hh'
              refine ⟨⟨_, node?_setNode_self _ _ _, alistGet?_set_self _ _ _⟩, ?_, ?_⟩
              · intro habs
                rw [habs] at hmem
                simp at hmem
              · intro hsn
                refine ⟨sid, alistSet st (hashId c v) v, ?_, ?_, ?_⟩
                · rw [value_sid_setStoreC_preserve]
                  exact hsid
                · exact store?_setStoreC_self _ _ _
                · have hnd := hsn' hsn sid (alistSet st (hashId c v) v)
                    (store?_setStoreC_self _ _ _)
                  exact List.count_eq_one_of_mem hnd
                    ((mem_alistKeys_iff_get?_isSome _ _).mpr
                      (by rw [alistGet?_set_self]; rfl))
  · -- fresh key: no delete happens
    rw [if_neg hmem] at hrun
    simp only at hrun
    split at hrun
    · exact absurd (congrArg Prod.snd hrun) (by simp)
    case _ n1 hn1 =>
     obtain rfl : n = n1 := by rw [hn] at hn1; exact Option.some.inj hn1
     split at hrun
     · exact absurd (congrArg Prod.snd hrun) (by simp)
     case _ sid hsid =>
      split at hrun
      · exact absurd (congrArg Prod.snd hrun) (by simp)
      case _ st hst =>
        have hvs2 := value_sid_setNode_preserve h nid n
          { n with key_dict := alistSet n.key_dict key (Slot.str (hashId c v)) }
          hn rfl rfl
        split at hrun
        case _ hpres =>
          have hh' : h' = h.setNode nid
              { n with key_dict := alistSet n.key_dict key (Slot.str (hashId c v)) } :=
            (congrArg Prod.fst hrun).symm
          subst hh'
          refine ⟨⟨_, node?_setNode_self _ _ _, alistGet?_set_self _ _ _⟩, ?_, ?_⟩
          · intro _ sid0 st0 hsid0 hst0 _
            rfl
          · intro hsn
            refine ⟨sid, st, hsid, hst, ?_⟩
            have hnd := hsn' hsn sid st hst
            exact List.count_eq_one_of_mem hnd
              ((mem_alistKeys_iff_get?_isSome st (hashId c v)).mpr hpres)
        case _ hpres =>
          have hh' : h' = ((h.setNode nid
              { n with key_dict := alistSet n.key_dict key (Slot.str (hashId c v)) }).setStoreC
              sid (alistSet st (hashId c v) v)) :=
            (congrArg Prod.fst hrun).symm
          refine ⟨?_, ?_, ?_⟩
          · subst hh'
            exact ⟨_, node?_setNode_self _ _ _, alistGet?_set_self _ _ _⟩
          · intro _ sid0 st0 hsid0 hst0 hpres0
            exfalso
            have hsideq : sid = sid0 := by
              have := hvs2 f nid
              rw [hsid] at this
              rw [hsid0] at this
              exact (Except.ok.inj this.symm).symm
            subst hsideq
            have hsteq : st = st0 := by
              rw [store?_setNode, hst0] at hst
              exact (Option.some.inj hst).symm
            subst hsteq
            rw [hpres0] at hpres
            simp at hpres
          · intro hsn
            subst hh'
            refine ⟨sid, alistSet st (hashId c v) v, ?_, ?_, ?_⟩
            · rw [value_sid_setStoreC_preserve]
              exact hsid
            · exact store?_setStoreC_self _ _ _
            · have hnd := hsn' hsn sid (alistSet st (hashId c v) v)
                (store?_setStoreC_self _ _ _)
              exact List.count_eq_one_of_mem hnd
                ((mem_alistKeys_iff_get?_isSome _ _).mpr
                  (by rw [alistGet?_set_self]; rfl))

/-- C4 witness: writing the fresh key "j" with value 1 — whose hash "1." is
already in the store of the tree built from ("k", 1) — leaves every store
object unchanged, and the effective store afterwards holds exactly one binding
for that hash. -/
theorem c4_write_characterization_witness :
    (setitem cfgNat 21 c4bheap 0 "j" (PyVal.leaf 1)).1.stores = c4bheap.stores ∧
    ∃ sid st', value_sid (setitem cfgNat 21 c4bheap 0 "j" (PyVal.leaf 1)).1 20 0 =
        Except.ok sid ∧
      (setitem cfgNat 21 c4bheap 0 "j" (PyVal.leaf 1)).1.store? sid = some st' ∧
      (alistKeys st').count (hashId cfgNat 1) = 1 := by
  have h := c4_write_characterization cfgNat 20 c4bheap 0 "j" 1
    ⟨[("k", Slot.str "1.")], 0, none⟩ (setitem cfgNat 21 c4bheap 0 "j" (PyVal.leaf 1)).1
    rfl rfl
  refine ⟨h.2.1 rfl 0 [("1.", 1)] rfl rfl rfl, h.2.2 ?_⟩
  intro sid st hst
  have hev : c4bheap.stores = [(0, [("1.", 1)])] := rfl
  rw [Heap.store?, hev] at hst
  simp only [alistGet?] at hst
  split at hst
  · cases hst
    decide
  · cases hst



/-! ## Mirror-checker and store-invariant lemmas -/

section MirrorLemmas

variable {V : Type}

theorem alistGet?_append {α β : Type} [DecidableEq α] (a b : List (α × β)) (k : α) :
    alistGet? (a ++ b) k =
      (match alistGet? a k with
       | some v => some v
       | none => alistGet? b k) := by
  induction a with
  | nil => simp [alistGet?]
  | cons p t ih =>
    obtain ⟨k0, v0⟩ := p
    by_cases hk : k0 = k
    · simp [alistGet?, hk]
    · simp only [List.cons_append, alistGet?, if_neg hk]
      exact ih

theorem mem_alistSet_cases {α β : Type} [DecidableEq α] (l : List (α × β)) (k : α) (v : β)
    (p : α × β) (hp : p ∈ alistSet l k v) : p = (k, v) ∨ p ∈ l := by
  induction l with
  | nil =>
    simp only [alistSet, List.mem_singleton] at hp
    exact Or.inl hp
  | cons q t ih =>
    obtain ⟨k0, v0⟩ := q
    simp only [alistSet] at hp
    split at hp
    · rcases List.mem_cons.mp hp with rfl | hmem
      · exact Or.inl rfl
      · exact Or.inr (List.mem_cons_of_mem _ hmem)
    · rcases List.mem_cons.mp hp with rfl | hmem
      · exact Or.inr (List.mem_cons_self _ _)
      · rcases ih hmem with h1 | h1
        · exact Or.inl h1
        · exact Or.inr (List.mem_cons_of_mem _ h1)

theorem mem_alistUpdate_cases {α β : Type} [DecidableEq α] (a b : List (α × β))
    (p : α × β) (hp : p ∈ alistUpdate a b) : p ∈ a ∨ p ∈ b := by
  induction b generalizing a with
  | nil => exact Or.inl hp
  | cons q t ih =>
    obtain ⟨k0, v0⟩ := q
    simp only [alistUpdate] at hp
    rcases ih _ hp with h1 | h1
    · rcases mem_alistSet_cases a k0 v0 p h1 with rfl | h2
      · exact Or.inr (List.mem_cons_self _ _)
      · exact Or.inl h2
    · exact Or.inr (List.mem_cons_of_mem _ h1)

theorem mirrorA_mono (c : Cfg V) :
    ∀ f (h : Heap V) lo hi pid S D, mirrorA c f h lo hi pid S D = true →
      mirrorA c (f + 1) h lo hi pid S D = true := by
  intro f
  induction f with
  | zero => intro h lo hi pid S D hm; rw [mirrorA] at hm; cases hm
  | succ f ih =>
    intro h lo hi pid S D hm
    match S, D with
    | [], [] => rw [mirrorA]
    | (k, Slot.str s) :: t, (k', NVal.leaf v) :: t' =>
      rw [mirrorA] at hm ⊢
      simp only [Bool.and_eq_true] at hm ⊢
      exact ⟨hm.1, ih h lo hi pid t t' hm.2⟩
    | (k, Slot.node cid) :: t, (k', NVal.dict d) :: t' =>
      rw [mirrorA] at hm ⊢
      simp only [Bool.and_eq_true] at hm ⊢
      refine ⟨⟨hm.1.1, ?_⟩, ih h lo hi pid t t' hm.2⟩
      have h2 := hm.1.2
      split at h2
      case _ ncid hcn =>
        simp only [Bool.and_eq_true] at h2 ⊢
        exact ⟨h2.1, ih h lo hi cid ncid.key_dict d h2.2⟩
      case _ => exact Bool.noConfusion h2
    | [], (_, _) :: _ => rw [mirrorA] at hm; cases hm
    | (_, _) :: _, [] => rw [mirrorA] at hm; cases hm
    | (k, Slot.str s) :: t, (k', NVal.dict d) :: t' => rw [mirrorA] at hm; cases hm
    | (k, Slot.node cid) :: t, (k', NVal.leaf v) :: t' => rw [mirrorA] at hm; cases hm
    | (k, Slot.raw v0) :: t, _ :: t' => rw [mirrorA] at hm; cases hm

theorem mirrorA_le (c : Cfg V) (f f' : Nat) (h : Heap V) (lo hi pid : Nat)
    (S : List (String × Slot V)) (D : List (String × NVal V)) (hle : f ≤ f')
    (hm : mirrorA c f h lo hi pid S D = true) : mirrorA c f' h lo hi pid S D = true := by
  induction f' with
  | zero =>
    obtain rfl : f = 0 := Nat.le_zero.mp hle
    exact hm
  | succ f' ih =>
    rcases Nat.lt_or_ge f (f' + 1) with hlt | hge
    · exact mirrorA_mono c f' h lo hi pid S D (ih (Nat.lt_succ_iff.mp hlt))
    · obtain rfl : f = f' + 1 := Nat.le_antisymm hle hge
      exact hm

theorem mirrorA_widen (c : Cfg V) :
    ∀ f (h : Heap V) lo hi lo' hi' pid S D, lo' ≤ lo → hi ≤ hi' →
      mirrorA c f h lo hi pid S D = true → mirrorA c f h lo' hi' pid S D = true := by
  intro f
  induction f with
  | zero => intro h lo hi lo' hi' pid S D _ _ hm; rw [mirrorA] at hm; cases hm
  | succ f ih =>
    intro h lo hi lo' hi' pid S D hlo hhi hm
    match S, D with
    | [], [] => rw [mirrorA]
    | (k, Slot.str s) :: t, (k', NVal.leaf v) :: t' =>
      rw [mirrorA] at hm ⊢
      simp only [Bool.and_eq_true] at hm ⊢
      exact ⟨hm.1, ih h lo hi lo' hi' pid t t' hlo hhi hm.2⟩
    | (k, Slot.node cid) :: t, (k', NVal.dict d) :: t' =>
      rw [mirrorA] at hm ⊢
      simp only [Bool.and_eq_true, decide_eq_true_eq] at hm ⊢
      obtain ⟨⟨⟨⟨hk, hlo1⟩, hhi1⟩, hsub⟩, hrest⟩ := hm
      refine ⟨⟨⟨⟨hk, le_trans hlo hlo1⟩, lt_of_lt_of_le hhi1 hhi⟩, ?_⟩,
        ih h lo hi lo' hi' pid t t' hlo hhi hrest⟩
      split at hsub
      case _ ncid hcn =>
        simp only [Bool.and_eq_true] at hsub ⊢
        exact ⟨hsub.1, ih h lo hi lo' hi' cid ncid.key_dict d hlo hhi hsub.2⟩
      case _ => exact Bool.noConfusion hsub
    | [], (_, _) :: _ => rw [mirrorA] at hm; cases hm
    | (_, _) :: _, [] => rw [mirrorA] at hm; cases hm
    | (k, Slot.str s) :: t, (k', NVal.dict d) :: t' => rw [mirrorA] at hm; cases hm
    | (k, Slot.node cid) :: t, (k', NVal.leaf v) :: t' => rw [mirrorA] at hm; cases hm
    | (k, Slot.raw v0) :: t, _ :: t' => rw [mirrorA] at hm; cases hm

theorem mirrorA_pres (c : Cfg V) :
    ∀ f (h h' : Heap V) lo hi pid S D,
      (∀ m, lo ≤ m → m < hi → h'.node? m = h.node? m) →
      mirrorA c f h lo hi pid S D = true → mirrorA c f h' lo hi pid S D = true := by
  intro f
  induction f with
  | zero => intro h h' lo hi pid S D _ hm; rw [mirrorA] at hm; cases hm
  | succ f ih =>
    intro h h' lo hi pid S D hag hm
    match S, D with
    | [], [] => rw [mirrorA]
    | (k, Slot.str s) :: t, (k', NVal.leaf v) :: t' =>
      rw [mirrorA] at hm ⊢
      simp only [Bool.and_eq_true] at hm ⊢
      exact ⟨hm.1, ih h h' lo hi pid t t' hag hm.2⟩
    | (k, Slot.node cid) :: t, (k', NVal.dict d) :: t' =>
      rw [mirrorA] at hm ⊢
      simp only [Bool.and_eq_true, decide_eq_true_eq] at hm ⊢
      obtain ⟨⟨⟨⟨hk, hlo1⟩, hhi1⟩, hsub⟩, hrest⟩ := hm
      refine ⟨⟨⟨⟨hk, hlo1⟩, hhi1⟩, ?_⟩, ih h h' lo hi pid t t' hag hrest⟩
      rw [hag cid hlo1 hhi1]
      split at hsub
      case _ ncid hcn =>
        simp only [Bool.and_eq_true] at hsub ⊢
        exact ⟨hsub.1, ih h h' lo hi cid ncid.key_dict d hag hsub.2⟩
      case _ => exact Bool.noConfusion hsub
    | [], (_, _) :: _ => rw [mirrorA] at hm; cases hm
    | (_, _) :: _, [] => rw [mirrorA] at hm; cases hm
    | (k, Slot.str s) :: t, (k', NVal.dict d) :: t' => rw [mirrorA] at hm; cases hm
    | (k, Slot.node cid) :: t, (k', NVal.leaf v) :: t' => rw [mirrorA] at hm; cases hm
    | (k, Slot.raw v0) :: t, _ :: t' => rw [mirrorA] at hm; cases hm

theorem mirrorA_append (c : Cfg V) :
    ∀ f1 f2 (h : Heap V) lo hi pid S1 D1 S2 D2,
      mirrorA c f1 h lo hi pid S1 D1 = true → mirrorA c f2 h lo hi pid S2 D2 = true →
      mirrorA c (f1 + f2) h lo hi pid (S1 ++ S2) (D1 ++ D2) = true := by
  intro f1
  induction f1 with
  | zero => intro f2 h lo hi pid S1 D1 S2 D2 hm1 _; rw [mirrorA] at hm1; cases hm1
  | succ g ih =>
    intro f2 h lo hi pid S1 D1 S2 D2 hm1 hm2
    have harith : g + 1 + f2 = (g + f2) + 1 := by omega
    match S1, D1 with
    | [], [] =>
      simpa using mirrorA_le c f2 (g + 1 + f2) h lo hi pid S2 D2 (by omega) hm2
    | (k, Slot.str s) :: t, (k', NVal.leaf v) :: t' =>
      rw [mirrorA] at hm1
      simp only [Bool.and_eq_true] at hm1
      simp only [List.cons_append]
      rw [harith, mirrorA]
      simp only [Bool.and_eq_true]
      exact ⟨hm1.1, ih f2 h lo hi pid t t' S2 D2 hm1.2 hm2⟩
    | (k, Slot.node cid) :: t, (k', NVal.dict d) :: t' =>
      rw [mirrorA] at hm1
      simp only [Bool.and_eq_true] at hm1
      simp only [List.cons_append]
      rw [harith, mirrorA]
      simp only [Bool.and_eq_true]
      obtain ⟨⟨hk, hsub⟩, hrest⟩ := hm1
      refine ⟨⟨hk, ?_⟩, ih f2 h lo hi pid t t' S2 D2 hrest hm2⟩
      split at hsub
      case _ ncid hcn =>
        simp only [Bool.and_eq_true] at hsub ⊢
        exact ⟨hsub.1, mirrorA_le c g (g + f2) h lo hi cid ncid.key_dict d (by omega) hsub.2⟩
      case _ => exact Bool.noConfusion hsub
    | [], (_, _) :: _ => rw [mirrorA] at hm1; cases hm1
    | (_, _) :: _, [] => rw [mirrorA] at hm1; cases hm1
    | (k, Slot.str s) :: t, (k', NVal.dict d) :: t' => rw [mirrorA] at hm1; cases hm1
    | (k, Slot.node cid) :: t, (k', NVal.leaf v) :: t' => rw [mirrorA] at hm1; cases hm1
    | (k, Slot.raw v0) :: t, _ :: t' => rw [mirrorA] at hm1; cases hm1

theorem mirrorA_keys (c : Cfg V) :
    ∀ f (h : Heap V) lo hi pid S D, mirrorA c f h lo hi pid S D = true →
      alistKeys S = alistKeys D := by
  intro f
  induction f with
  | zero => intro h lo hi pid S D hm; rw [mirrorA] at hm; cases hm
  | succ f ih =>
    intro h lo hi pid S D hm
    match S, D with
    | [], [] => rfl
    | (k, Slot.str s) :: t, (k', NVal.leaf v) :: t' =>
      rw [mirrorA] at hm
      simp only [Bool.and_eq_true, decide_eq_true_eq] at hm
      simp only [alistKeys, List.map_cons]
      rw [hm.1.1]
      have := ih h lo hi pid t t' hm.2
      simp only [alistKeys] at this
      rw [this]
    | (k, Slot.node cid) :: t, (k', NVal.dict d) :: t' =>
      rw [mirrorA] at hm
      simp only [Bool.and_eq_true, decide_eq_true_eq] at hm
      simp only [alistKeys, List.map_cons]
      rw [hm.1.1.1.1]
      have := ih h lo hi pid t t' hm.2
      simp only [alistKeys] at this
      rw [this]
    | [], (_, _) :: _ => rw [mirrorA] at hm; cases hm
    | (_, _) :: _, [] => rw [mirrorA] at hm; cases hm
    | (k, Slot.str s) :: t, (k', NVal.dict d) :: t' => rw [mirrorA] at hm; cases hm
    | (k, Slot.node cid) :: t, (k', NVal.leaf v) :: t' => rw [mirrorA] at hm; cases hm
    | (k, Slot.raw v0) :: t, _ :: t' => rw [mirrorA] at hm; cases hm

theorem storeInv_nil (c : Cfg V) (L : List V) : storeInv c L [] :=
  ⟨fun p hp => absurd hp (List.not_mem_nil p), List.nodup_nil⟩

theorem storeInv_mono (c : Cfg V) (L L' : List V) (st : List (String × V))
    (hsub : ∀ v ∈ L, v ∈ L') (hinv : storeInv c L st) : storeInv c L' st :=
  ⟨fun p hp => ⟨(hinv.1 p hp).1, hsub p.2 (hinv.1 p hp).2⟩, hinv.2⟩

theorem storeInv_set (c : Cfg V) (L : List V) (st : List (String × V)) (v : V)
    (hv : v ∈ L) (hinv : storeInv c L st) :
    storeInv c L (alistSet st (hashId c v) v) := by
  constructor
  · intro p hp
    rcases mem_alistSet_cases st (hashId c v) v p hp with rfl | hmem
    · exact ⟨rfl, hv⟩
    · exact hinv.1 p hmem
  · exact nodup_alistKeys_set st (hashId c v) v hinv.2

theorem storeInv_update (c : Cfg V) (L : List V) (a b : List (String × V))
    (ha : storeInv c L a) (hb : storeInv c L b) : storeInv c L (alistUpdate a b) := by
  constructor
  · intro p hp
    rcases mem_alistUpdate_cases a b p hp with h1 | h1
    · exact ha.1 p h1
    · exact hb.1 p h1
  · exact nodup_alistKeys_update a b ha.2

theorem value_sid_root (h : Heap V) (nid : Nat) (n : NodeObj V) (f : Nat) (r : Nat)
    (hn : h.node? nid = some n) (hp : n.parent = none)
    (hv : value_sid h f nid = Except.ok r) : r = n.value_dict := by
  cases f with
  | zero => rw [value_sid] at hv; cases hv
  | succ f =>
    simp only [value_sid, hn, hp] at hv
    exact (Except.ok.inj hv).symm

end MirrorLemmas



/-! ## Helpers for the build characterization -/

section BuildHelpers

variable {V : Type}

theorem alistSet_fresh_append {α β : Type} [DecidableEq α] (l : List (α × β)) (k : α) (v : β)
    (hfresh : alistGet? l k = none) : alistSet l k v = l ++ [(k, v)] := by
  induction l with
  | nil => rfl
  | cons p t ih =>
    obtain ⟨k0, v0⟩ := p
    simp only [alistGet?] at hfresh
    by_cases hk : k0 = k
    · rw [if_pos hk] at hfresh
      cases hfresh
    · rw [if_neg hk] at hfresh
      simp only [alistSet, if_neg hk, List.cons_append]
      rw [ih hfresh]

theorem buildExt_refl (h : Heap V) (nid sid : Nat) : buildExt h h nid sid :=
  ⟨fun _ _ _ => rfl, fun _ _ _ => rfl, le_refl _, le_refl _⟩

theorem buildExt_trans (h1 h2 h3 : Heap V) (nid sid : Nat)
    (e1 : buildExt h1 h2 nid sid) (e2 : buildExt h2 h3 nid sid) : buildExt h1 h3 nid sid := by
  obtain ⟨n1, s1, nn1, ns1⟩ := e1
  obtain ⟨n2, s2, nn2, ns2⟩ := e2
  refine ⟨?_, ?_, le_trans nn1 nn2, le_trans ns1 ns2⟩
  · intro m hm hlt
    rw [n2 m hm (lt_of_lt_of_le hlt nn1), n1 m hm hlt]
  · intro t ht hlt
    rw [s2 t ht (lt_of_lt_of_le hlt ns1), s1 t ht hlt]

theorem ndWellFormed_cons (k : String) (v : NVal V) (t : List (String × NVal V))
    (hwf : ndWellFormed ((k, v) :: t) = true) :
    v.nodupKeysB = true ∧ ndWellFormed t = true ∧ k ∉ alistKeys t := by
  simp only [ndWellFormed, nodupKeysLB, Bool.and_eq_true, decide_eq_true_eq] at hwf ⊢
  obtain ⟨hnd, hv, ht⟩ := hwf
  simp only [alistKeys, List.map_cons, List.nodup_cons] at hnd
  exact ⟨hv, ⟨hnd.2, ht⟩, hnd.1⟩

theorem leavesND_cons (k : String) (v : NVal V) (t : List (String × NVal V)) :
    leavesND ((k, v) :: t) = v.leaves ++ leavesND t := by
  rw [leavesND]

end BuildHelpers

set_option maxHeartbeats 1000000

/-- Main characterization of the builders: a successful `__setitem__` of a fresh
key appends one mirrored slot and extends the effective store conservatively; the
`__init__` item loop and `__init__` itself produce a node whose `key_dict` mirrors
the requested nested mapping, with every leaf hash present in the store. -/
theorem build_main {V : Type} (c : Cfg V) (L : List V) :
    ∀ f,
      (∀ (h : Heap V) (nid : Nat) (n : NodeObj V) (sid : Nat) (st : List (String × V))
         (k : String) (value : NVal V) (h' : Heap V) (u : Unit),
        h.node? nid = some n → n.parent = none → n.value_dict = sid →
        nid < h.nextNode → sid < h.nextStore →
        h.store? sid = some st → storeInv c L st →
        (∀ v ∈ value.leaves, v ∈ L) →
        alistGet? n.key_dict k = none →
        value.nodupKeysB = true →
        setitem c f h nid k value.toPy = (h', Except.ok u) →
        ∃ S fm st',
          h'.node? nid = some { n with key_dict := n.key_dict ++ S } ∧
          mirrorA c fm h' h.nextNode h'.nextNode nid S [(k, value)] = true ∧
          h'.store? sid = some st' ∧ storeInv c L st' ∧
          (∀ x, x ∈ alistKeys st → x ∈ alistKeys st') ∧
          (∀ v ∈ value.leaves, hashId c v ∈ alistKeys st') ∧
          buildExt h h' nid sid) ∧
      (∀ (h : Heap V) (nid : Nat) (n : NodeObj V) (sid : Nat) (st : List (String × V))
         (D : List (String × NVal V)) (h' : Heap V) (nid2 : Nat),
        h.node? nid = some n → n.parent = none → n.value_dict = sid →
        nid < h.nextNode → sid < h.nextStore →
        h.store? sid = some st → storeInv c L st →
        (∀ v ∈ leavesND D, v ∈ L) →
        (∀ x ∈ alistKeys D, alistGet? n.key_dict x = none) →
        ndWellFormed D = true →
        setitems c f h nid (npToPy D) = (h', Except.ok nid2) →
        nid2 = nid ∧
        ∃ S fm st',
          h'.node? nid = some { n with key_dict := n.key_dict ++ S } ∧
          mirrorA c fm h' h.nextNode h'.nextNode nid S D = true ∧
          h'.store? sid = some st' ∧ storeInv c L st' ∧
          (∀ x, x ∈ alistKeys st → x ∈ alistKeys st') ∧
          (∀ v ∈ leavesND D, hashId c v ∈ alistKeys st') ∧
          buildExt h h' nid sid) ∧
      (∀ (h : Heap V) (d : List (String × NVal V)) (h' : Heap V) (cid : Nat),
        (∀ v ∈ leavesND d, v ∈ L) → ndWellFormed d = true →
        ddInit c f h (npToPy d) none = (h', Except.ok cid) →
        cid = h.nextNode ∧
        ∃ S fm st',
          h'.node? cid = some ⟨S, h.nextStore, none⟩ ∧
          mirrorA c fm h' (h.nextNode + 1) h'.nextNode cid S d = true ∧
          h'.store? h.nextStore = some st' ∧ storeInv c L st' ∧
          (∀ v ∈ leavesND d, hashId c v ∈ alistKeys st') ∧
          (∀ m, m < h.nextNode → h'.node? m = h.node? m) ∧
          (∀ s2, s2 < h.nextStore → h'.store? s2 = h.store? s2) ∧
          h.nextNode < h'.nextNode ∧ h.nextStore < h'.nextStore) := by
  intro f
  induction f with
  | zero =>
    refine ⟨?_, ?_, ?_⟩
    · intro h nid n sid st k value h' u _ _ _ _ _ _ _ _ _ _ hrun
      rw [setitem] at hrun
      exact absurd (congrArg Prod.snd hrun) (by simp)
    · intro h nid n sid st D h' nid2 _ _ _ _ _ _ _ _ _ _ hrun
      rw [setitems] at hrun
      exact absurd (congrArg Prod.snd hrun) (by simp)
    · intro h d h' cid _ _ hrun
      rw [ddInit] at hrun
      exact absurd (congrArg Prod.snd hrun) (by simp)
  | succ f ih =>
    obtain ⟨ih1, ih2, ih3⟩ := ih
    refine ⟨?_, ?_, ?_⟩
    · -- setitem
      intro h nid n sid st k value h' u hn hpar hvd hnlt hslt hst hinv hlv hfresh hwf hrun
      simp only [setitem, hn] at hrun
      rw [if_neg (by rw [hfresh]; simp)] at hrun
      simp only at hrun
      cases value with
      | leaf v =>
        rw [show (NVal.leaf v).toPy = PyVal.leaf v from rfl] at hrun
        simp only at hrun
        have hkdset : alistSet n.key_dict k (Slot.str (hashId c v)) =
            n.key_dict ++ [(k, Slot.str (hashId c v))] :=
          alistSet_fresh_append n.key_dict k _ hfresh
        split at hrun
        · exact absurd (congrArg Prod.snd hrun) (by simp)
        case _ n1 hn1 =>
          obtain rfl : n = n1 := by
            rw [hn] at hn1
            exact Option.some.inj hn1
          split at hrun
          · exact absurd (congrArg Prod.snd hrun) (by simp)
          case _ sid0 hsid0 =>
            obtain rfl : sid = sid0 := by
              have hr := value_sid_root _ nid _ f sid0 (node?_setNode_self h nid
                { n with key_dict := alistSet n.key_dict k (Slot.str (hashId c v)) })
                hpar hsid0
              exact (hr.trans hvd).symm
            split at hrun
            · exact absurd (congrArg Prod.snd hrun) (by simp)
            case _ st0 hst0 =>
              obtain rfl : st = st0 := by
                rw [store?_setNode, hst] at hst0
                exact Option.some.inj hst0
              have hmir2 : ∀ hi2, mirrorA c 2 h' h.nextNode hi2 nid
                  [(k, Slot.str (hashId c v))] [(k, NVal.leaf v)] = true := by
                intro hi2
                rw [mirrorA, mirrorA]
                simp
              split at hrun
              case _ hpres =>
                have hh' : h' = h.setNode nid
                    { n with key_dict := alistSet n.key_dict k (Slot.str (hashId c v)) } :=
                  (congrArg Prod.fst hrun).symm
                subst hh'
                refine ⟨[(k, Slot.str (hashId c v))], 2, st, ?_, hmir2 _, ?_, hinv,
                  fun x hx => hx, ?_, ?_, ?_, le_refl _, le_refl _⟩
                · rw [← hkdset]
                  exact node?_setNode_self h nid _
                · rw [store?_setNode]
                  exact hst
                · intro w hw
                  rw [show (NVal.leaf v).leaves = [v] from rfl] at hw
                  rcases List.mem_singleton.mp hw with rfl
                  exact (mem_alistKeys_iff_get?_isSome st (hashId c w)).mpr hpres
                · intro m hm _
                  exact node?_setNode_ne h nid m _ hm
                · intro s2 _ _
                  rfl
              case _ hpres =>
                have hh' : h' = (h.setNode nid
                    { n with key_dict := alistSet n.key_dict k (Slot.str (hashId c v))
                    }).setStoreC sid (alistSet st (hashId c v) v) :=
                  (congrArg Prod.fst hrun).symm
                subst hh'
                refine ⟨[(k, Slot.str (hashId c v))], 2, alistSet st (hashId c v) v,
                  ?_, hmir2 _, ?_, ?_, ?_, ?_, ?_, ?_, le_refl _, le_refl _⟩
                · rw [← hkdset, node?_setStoreC]
                  exact node?_setNode_self h nid _
                · exact store?_setStoreC_self _ _ _
                · exact storeInv_set c L st v (hlv v (List.mem_singleton_self v)) hinv
                · intro x hx
                  rw [mem_alistKeys_set]
                  exact Or.inr hx
                · intro w hw
                  rw [show (NVal.leaf v).leaves = [v] from rfl] at hw
                  rcases List.mem_singleton.mp hw with rfl
                  rw [mem_alistKeys_set]
                  exact Or.inl rfl
                · intro m hm _
                  rw [node?_setStoreC]
                  exact node?_setNode_ne h nid m _ hm
                · intro s2 hs2 _
                  rw [store?_setStoreC_ne _ _ _ _ hs2, store?_setNode]
      | dict d =>
        rw [show (NVal.dict d).toPy = PyVal.dict (npToPy d) from rfl] at hrun
        simp only at hrun
        split at hrun
        · exact absurd (congrArg Prod.snd hrun) (by simp)
        case _ h1 cid hdd =>
          have hddres := ih3 h d h1 cid (fun w hw => hlv w hw) hwf hdd
          obtain ⟨rfl, Sc, fmc, stc, hcnode, hcmir, hcsto, hcinv, hccov, hold_n, hold_s,
            hnn, hns⟩ := hddres
          cases fmc with
          | zero =>
            rw [mirrorA] at hcmir
            cases hcmir
          | succ g2 =>
          cases f with
          | zero =>
            rw [setitem_node_case] at hrun
            exact absurd (congrArg Prod.snd hrun) (by simp)
          | succ g =>
            simp only [setitem_node_case] at hrun
            split at hrun
            · exact absurd (congrArg Prod.snd hrun) (by simp)
            case _ h2 u2 hsp =>
              cases g with
              | zero =>
                rw [set_parent] at hsp
                exact absurd (congrArg Prod.snd hsp) (by simp)
              | succ g' =>
                have hn1 : h1.node? nid = some n := by
                  rw [hold_n nid hnlt]
                  exact hn
                simp only [set_parent] at hsp
                split at hsp
                · exact absurd (congrArg Prod.snd hsp) (by simp)
                case _ psid hpsid =>
                  obtain rfl : sid = psid := by
                    have hr := value_sid_root h1 nid n g' psid hn1 hpar hpsid
                    exact (hr.trans hvd).symm
                  split at hsp
                  · exact absurd (congrArg Prod.snd hsp) (by simp)
                  case _ csid hcsid =>
                    obtain rfl : csid = h.nextStore :=
                      value_sid_root h1 h.nextNode _ g' csid hcnode rfl hcsid
                    have hps : h1.store? sid = some st := by
                      rw [hold_s sid hslt]
                      exact hst
                    split at hsp
                    case _ pst cst hpst hcst =>
                      obtain rfl : st = pst := by
                        rw [hps] at hpst
                        exact Option.some.inj hpst
                      obtain rfl : stc = cst := by
                        rw [hcsto] at hcst
                        exact Option.some.inj hcst
                      rw [show (h1.setStoreC sid (alistUpdate st stc)).allocStore [] =
                          (((h1.setStoreC sid (alistUpdate st stc)).allocStore []).1,
                           ((h1.setStoreC sid (alistUpdate st stc)).allocStore []).2)
                          from rfl] at hsp
                      simp only at hsp
                      split at hsp
                      · exact absurd (congrArg Prod.snd hsp) (by simp)
                      case _ ncid hncid =>
                        obtain rfl : (⟨Sc, h.nextStore, none⟩ : NodeObj V) = ncid := by
                          have h5 : ((h1.setStoreC sid
                              (alistUpdate st stc)).allocStore []).1.node? h.nextNode =
                              h1.node? h.nextNode := rfl
                          rw [h5, hcnode] at hncid
                          exact Option.some.inj hncid
                        have hh2 : h2 = ((h1.setStoreC sid
                            (alistUpdate st stc)).allocStore []).1.setNode h.nextNode
                            { (⟨Sc, h.nextStore, none⟩ : NodeObj V) with
                              parent := some nid,
                              value_dict :=
                                ((h1.setStoreC sid (alistUpdate st stc)).allocStore []).2 } :=
                          (congrArg Prod.fst hsp).symm
                        subst hh2
                        split at hrun
                        · exact absurd (congrArg Prod.snd hrun) (by simp)
                        case _ n2 hn2 =>
                          obtain rfl : n = n2 := by
                            have h6 : ((h1.setStoreC sid
                                (alistUpdate st stc)).allocStore []).1.node? nid =
                                h1.node? nid := rfl
                            rw [node?_setNode_ne _ _ _ _ (Nat.ne_of_lt hnlt), h6, hn1] at hn2
                            exact Option.some.inj hn2
                          injection hrun with hfst hsnd
                          have hh' := hfst.symm
                          have hnext1 : h'.nextNode = h1.nextNode := by
                            rw [hh']
                            rfl
                          have hnexts : h'.nextStore = h1.nextStore + 1 := by
                            rw [hh']
                            rfl
                          have hagree : ∀ m, h.nextNode + 1 ≤ m → m < h1.nextNode →
                              h'.node? m = h1.node? m := by
                            intro m hm1 hm2
                            rw [hh', node?_setNode_ne _ _ _ _ (by omega : m ≠ nid),
                              node?_setNode_ne _ _ _ _ (by omega : m ≠ h.nextNode)]
                            rfl
                          have hchild : h'.node? h.nextNode = some
                              ⟨Sc, (h1.setStoreC sid (alistUpdate st stc)).nextStore,
                                some nid⟩ := by
                            rw [hh', node?_setNode_ne _ _ _ _
                              (Ne.symm (Nat.ne_of_lt hnlt))]
                            exact node?_setNode_self _ _ _
                          have hcmir' : mirrorA c (g2 + 1) h' h.nextNode h'.nextNode
                              h.nextNode Sc d = true := by
                            refine mirrorA_widen c (g2 + 1) h' (h.nextNode + 1) h1.nextNode
                              h.nextNode h'.nextNode h.nextNode Sc d (Nat.le_succ _)
                              (le_of_eq hnext1.symm) ?_
                            exact mirrorA_pres c (g2 + 1) h1 h' (h.nextNode + 1)
                              h1.nextNode h.nextNode Sc d hagree hcmir
                          refine ⟨[(k, Slot.node h.nextNode)], g2 + 1 + 1,
                            alistUpdate st stc, ?_, ?_, ?_,
                            storeInv_update c L st stc hinv hcinv, ?_, ?_, ?_, ?_, ?_, ?_⟩
                          · rw [hh',
                              ← alistSet_fresh_append n.key_dict k (Slot.node h.nextNode)
                                hfresh]
                            exact node?_setNode_self _ nid _
                          · have htail : mirrorA c (g2 + 1) h' h.nextNode h'.nextNode nid
                                ([] : List (String × Slot V)) [] = true := by
                              rw [mirrorA]
                            have hlt2 : h.nextNode < h'.nextNode := by
                              rw [hnext1]
                              exact hnn
                            rw [mirrorA, hchild]
                            simp [hcmir', htail, hlt2]
                          · rw [hh', store?_setNode, store?_setNode,
                              store?_allocStore_ne (h1.setStoreC sid (alistUpdate st stc))
                                [] sid (Nat.ne_of_lt (lt_trans hslt hns))]
                            exact store?_setStoreC_self _ _ _
                          · intro x hx
                            exact (mem_alistKeys_update st stc x).mpr (Or.inl hx)
                          · intro w hw
                            rw [show (NVal.dict d).leaves = leavesND d from rfl] at hw
                            exact (mem_alistKeys_update st stc (hashId c w)).mpr
                              (Or.inr (hccov w hw))
                          · intro m hmne hmlt
                            rw [hh', node?_setNode_ne _ _ _ _ hmne,
                              node?_setNode_ne _ _ _ _ (Nat.ne_of_lt hmlt)]
                            exact hold_n m hmlt
                          · intro s2 hs2ne hs2lt
                            rw [hh', store?_setNode, store?_setNode,
                              store?_allocStore_ne (h1.setStoreC sid (alistUpdate st stc))
                                [] s2 (Nat.ne_of_lt (lt_trans hs2lt hns)),
                              store?_setStoreC_ne _ _ _ _ hs2ne]
                            exact hold_s s2 hs2lt
                          · rw [hnext1]
                            exact le_of_lt hnn
                          · rw [hnexts]
                            exact le_of_lt (Nat.lt_succ_of_lt hns)
                    all_goals exact absurd (congrArg Prod.snd hsp) (by simp)
    · -- setitems
      intro h nid n sid st D h' nid2 hn hpar hvd hnlt hslt hst hinv hlv hfresh hwf hrun
      match D with
      | [] =>
        rw [show npToPy ([] : List (String × NVal V)) = [] from rfl, setitems] at hrun
        obtain ⟨rfl, hok⟩ : h = h' ∧ (Except.ok nid : Except PErr Nat) = Except.ok nid2 :=
          ⟨congrArg Prod.fst hrun, congrArg Prod.snd hrun⟩
        obtain rfl : nid = nid2 := Except.ok.inj hok
        refine ⟨rfl, [], 1, st, ?_, ?_, hst, hinv, fun x hx => hx, ?_, buildExt_refl h nid sid⟩
        · simpa using hn
        · rw [mirrorA]
        · intro v hv
          rw [show leavesND ([] : List (String × NVal V)) = [] from rfl] at hv
          cases hv
      | (k, value) :: D' =>
        rw [show npToPy ((k, value) :: D') = (k, value.toPy) :: npToPy D' from rfl,
          setitems] at hrun
        obtain ⟨hv1, hwf', hkfresh⟩ := ndWellFormed_cons k value D' hwf
        rw [leavesND_cons] at hlv
        split at hrun
        · exact absurd (congrArg Prod.snd hrun) (by simp)
        case _ h1 u1 hset =>
          have hone := ih1 h nid n sid st k value h1 u1 hn hpar hvd hnlt hslt hst hinv
            (fun v hv => hlv v (List.mem_append_left _ hv))
            (hfresh k (List.mem_cons_self _ _)) hv1 hset
          obtain ⟨S1, fm1, st1, hnode1, hmir1, hsto1, hinv1, hkeys1, hcov1, hext1⟩ := hone
          have hS1keys : alistKeys S1 = [k] := mirrorA_keys c fm1 h1 _ _ nid S1 _ hmir1
          have hrest := ih2 h1 nid { n with key_dict := n.key_dict ++ S1 } sid st1
            D' h' nid2 hnode1 hpar hvd
            (Nat.lt_of_lt_of_le hnlt hext1.2.2.1) (Nat.lt_of_lt_of_le hslt hext1.2.2.2)
            hsto1 hinv1
            (fun v hv => hlv v (List.mem_append_right _ hv))
            ?freshrest hwf' hrun
          case freshrest =>
            intro x hx
            rw [alistGet?_append]
            have hx1 : alistGet? n.key_dict x = none :=
              hfresh x (List.mem_cons_of_mem _ hx)
            rw [hx1]
            apply alistGet?_eq_none_of_not_mem
            rw [hS1keys]
            intro hmem
            rcases List.mem_singleton.mp hmem with rfl
            exact hkfresh hx
          obtain ⟨heq2, S2, fm2, st2, hnode2, hmir2, hsto2, hinv2, hkeys2, hcov2, hext2⟩ := hrest
          refine ⟨heq2, S1 ++ S2, fm1 + fm2, st2, ?_, ?_, hsto2, hinv2,
            fun x hx => hkeys2 x (hkeys1 x hx), ?_, buildExt_trans h h1 h' nid sid hext1 hext2⟩
          · rw [← List.append_assoc]
            exact hnode2
          · have hm1' : mirrorA c fm1 h' h.nextNode h'.nextNode nid S1 [(k, value)] = true := by
              apply mirrorA_widen c fm1 h' h.nextNode h1.nextNode h.nextNode h'.nextNode nid S1
                [(k, value)] (le_refl _) hext2.2.2.1
              apply mirrorA_pres c fm1 h1 h' h.nextNode h1.nextNode nid S1 [(k, value)]
              · intro m hmlo hmhi
                exact hext2.1 m (by omega) hmhi
              · exact hmir1
            have hm2' : mirrorA c fm2 h' h.nextNode h'.nextNode nid S2 D' :=
              mirrorA_widen c fm2 h' h1.nextNode h'.nextNode h.nextNode h'.nextNode nid S2 D'
                hext1.2.2.1 (le_refl _) hmir2
            have := mirrorA_append c fm1 fm2 h' h.nextNode h'.nextNode nid S1 [(k, value)]
              S2 D' hm1' hm2'
            simpa using this
          · intro v hv
            rw [leavesND_cons] at hv
            rcases List.mem_append.mp hv with h1m | h2m
            · exact hkeys2 _ (hcov1 v h1m)
            · exact hcov2 v h2m
    · -- ddInit
      intro h d h' cid hlv hwf hrun
      simp only [ddInit] at hrun
      have hres := ih2 ((h.allocStore []).1.allocNode
          { key_dict := [], value_dict := h.nextStore, parent := none }).1
        h.nextNode ⟨[], h.nextStore, none⟩ h.nextStore [] d h' cid
        (node?_allocNode_fresh _ _) rfl rfl (Nat.lt_succ_self _) (Nat.lt_succ_self _)
        (store?_allocStore_fresh _ _) (storeInv_nil c L) hlv
        (fun x _ => rfl) hwf hrun
      obtain ⟨rfl, S, fm, st', hnode, hmir, hsto, hinv', hkeysm, hcov, hext⟩ := hres
      refine ⟨rfl, S, fm, st', ?_, hmir, hsto, hinv', hcov, ?_, ?_, ?_, ?_⟩
      · simpa using hnode
      · intro m hm
        rw [hext.1 m (Nat.ne_of_lt hm) (Nat.lt_succ_of_lt hm)]
        exact node?_allocNode_ne _ _ m (Nat.ne_of_lt hm)
      · intro s2 hs2
        rw [hext.2.1 s2 (Nat.ne_of_lt hs2) (Nat.lt_succ_of_lt hs2)]
        exact store?_allocStore_ne _ _ s2 (Nat.ne_of_lt hs2)
      · exact Nat.lt_of_lt_of_le (Nat.lt_succ_self _) hext.2.2.1
      · exact Nat.lt_of_lt_of_le (Nat.lt_succ_self _) hext.2.2.2


theorem alistGet?_some_mem {α β : Type} [DecidableEq α] (l : List (α × β)) (k : α) (v : β)
    (h : alistGet? l k = some v) : (k, v) ∈ l := by
  induction l with
  | nil => cases h
  | cons p t ih =>
    obtain ⟨k0, v0⟩ := p
    rw [alistGet?] at h
    split at h
    case _ heq =>
      obtain rfl : k0 = k := heq
      obtain rfl : v0 = v := Option.some.inj h
      exact List.mem_cons_self _ _
    case _ =>
      exact List.mem_cons_of_mem _ (ih h)

theorem alistGet?_of_mem_nodup {α β : Type} [DecidableEq α] (l : List (α × β)) (p : α × β)
    (hnd : (alistKeys l).Nodup) (hp : p ∈ l) : alistGet? l p.1 = some p.2 := by
  induction l with
  | nil => cases hp
  | cons q t ih =>
    obtain ⟨k0, v0⟩ := q
    rw [alistKeys, List.map_cons, List.nodup_cons] at hnd
    rcases List.mem_cons.mp hp with rfl | hpt
    · rw [alistGet?, if_pos rfl]
    · rw [alistGet?]
      rw [if_neg]
      · exact ih hnd.2 hpt
      · intro hk
        apply hnd.1
        have hm := List.mem_map_of_mem Prod.fst hpt
        rw [← hk] at hm
        exact hm

theorem chainsTo_child (h : Heap V) (cid : Nat) (nc : NodeObj V) (pid sid : Nat)
    (hq : h.node? cid = some nc) (hp : nc.parent = some pid)
    (hch : chainsTo h pid sid) : chainsTo h cid sid := by
  intro f r hv
  cases f with
  | zero => rw [value_sid] at hv; cases hv
  | succ f =>
    simp only [value_sid, hq, hp] at hv
    exact hch f r hv

theorem getitem_str_ok (f : Nat) (h : Heap V) (nid : Nat) (n : NodeObj V) (k s : String)
    (sid : Nat) (st : List (String × V)) (g : GetRes V)
    (hn : h.node? nid = some n) (hlk : alistGet? n.key_dict k = some (Slot.str s))
    (hch : chainsTo h nid sid) (hst : h.store? sid = some st)
    (hg : getitem f h nid k = Except.ok g) :
    ∃ w, g = GetRes.value w ∧ alistGet? st s = some w := by
  simp only [getitem, hn, hlk, effStore] at hg
  split at hg
  · cases hg
  case _ st2 heq2 =>
    split at heq2
    · cases heq2
    case _ r hvs =>
      obtain rfl : sid = r := (hch f r hvs).symm
      rw [hst] at heq2
      simp only at heq2
      obtain rfl : st = st2 := Except.ok.inj heq2
      split at hg
      case _ w hw =>
        obtain rfl : GetRes.value w = g := Except.ok.inj hg
        exact ⟨w, rfl, hw⟩
      case _ hw =>
        cases hg

theorem getitem_node_eq (f : Nat) (h : Heap V) (nid : Nat) (n : NodeObj V) (k : String)
    (cid : Nat) (hn : h.node? nid = some n)
    (hlk : alistGet? n.key_dict k = some (Slot.node cid)) :
    getitem f h nid k = Except.ok (GetRes.nodeRef cid) := by
  simp only [getitem, hn, hlk]

/-- Reading back a mirrored tree through `to_dict` (which goes through
`__getitem__`) returns the nested mapping exactly, provided the effective store
is honest (`storeInv`) and the truncated hashes of the leaf pool do not
collide. -/
theorem toDict_main {V : Type} (c : Cfg V) (L : List V)
    (hinj : ∀ a ∈ L, ∀ b ∈ L, hashId c a = hashId c b → a = b) :
    ∀ f,
      (∀ (h : Heap V) (nid : Nat) (n : NodeObj V) (lo hi sid : Nat)
         (st : List (String × V)) (fm : Nat) (D : List (String × NVal V))
         (R : List (String × NVal V)),
        h.node? nid = some n →
        mirrorA c fm h lo hi nid n.key_dict D = true →
        chainsTo h nid sid →
        h.store? sid = some st → storeInv c L st →
        (∀ v ∈ leavesND D, v ∈ L) →
        ndWellFormed D = true →
        to_dict f h nid = Except.ok R → R = D) ∧
      (∀ (h : Heap V) (nid : Nat) (n : NodeObj V) (lo hi sid : Nat)
         (st : List (String × V)) (fm : Nat) (S2 : List (String × Slot V))
         (D2 : List (String × NVal V)) (R : List (String × NVal V)),
        h.node? nid = some n →
        (∀ p ∈ S2, alistGet? n.key_dict p.1 = some p.2) →
        mirrorA c fm h lo hi nid S2 D2 = true →
        chainsTo h nid sid →
        h.store? sid = some st → storeInv c L st →
        (∀ v ∈ leavesND D2, v ∈ L) →
        nodupKeysLB D2 = true →
        to_dict_entries f h nid (S2.map Prod.fst) = Except.ok R → R = D2) := by
  intro f
  induction f with
  | zero =>
    constructor
    · intro h nid n lo hi sid st fm D R _ _ _ _ _ _ _ hrun
      rw [to_dict] at hrun
      cases hrun
    · intro h nid n lo hi sid st fm S2 D2 R _ _ _ _ _ _ _ _ hrun
      rw [to_dict_entries] at hrun
      cases hrun
  | succ f ih =>
    obtain ⟨iha, ihb⟩ := ih
    constructor
    · intro h nid n lo hi sid st fm D R hn hmir hch hst hinv hlv hwf hrun
      simp only [to_dict, hn] at hrun
      rw [ndWellFormed, Bool.and_eq_true, decide_eq_true_eq] at hwf
      have hnodup : (alistKeys n.key_dict).Nodup := by
        rw [mirrorA_keys c fm h lo hi nid n.key_dict D hmir]
        exact hwf.1
      exact ihb h nid n lo hi sid st fm n.key_dict D R hn
        (fun p hp => alistGet?_of_mem_nodup n.key_dict p hnodup hp)
        hmir hch hst hinv hlv hwf.2 hrun
    · intro h nid n lo hi sid st fm S2 D2 R hn hlk hmir hch hst hinv hlv hwf hrun
      rcases S2 with _ | ⟨⟨k, sl⟩, t⟩ <;> rcases D2 with _ | ⟨⟨k', dv⟩, t'⟩
      · rw [show (([] : List (String × Slot V)).map Prod.fst) = [] from rfl,
          to_dict_entries] at hrun
        exact (Except.ok.inj hrun).symm
      · cases fm with
        | zero => rw [mirrorA] at hmir; cases hmir
        | succ g => rw [mirrorA] at hmir; cases hmir
      · cases fm with
        | zero => rw [mirrorA] at hmir; cases hmir
        | succ g => rw [mirrorA] at hmir; cases hmir
      · cases fm with
        | zero => rw [mirrorA] at hmir; cases hmir
        | succ g =>
        rw [nodupKeysLB, Bool.and_eq_true] at hwf
        cases sl with
        | raw w =>
          rw [mirrorA] at hmir
          cases hmir
        | str s =>
          cases dv with
          | dict d =>
            rw [mirrorA] at hmir
            cases hmir
          | leaf v =>
            rw [mirrorA] at hmir
            simp only [Bool.and_eq_true, decide_eq_true_eq] at hmir
            obtain ⟨⟨rfl, rfl⟩, hmt⟩ := hmir
            rw [show ((k, Slot.str (hashId c v)) :: t).map Prod.fst =
                k :: t.map Prod.fst from rfl] at hrun
            simp only [to_dict_entries] at hrun
            have hlkh := hlk (k, Slot.str (hashId c v)) (List.mem_cons_self _ _)
            split at hrun
            · cases hrun
            case _ w heq =>
              obtain ⟨w2, hwe, hw⟩ :=
                getitem_str_ok f h nid n k (hashId c v) sid st _ hn hlkh hch hst heq
              obtain rfl : w = w2 := GetRes.value.inj hwe
              have hwmem := alistGet?_some_mem st (hashId c v) w hw
              have hprop := hinv.1 _ hwmem
              have hvL : v ∈ L := by
                apply hlv v
                rw [leavesND_cons, show (NVal.leaf v).leaves = [v] from rfl]
                exact List.mem_append_left _ (List.mem_singleton_self v)
              obtain rfl : v = w := (hinj w hprop.2 v hvL hprop.1.symm).symm
              split at hrun
              · cases hrun
              case _ r2 hr2 =>
                obtain rfl : (k, NVal.leaf v) :: r2 = R := Except.ok.inj hrun
                have hr2t := ihb h nid n lo hi sid st g t t' r2 hn
                  (fun p hp => hlk p (List.mem_cons_of_mem _ hp)) hmt hch hst hinv
                  (fun x hx => hlv x (by
                    rw [leavesND_cons]
                    exact List.mem_append_right _ hx)) hwf.2 hr2
                rw [hr2t]
            case _ cid2 heq =>
              obtain ⟨w2, hwe, _⟩ :=
                getitem_str_ok f h nid n k (hashId c v) sid st _ hn hlkh hch hst heq
              cases hwe
        | node cid =>
          cases dv with
          | leaf v =>
            rw [mirrorA] at hmir
            cases hmir
          | dict d =>
            rw [mirrorA] at hmir
            simp only [Bool.and_eq_true, decide_eq_true_eq] at hmir
            obtain ⟨⟨⟨⟨rfl, hlo⟩, hhi⟩, hmatch⟩, hmt⟩ := hmir
            rcases hq : h.node? cid with _ | nc
            · rw [hq] at hmatch
              cases hmatch
            · rw [hq] at hmatch
              simp only [Bool.and_eq_true, decide_eq_true_eq] at hmatch
              obtain ⟨hpar, hcm⟩ := hmatch
              rw [show ((k, Slot.node cid) :: t).map Prod.fst =
                  k :: t.map Prod.fst from rfl] at hrun
              simp only [to_dict_entries,
                getitem_node_eq f h nid n k cid hn
                  (hlk (k, Slot.node cid) (List.mem_cons_self _ _))] at hrun
              split at hrun
              · cases hrun
              case _ sub hsub =>
                split at hrun
                · cases hrun
                case _ r2 hr2 =>
                  obtain rfl : (k, NVal.dict sub) :: r2 = R := Except.ok.inj hrun
                  have hchc : chainsTo h cid sid := chainsTo_child h cid nc nid sid hq hpar hch
                  have hwfd : ndWellFormed d = true := by
                    have h1 := hwf.1
                    rw [NVal.nodupKeysB] at h1
                    rw [ndWellFormed]
                    exact h1
                  have hsubd := iha h cid nc lo hi sid st g d sub hq hcm hchc hst hinv
                    (fun x hx => hlv x (by
                      rw [leavesND_cons]
                      exact List.mem_append_left _ hx)) hwfd hsub
                  have hr2t := ihb h nid n lo hi sid st g t t' r2 hn
                    (fun p hp => hlk p (List.mem_cons_of_mem _ hp)) hmt hch hst hinv
                    (fun x hx => hlv x (by
                      rw [leavesND_cons]
                      exact List.mem_append_right _ hx)) hwf.2 hr2
                  rw [hsubd, hr2t]



theorem chainsTo_root (h : Heap V) (nid : Nat) (n : NodeObj V)
    (hn : h.node? nid = some n) (hp : n.parent = none) :
    chainsTo h nid n.value_dict := by
  intro f r hv
  cases f with
  | zero => rw [value_sid] at hv; cases hv
  | succ f =>
    simp only [value_sid, hn, hp] at hv
    exact (Except.ok.inj hv).symm

theorem eq_singleton_of_all_eq {α : Type} (l : List α) (a : α)
    (hall : ∀ x ∈ l, x = a) (hne : l ≠ []) (hnd : l.Nodup) : l = [a] := by
  cases l with
  | nil => exact absurd rfl hne
  | cons p t =>
    obtain rfl : p = a := hall p (List.mem_cons_self _ _)
    cases t with
    | nil => rfl
    | cons q t2 =>
      have hq : q = p := hall q (List.mem_cons_of_mem _ (List.mem_cons_self _ _))
      rw [List.nodup_cons] at hnd
      refine absurd ?_ hnd.1
      rw [hq]
      exact List.mem_cons_self _ _

/-- C7: building `{"a": 1, "b": {"c": 1, "d": 2}}` yields an effective store with
exactly 2 entries holding the hashes of `1` and `2`; `to_dict` reproduces the
mapping exactly; with auto clean-up on (the default), deleting `"b"` leaves the
store exactly `[(hash 1, 1)]`, the value still referenced by `"a"`. -/
theorem c7_concrete_scenario (c : Cfg Nat) (f1 f2 f3 : Nat)
    (h1 h2 : Heap Nat) (nid : Nat) (R : List (String × NVal Nat)) (u : Unit)
    (hauto : c.auto_clean_up = true)
    (hne : hashId c 1 ≠ hashId c 2)
    (hbuild : build c f1 emptyHeap ddD7 = (h1, Except.ok nid))
    (htd : to_dict f2 h1 nid = Except.ok R)
    (hdel : delitem c f3 h1 nid "b" = (h2, Except.ok u)) :
    (∃ st, h1.store? 0 = some st ∧ st.length = 2 ∧
      hashId c 1 ∈ alistKeys st ∧ hashId c 2 ∈ alistKeys st) ∧
    R = ddD7 ∧
    (∃ st2, h2.store? 0 = some st2 ∧ st2 = [(hashId c 1, 1)]) := by
  have hwf7 : ndWellFormed ddD7 = true := rfl
  have hL : leavesND ddD7 = [1, 1, 2] := rfl
  have hinj7 : ∀ a ∈ leavesND ddD7, ∀ b ∈ leavesND ddD7,
      hashId c a = hashId c b → a = b := by
    intro a ha b hb hab
    rw [hL] at ha hb
    simp only [List.mem_cons, List.not_mem_nil, or_false] at ha hb
    rcases ha with rfl | rfl | rfl <;> rcases hb with rfl | rfl | rfl <;>
      first
        | rfl
        | exact absurd hab hne
        | exact absurd hab.symm hne
  have hdd := (build_main c (leavesND ddD7) f1).2.2 emptyHeap ddD7 h1 nid
    (fun v hv => hv) hwf7 hbuild
  obtain ⟨rfl, S, fm, st', hnode, hmir, hsto, hinv, hcov, hold_n, hold_s, hnn, hns⟩ := hdd
  have hchr : chainsTo h1 emptyHeap.nextNode (emptyHeap : Heap Nat).nextStore :=
    chainsTo_root h1 emptyHeap.nextNode ⟨S, (emptyHeap : Heap Nat).nextStore, none⟩ hnode rfl
  -- Part b: to_dict reproduces ddD7.
  have hR : R = ddD7 :=
    (toDict_main c (leavesND ddD7) hinj7 f2).1 h1 (emptyHeap : Heap Nat).nextNode
      ⟨S, (emptyHeap : Heap Nat).nextStore, none⟩ ((emptyHeap : Heap Nat).nextNode + 1) h1.nextNode
      (emptyHeap : Heap Nat).nextStore st' fm ddD7 R hnode hmir hchr hsto hinv
      (fun v hv => hv) hwf7 htd
  -- Part a: membership and size of the built store.
  have hkeysmem : ∀ x ∈ alistKeys st', x = hashId c 1 ∨ x = hashId c 2 := by
    intro x hx
    rw [alistKeys] at hx
    obtain ⟨p, hp, rfl⟩ := List.mem_map.mp hx
    obtain ⟨hkey, hmem⟩ := hinv.1 p hp
    rw [hL] at hmem
    simp only [List.mem_cons, List.not_mem_nil, or_false] at hmem
    rcases hmem with h2m | h2m | h2m <;> rw [hkey, h2m]
    · exact Or.inl rfl
    · exact Or.inl rfl
    · exact Or.inr rfl
  have h1in : hashId c 1 ∈ alistKeys st' := hcov 1 (by rw [hL]; simp)
  have h2in : hashId c 2 ∈ alistKeys st' := hcov 2 (by rw [hL]; simp)
  have hlen : st'.length = 2 := by
    have hnd2 : ([hashId c 1, hashId c 2]).Nodup := by simp [hne]
    have hperm : List.Perm (alistKeys st') [hashId c 1, hashId c 2] := by
      rw [List.perm_ext_iff_of_nodup hinv.2 hnd2]
      intro x
      constructor
      · intro hx
        rcases hkeysmem x hx with rfl | rfl <;> simp
      · intro hx
        simp only [List.mem_cons, List.not_mem_nil, or_false] at hx
        rcases hx with rfl | rfl
        · exact h1in
        · exact h2in
    have hl1 := hperm.length_eq
    have hl2 : (alistKeys st').length = st'.length := List.length_map st' Prod.fst
    rw [hl2] at hl1
    exact hl1
  refine ⟨⟨st', hsto, hlen, h1in, h2in⟩, hR, ?_⟩
  -- Part c: extract the concrete shape of the root key structure.
  rw [show ddD7 = [("a", NVal.leaf 1), ("b", NVal.dict
    [("c", NVal.leaf 1), ("d", NVal.leaf 2)])] from rfl] at hmir
  rcases S with _ | ⟨⟨k1, sl1⟩, S'⟩
  · cases fm with
    | zero => rw [mirrorA] at hmir; cases hmir
    | succ g0 => rw [mirrorA] at hmir; cases hmir
  cases fm with
  | zero => rw [mirrorA] at hmir; cases hmir
  | succ g0 =>
  cases sl1 with
  | node cid0 => rw [mirrorA] at hmir; cases hmir
  | raw w0 => rw [mirrorA] at hmir; cases hmir
  | str s1 =>
  rw [mirrorA] at hmir
  simp only [Bool.and_eq_true, decide_eq_true_eq] at hmir
  obtain ⟨⟨rfl, rfl⟩, hmt⟩ := hmir
  rcases S' with _ | ⟨⟨k2, sl2⟩, S''⟩
  · cases g0 with
    | zero => rw [mirrorA] at hmt; cases hmt
    | succ g1 => rw [mirrorA] at hmt; cases hmt
  cases g0 with
  | zero => rw [mirrorA] at hmt; cases hmt
  | succ g1 =>
  cases sl2 with
  | str s2 => rw [mirrorA] at hmt; cases hmt
  | raw w0 => rw [mirrorA] at hmt; cases hmt
  | node cid =>
  rw [mirrorA] at hmt
  simp only [Bool.and_eq_true, decide_eq_true_eq] at hmt
  obtain ⟨⟨⟨⟨rfl, hlo2⟩, hhi2⟩, hmatch⟩, hmt2⟩ := hmt
  rcases hq : h1.node? cid with _ | ncb
  · rw [hq] at hmatch
    cases hmatch
  rw [hq] at hmatch
  simp only [Bool.and_eq_true, decide_eq_true_eq] at hmatch
  obtain ⟨hparb, hcmirb⟩ := hmatch
  rcases S'' with _ | ⟨p3, S3⟩
  case cons =>
    cases g1 with
    | zero => rw [mirrorA] at hmt2; cases hmt2
    | succ g2 => rw [mirrorA] at hmt2; cases hmt2
  case nil =>
  -- Now drive the delete of "b".
  cases f3 with
  | zero =>
    rw [delitem] at hdel
    exact absurd (congrArg Prod.snd hdel) (by simp)
  | succ g =>
  have hlkb : alistGet? ([("a", Slot.str (hashId c 1)), ("b", Slot.node cid)] :
      List (String × Slot Nat)) "b" = some (Slot.node cid) := rfl
  have hdelS : alistDel ([("a", Slot.str (hashId c 1)), ("b", Slot.node cid)] :
      List (String × Slot Nat)) "b" = [("a", Slot.str (hashId c 1))] := rfl
  simp only [delitem, hnode, hlkb, hdelS, hauto, eq_self_iff_true, if_true] at hdel
  split at hdel
  · exact absurd (congrArg Prod.snd hdel) (by simp)
  case _ h2x u2 hsp =>
    -- the child is re-rooted by set_parent with a deep copy of the store
    cases g with
    | zero =>
      rw [set_parent] at hsp
      exact absurd (congrArg Prod.snd hsp) (by simp)
    | succ ga =>
    simp only [set_parent] at hsp
    split at hsp
    · exact absurd (congrArg Prod.snd hsp) (by simp)
    case _ st_e heff =>
      have hne0 : cid ≠ (emptyHeap : Heap Nat).nextNode := by omega
      have hq1' : (h1.setNode (emptyHeap : Heap Nat).nextNode
          { key_dict := [("a", Slot.str (hashId c 1))],
            value_dict := (emptyHeap : Heap Nat).nextStore,
            parent := none }).node? cid = some ncb := by
        rw [node?_setNode_ne _ _ _ _ hne0]
        exact hq
      have hchr' : chainsTo (h1.setNode (emptyHeap : Heap Nat).nextNode
          { key_dict := [("a", Slot.str (hashId c 1))],
            value_dict := (emptyHeap : Heap Nat).nextStore,
            parent := none }) cid (emptyHeap : Heap Nat).nextStore := by
        refine chainsTo_child _ cid ncb (emptyHeap : Heap Nat).nextNode _ hq1' hparb ?_
        exact chainsTo_root _ (emptyHeap : Heap Nat).nextNode _ (node?_setNode_self _ _ _) rfl
      obtain rfl : st' = st_e := by
        simp only [effStore] at heff
        split at heff
        · cases heff
        case _ r hvs =>
          obtain rfl : (emptyHeap : Heap Nat).nextStore = r := (hchr' ga r hvs).symm
          rw [show (h1.setNode (emptyHeap : Heap Nat).nextNode
            { key_dict := [("a", Slot.str (hashId c 1))],
              value_dict := (emptyHeap : Heap Nat).nextStore,
              parent := none }).store? (emptyHeap : Heap Nat).nextStore = some st'
            from hsto] at heff
          simp only at heff
          exact Except.ok.inj heff
      -- resolve the node re-fetch after the store copy
      have hqA : ((h1.setNode (emptyHeap : Heap Nat).nextNode
          { key_dict := [("a", Slot.str (hashId c 1))],
            value_dict := (emptyHeap : Heap Nat).nextStore,
            parent := none }).allocStore st').1.node? cid = some ncb := hq1'
      simp only [hqA, hauto, eq_self_iff_true, if_true] at hsp
      cases ga with
      | zero =>
        rw [clean_up] at hsp
        exact absurd (congrArg Prod.snd hsp) (by simp)
      | succ gb =>
      simp only [clean_up, node?_setNode_self] at hsp
      split at hsp
      · exact absurd (congrArg Prod.snd hsp) (by simp)
      case _ inUseC hahiuC =>
        have hstB : (((h1.setNode (emptyHeap : Heap Nat).nextNode
            { key_dict := [("a", Slot.str (hashId c 1))],
              value_dict := (emptyHeap : Heap Nat).nextStore,
              parent := none }).allocStore st').1.setNode cid
            { key_dict := ncb.key_dict,
              value_dict := ((h1.setNode (emptyHeap : Heap Nat).nextNode
                { key_dict := [("a", Slot.str (hashId c 1))],
                  value_dict := (emptyHeap : Heap Nat).nextStore,
                  parent := none }).allocStore st').2,
              parent := none }).store?
            ((h1.setNode (emptyHeap : Heap Nat).nextNode
              { key_dict := [("a", Slot.str (hashId c 1))],
                value_dict := (emptyHeap : Heap Nat).nextStore,
                parent := none }).allocStore st').2 = some st' :=
          store?_allocStore_fresh _ st'
        simp only [hstB] at hsp
        injection hsp with hfst2 hsnd2
        subst hfst2
        -- now the root clean-up runs on the heap left by the child detach
        have hrootC : ((((h1.setNode (emptyHeap : Heap Nat).nextNode
            { key_dict := [("a", Slot.str (hashId c 1))],
              value_dict := (emptyHeap : Heap Nat).nextStore,
              parent := none }).allocStore st').1.setNode cid
            { key_dict := ncb.key_dict,
              value_dict := ((h1.setNode (emptyHeap : Heap Nat).nextNode
                { key_dict := [("a", Slot.str (hashId c 1))],
                  value_dict := (emptyHeap : Heap Nat).nextStore,
                  parent := none }).allocStore st').2,
              parent := none }).setStoreC
            ((h1.setNode (emptyHeap : Heap Nat).nextNode
              { key_dict := [("a", Slot.str (hashId c 1))],
                value_dict := (emptyHeap : Heap Nat).nextStore,
                parent := none }).allocStore st').2
            (List.filter (fun p => decide (p.1 ∈ inUseC)) st')).node?
            (emptyHeap : Heap Nat).nextNode = some
            { key_dict := [("a", Slot.str (hashId c 1))],
              value_dict := (emptyHeap : Heap Nat).nextStore,
              parent := none } := by
          rw [node?_setStoreC, node?_setNode_ne _ _ _ _ (Ne.symm hne0)]
          exact node?_setNode_self _ _ _
        simp only [clean_up, hrootC] at hdel
        split at hdel
        · exact absurd (congrArg Prod.snd hdel) (by simp)
        case _ inUse hahiu =>
          -- the in-use hashes of the surviving tree are exactly the hash of 1
          simp only [all_hashes_in_use, hrootC, List.map_cons, List.map_nil] at hahiu
          cases gb with
          | zero =>
            rw [hashes_of_slots] at hahiu
            cases hahiu
          | succ gc =>
          simp only [hashes_of_slots] at hahiu
          split at hahiu
          · cases hahiu
          case _ r hosr =>
            obtain rfl : ([] : List String) = r := by
              cases gc with
              | zero => rw [hashes_of_slots] at hosr; cases hosr
              | succ gd =>
                rw [hashes_of_slots] at hosr
                exact Except.ok.inj hosr
            obtain rfl : [hashId c 1] = inUse := Except.ok.inj hahiu
            have hstC : ((((h1.setNode (emptyHeap : Heap Nat).nextNode
                { key_dict := [("a", Slot.str (hashId c 1))],
                  value_dict := (emptyHeap : Heap Nat).nextStore,
                  parent := none }).allocStore st').1.setNode cid
                { key_dict := ncb.key_dict,
                  value_dict := ((h1.setNode (emptyHeap : Heap Nat).nextNode
                    { key_dict := [("a", Slot.str (hashId c 1))],
                      value_dict := (emptyHeap : Heap Nat).nextStore,
                      parent := none }).allocStore st').2,
                  parent := none }).setStoreC
                ((h1.setNode (emptyHeap : Heap Nat).nextNode
                  { key_dict := [("a", Slot.str (hashId c 1))],
                    value_dict := (emptyHeap : Heap Nat).nextStore,
                    parent := none }).allocStore st').2
                (List.filter (fun p => decide (p.1 ∈ inUseC)) st')).store?
                (emptyHeap : Heap Nat).nextStore = some st' := by
              have hnsA : (emptyHeap : Heap Nat).nextStore ≠
                  ((h1.setNode (emptyHeap : Heap Nat).nextNode
                    { key_dict := [("a", Slot.str (hashId c 1))],
                      value_dict := (emptyHeap : Heap Nat).nextStore,
                      parent := none }).allocStore st').2 := Nat.ne_of_lt hns
              have hnsB : (emptyHeap : Heap Nat).nextStore ≠
                  (h1.setNode (emptyHeap : Heap Nat).nextNode
                    { key_dict := [("a", Slot.str (hashId c 1))],
                      value_dict := (emptyHeap : Heap Nat).nextStore,
                      parent := none }).nextStore := Nat.ne_of_lt hns
              rw [store?_setStoreC_ne _ _ _ _ hnsA, store?_setNode,
                store?_allocStore_ne _ st' _ hnsB]
              exact hsto
            simp only [hstC] at hdel
            injection hdel with hfst3 hsnd3
            subst hfst3
            refine ⟨List.filter (fun p => decide (p.1 ∈ [hashId c 1])) st',
              store?_setStoreC_self _ _ _, ?_⟩
            refine eq_singleton_of_all_eq _ _ ?_ ?_ ?_
            · intro p hp
              obtain ⟨hpmem, hppred⟩ := List.mem_filter.mp hp
              have hp1 : p.1 = hashId c 1 := by
                have hd := of_decide_eq_true hppred
                simpa using hd
              obtain ⟨hkey, hmem⟩ := hinv.1 p hpmem
              rw [hL] at hmem
              simp only [List.mem_cons, List.not_mem_nil, or_false] at hmem
              have hp2 : p.2 = 1 := by
                rcases hmem with h2m | h2m | h2m
                · exact h2m
                · exact h2m
                · exfalso
                  apply hne
                  rw [← hp1, hkey, h2m]
              rw [← hp1, ← hp2]
            · obtain ⟨p, hp, hpfst⟩ := List.mem_map.mp (by rw [alistKeys] at h1in; exact h1in)
              refine List.ne_nil_of_mem (List.mem_filter.mpr ⟨hp, ?_⟩)
              rw [hpfst]
              simp
            · have hsub : List.Sublist
                  (List.filter (fun p => decide (p.1 ∈ [hashId c 1])) st') st' :=
                List.filter_sublist _
              have hmap := hsub.map Prod.fst
              exact List.Nodup.of_map Prod.fst (List.Nodup.sublist hmap hinv.2)
/-- Witness: the C7 scenario evaluated at the concrete hash collaborators. -/
theorem c7_concrete_scenario_witness :
    (∃ st, (build cfgNat 20 emptyHeap ddD7).1.store? 0 = some st ∧ st.length = 2 ∧
      hashId cfgNat 1 ∈ alistKeys st ∧ hashId cfgNat 2 ∈ alistKeys st) ∧
    ddD7 = ddD7 ∧
    (∃ st2, (delitem cfgNat 20 (build cfgNat 20 emptyHeap ddD7).1 0 "b").1.store? 0 =
        some st2 ∧ st2 = [(hashId cfgNat 1, 1)]) :=
  c7_concrete_scenario cfgNat 20 20 20 (build cfgNat 20 emptyHeap ddD7).1
    (delitem cfgNat 20 (build cfgNat 20 emptyHeap ddD7).1 0 "b").1 0 ddD7 ()
    rfl (by decide) rfl rfl rfl


theorem mem_leavesND_iff {V : Type} (D : List (String × NVal V)) (w : V) :
    w ∈ leavesND D ↔ ∃ p ∈ D, w ∈ (p.2 : NVal V).leaves := by
  induction D with
  | nil =>
    rw [show leavesND ([] : List (String × NVal V)) = [] from rfl]
    simp
  | cons q t ih =>
    obtain ⟨k, v⟩ := q
    rw [leavesND_cons, List.mem_append, ih]
    constructor
    · rintro (hv | ⟨p, hp, hwp⟩)
      · exact ⟨(k, v), List.mem_cons_self _ _, hv⟩
      · exact ⟨p, List.mem_cons_of_mem _ hp, hwp⟩
    · rintro ⟨p, hp, hwp⟩
      rcases List.mem_cons.mp hp with rfl | hpt
      · exact Or.inl hwp
      · exact Or.inr ⟨p, hpt, hwp⟩

theorem nodupKeysLB_mem {V : Type} (D : List (String × NVal V)) (p : String × NVal V)
    (hn : nodupKeysLB D = true) (hp : p ∈ D) : (p.2 : NVal V).nodupKeysB = true := by
  induction D with
  | nil => cases hp
  | cons q t ih =>
    obtain ⟨k, v⟩ := q
    rw [nodupKeysLB, Bool.and_eq_true] at hn
    rcases List.mem_cons.mp hp with rfl | hpt
    · exact hn.1
    · exact ih hn.2 hpt

/-- Two nested mappings related by Python dict equality (`nvEquiv`) have the same
set of leaf values, assuming each level has unique keys (true of genuine Python
dicts). -/
theorem nvEquiv_leaves_iff {V : Type} [DecidableEq V] :
    ∀ f (a b : NVal V), a.nodupKeysB = true → b.nodupKeysB = true →
      nvEquiv f a b = true → ∀ w, (w ∈ a.leaves ↔ w ∈ b.leaves) := by
  intro f
  induction f with
  | zero =>
    intro a b _ _ he
    rw [nvEquiv] at he
    cases he
  | succ f ih =>
    intro a b hna hnb he w
    cases a with
    | leaf x =>
      cases b with
      | leaf y =>
        rw [nvEquiv, decide_eq_true_eq] at he
        subst he
        exact Iff.rfl
      | dict e =>
        have hne : nvEquiv (f + 1) (NVal.leaf x) (NVal.dict e) = false := rfl
        rw [hne] at he
        cases he
    | dict d =>
      cases b with
      | leaf y =>
        have hne : nvEquiv (f + 1) (NVal.dict d) (NVal.leaf y) = false := rfl
        rw [hne] at he
        cases he
      | dict e =>
        rw [nvEquiv, Bool.and_eq_true, List.all_eq_true, List.all_eq_true] at he
        obtain ⟨hall1, hall2⟩ := he
        rw [NVal.nodupKeysB, Bool.and_eq_true, decide_eq_true_eq] at hna hnb
        rw [show (NVal.dict d).leaves = leavesND d from rfl,
          show (NVal.dict e).leaves = leavesND e from rfl]
        constructor
        · intro hw
          obtain ⟨p, hp, hwp⟩ := (mem_leavesND_iff d w).mp hw
          have h1 := hall1 p hp
          rcases hq : alistGet? e p.1 with _ | v'
          · rw [hq] at h1
            cases h1
          · rw [hq] at h1
            have hv'mem := alistGet?_some_mem e p.1 v' hq
            have hiff := ih p.2 v' (nodupKeysLB_mem d p hna.2 hp)
              (nodupKeysLB_mem e (p.1, v') hnb.2 hv'mem) h1 w
            exact (mem_leavesND_iff e w).mpr ⟨(p.1, v'), hv'mem, hiff.mp hwp⟩
        · intro hw
          obtain ⟨p, hp, hwp⟩ := (mem_leavesND_iff e w).mp hw
          have h2 := hall2 p hp
          rcases hq2 : alistGet? d p.1 with _ | v
          · rw [hq2] at h2
            cases h2
          · have hvmem := alistGet?_some_mem d p.1 v hq2
            have h1 := hall1 (p.1, v) hvmem
            have hqe : alistGet? e p.1 = some p.2 :=
              alistGet?_of_mem_nodup e p hnb.1 hp
            rw [hqe] at h1
            have hiff := ih v p.2 (nodupKeysLB_mem d (p.1, v) hna.2 hvmem)
              (nodupKeysLB_mem e p hnb.2 hp) h1 w
            exact (mem_leavesND_iff d w).mpr ⟨(p.1, v), hvmem, hiff.mpr hwp⟩

/-- C10: construction is deterministic up to Python dict equality of the input:
building from equal nested mappings gives equal (as Python dicts) flat views and
equal effective-store key sets, because each stored hash depends only on the
serialized value bytes and insertion order only affects store order, not
membership. -/
theorem c10_build_determinism {V : Type} [DecidableEq V] (c : Cfg V)
    (D1 D2 : List (String × NVal V)) (fe f1 f2 g1 g2 : Nat)
    (h1 h2 : Heap V) (n1 n2 : Nat) (R1 R2 : List (String × NVal V))
    (hwf1 : ndWellFormed D1 = true) (hwf2 : ndWellFormed D2 = true)
    (hequiv : ndEquiv fe D1 D2 = true)
    (hinj1 : ∀ a ∈ leavesND D1, ∀ b ∈ leavesND D1, hashId c a = hashId c b → a = b)
    (hinj2 : ∀ a ∈ leavesND D2, ∀ b ∈ leavesND D2, hashId c a = hashId c b → a = b)
    (hb1 : build c f1 emptyHeap D1 = (h1, Except.ok n1))
    (hb2 : build c f2 emptyHeap D2 = (h2, Except.ok n2))
    (ht1 : to_dict g1 h1 n1 = Except.ok R1)
    (ht2 : to_dict g2 h2 n2 = Except.ok R2) :
    ndEquiv fe R1 R2 = true ∧
    ∃ st1 st2, h1.store? 0 = some st1 ∧ h2.store? 0 = some st2 ∧
      (∀ x, x ∈ alistKeys st1 ↔ x ∈ alistKeys st2) := by
  obtain ⟨rfl, S1, fm1, st1, hnode1, hmir1, hsto1, hinv1, hcov1, _, _, _, _⟩ :=
    (build_main c (leavesND D1) f1).2.2 emptyHeap D1 h1 n1 (fun v hv => hv) hwf1 hb1
  obtain ⟨rfl, S2, fm2, st2, hnode2, hmir2, hsto2, hinv2, hcov2, _, _, _, _⟩ :=
    (build_main c (leavesND D2) f2).2.2 emptyHeap D2 h2 n2 (fun v hv => hv) hwf2 hb2
  have hR1 : R1 = D1 :=
    (toDict_main c (leavesND D1) hinj1 g1).1 h1 (emptyHeap : Heap V).nextNode
      ⟨S1, (emptyHeap : Heap V).nextStore, none⟩ ((emptyHeap : Heap V).nextNode + 1)
      h1.nextNode (emptyHeap : Heap V).nextStore st1 fm1 D1 R1 hnode1 hmir1
      (chainsTo_root h1 (emptyHeap : Heap V).nextNode
        ⟨S1, (emptyHeap : Heap V).nextStore, none⟩ hnode1 rfl)
      hsto1 hinv1 (fun v hv => hv) hwf1 ht1
  have hR2 : R2 = D2 :=
    (toDict_main c (leavesND D2) hinj2 g2).1 h2 (emptyHeap : Heap V).nextNode
      ⟨S2, (emptyHeap : Heap V).nextStore, none⟩ ((emptyHeap : Heap V).nextNode + 1)
      h2.nextNode (emptyHeap : Heap V).nextStore st2 fm2 D2 R2 hnode2 hmir2
      (chainsTo_root h2 (emptyHeap : Heap V).nextNode
        ⟨S2, (emptyHeap : Heap V).nextStore, none⟩ hnode2 rfl)
      hsto2 hinv2 (fun v hv => hv) hwf2 ht2
  obtain rfl : D1 = R1 := hR1.symm
  obtain rfl : D2 = R2 := hR2.symm
  refine ⟨hequiv, st1, st2, hsto1, hsto2, ?_⟩
  have hleaves : ∀ w : V, w ∈ leavesND D1 ↔ w ∈ leavesND D2 := by
    intro w
    have hd1 : (NVal.dict D1).nodupKeysB = true := hwf1
    have hd2 : (NVal.dict D2).nodupKeysB = true := hwf2
    have heq : nvEquiv (fe + 1) (NVal.dict D1) (NVal.dict D2) = true := hequiv
    exact nvEquiv_leaves_iff (fe + 1) (NVal.dict D1) (NVal.dict D2) hd1 hd2 heq w
  have hkeys1 : ∀ x, x ∈ alistKeys st1 ↔ ∃ v ∈ leavesND D1, x = hashId c v := by
    intro x
    constructor
    · intro hx
      rw [alistKeys] at hx
      obtain ⟨p, hp, rfl⟩ := List.mem_map.mp hx
      obtain ⟨hkey, hmem⟩ := hinv1.1 p hp
      exact ⟨p.2, hmem, hkey⟩
    · rintro ⟨v, hv, rfl⟩
      exact hcov1 v hv
  have hkeys2 : ∀ x, x ∈ alistKeys st2 ↔ ∃ v ∈ leavesND D2, x = hashId c v := by
    intro x
    constructor
    · intro hx
      rw [alistKeys] at hx
      obtain ⟨p, hp, rfl⟩ := List.mem_map.mp hx
      obtain ⟨hkey, hmem⟩ := hinv2.1 p hp
      exact ⟨p.2, hmem, hkey⟩
    · rintro ⟨v, hv, rfl⟩
      exact hcov2 v hv
  intro x
  rw [hkeys1, hkeys2]
  constructor
  · rintro ⟨v, hv, rfl⟩
    exact ⟨v, (hleaves v).mp hv, rfl⟩
  · rintro ⟨v, hv, rfl⟩
    exact ⟨v, (hleaves v).mpr hv, rfl⟩

/-- Witness: determinism evaluated on two insertion-order permutations of the
same two-key mapping, with the concrete hash collaborators. -/
theorem c10_build_determinism_witness :
    ndEquiv 1 [("x", NVal.leaf 1), ("y", NVal.leaf 2)]
      [("y", NVal.leaf 2), ("x", NVal.leaf 1)] = true ∧
    ∃ st1 st2,
      (build cfgNat 20 emptyHeap [("x", NVal.leaf 1), ("y", NVal.leaf 2)]).1.store? 0 =
        some st1 ∧
      (build cfgNat 20 emptyHeap [("y", NVal.leaf 2), ("x", NVal.leaf 1)]).1.store? 0 =
        some st2 ∧
      (∀ x, x ∈ alistKeys st1 ↔ x ∈ alistKeys st2) :=
  c10_build_determinism cfgNat
    [("x", NVal.leaf 1), ("y", NVal.leaf 2)] [("y", NVal.leaf 2), ("x", NVal.leaf 1)]
    1 20 20 20 20
    (build cfgNat 20 emptyHeap [("x", NVal.leaf 1), ("y", NVal.leaf 2)]).1
    (build cfgNat 20 emptyHeap [("y", NVal.leaf 2), ("x", NVal.leaf 1)]).1
    0 0
    [("x", NVal.leaf 1), ("y", NVal.leaf 2)] [("y", NVal.leaf 2), ("x", NVal.leaf 1)]
    (by decide) (by decide) (by decide) (by decide) (by decide) rfl rfl rfl rfl


theorem alistDel_append_fresh {α β : Type} [DecidableEq α] (l : List (α × β)) (k : α) (v : β)
    (hfresh : alistGet? l k = none) : alistDel (l ++ [(k, v)]) k = l := by
  induction l with
  | nil =>
    rw [List.nil_append, alistDel, if_pos rfl]
  | cons p t ih =>
    obtain ⟨k0, v0⟩ := p
    rw [alistGet?] at hfresh
    split at hfresh
    · cases hfresh
    case _ hk0 =>
      rw [List.cons_append, alistDel, if_neg hk0, ih hfresh]

theorem alistSet_alistSet {α β : Type} [DecidableEq α] (l : List (α × β)) (k : α) (a b : β) :
    alistSet (alistSet l k a) k b = alistSet l k b := by
  induction l with
  | nil => simp [alistSet]
  | cons p t ih =>
    obtain ⟨k0, v0⟩ := p
    by_cases hk : k0 = k
    · subst hk
      simp [alistSet]
    · simp [alistSet, hk, ih]

theorem alistSet_self {α β : Type} [DecidableEq α] (l : List (α × β)) (k : α) (v : β)
    (h : alistGet? l k = some v) : alistSet l k v = l := by
  induction l with
  | nil => cases h
  | cons p t ih =>
    obtain ⟨k0, v0⟩ := p
    rw [alistGet?] at h
    split at h
    case _ hk0 =>
      obtain rfl : v0 = v := Option.some.inj h
      rw [alistSet, if_pos hk0]
      subst hk0
      rfl
    case _ hk0 =>
      rw [alistSet, if_neg hk0, ih h]

theorem heap_ext {V : Type} (h1 h2 : Heap V) (hn : h1.nodes = h2.nodes)
    (hs : h1.stores = h2.stores) (ha : h1.nextNode = h2.nextNode)
    (hb : h1.nextStore = h2.nextStore) : h1 = h2 := by
  cases h1
  cases h2
  simp only at hn hs ha hb
  subst hn
  subst hs
  subst ha
  subst hb
  rfl

/-- `all_hashes_in_use` on a mirrored tree returns exactly the content hashes of
the leaves, in traversal order. -/
theorem ahiu_main {V : Type} (c : Cfg V) :
    ∀ f,
      (∀ (h : Heap V) (nid : Nat) (n : NodeObj V) (lo hi fm : Nat)
         (D : List (String × NVal V)) (r : List String),
        h.node? nid = some n →
        mirrorA c fm h lo hi nid n.key_dict D = true →
        all_hashes_in_use f h nid = Except.ok r →
        r = (leavesND D).map (hashId c)) ∧
      (∀ (h : Heap V) (nid lo hi fm : Nat) (S2 : List (String × Slot V))
         (D2 : List (String × NVal V)) (r : List String),
        mirrorA c fm h lo hi nid S2 D2 = true →
        hashes_of_slots f h (S2.map Prod.snd) = Except.ok r →
        r = (leavesND D2).map (hashId c)) := by
  intro f
  induction f with
  | zero =>
    constructor
    · intro h nid n lo hi fm D r _ _ hrun
      rw [all_hashes_in_use] at hrun
      cases hrun
    · intro h nid lo hi fm S2 D2 r _ hrun
      rw [hashes_of_slots] at hrun
      cases hrun
  | succ f ih =>
    obtain ⟨iha, ihb⟩ := ih
    constructor
    · intro h nid n lo hi fm D r hn hmir hrun
      simp only [all_hashes_in_use, hn] at hrun
      exact ihb h nid lo hi fm n.key_dict D r hmir hrun
    · intro h nid lo hi fm S2 D2 r hmir hrun
      rcases S2 with _ | ⟨⟨k, sl⟩, t⟩ <;> rcases D2 with _ | ⟨⟨k', dv⟩, t'⟩
      · rw [show (([] : List (String × Slot V)).map Prod.snd) = [] from rfl,
          hashes_of_slots] at hrun
        obtain rfl : ([] : List String) = r := Except.ok.inj hrun
        rfl
      · cases fm with
        | zero => rw [mirrorA] at hmir; cases hmir
        | succ g => rw [mirrorA] at hmir; cases hmir
      · cases fm with
        | zero => rw [mirrorA] at hmir; cases hmir
        | succ g => rw [mirrorA] at hmir; cases hmir
      · cases fm with
        | zero => rw [mirrorA] at hmir; cases hmir
        | succ g =>
        cases sl with
        | raw w =>
          rw [mirrorA] at hmir
          cases hmir
        | str s =>
          cases dv with
          | dict d =>
            rw [mirrorA] at hmir
            cases hmir
          | leaf v =>
            rw [mirrorA] at hmir
            simp only [Bool.and_eq_true, decide_eq_true_eq] at hmir
            obtain ⟨⟨rfl, rfl⟩, hmt⟩ := hmir
            rw [show ((k, Slot.str (hashId c v)) :: t).map Prod.snd =
                Slot.str (hashId c v) :: t.map Prod.snd from rfl] at hrun
            rw [hashes_of_slots] at hrun
            split at hrun
            · cases hrun
            case _ r2 hr2 =>
              obtain rfl : hashId c v :: r2 = r := Except.ok.inj hrun
              rw [ihb h nid lo hi g t t' r2 hmt hr2, leavesND_cons,
                show (NVal.leaf v).leaves = [v] from rfl]
              rfl
        | node cid =>
          cases dv with
          | leaf v =>
            rw [mirrorA] at hmir
            cases hmir
          | dict d =>
            rw [mirrorA] at hmir
            simp only [Bool.and_eq_true, decide_eq_true_eq] at hmir
            obtain ⟨⟨⟨⟨rfl, hlo⟩, hhi⟩, hmatch⟩, hmt⟩ := hmir
            rcases hq : h.node? cid with _ | nc
            · rw [hq] at hmatch
              cases hmatch
            rw [hq] at hmatch
            simp only [Bool.and_eq_true, decide_eq_true_eq] at hmatch
            obtain ⟨hpar, hcm⟩ := hmatch
            rw [show ((k, Slot.node cid) :: t).map Prod.snd =
                Slot.node cid :: t.map Prod.snd from rfl] at hrun
            rw [hashes_of_slots] at hrun
            split at hrun
            · cases hrun
            case _ hs hhs =>
              split at hrun
              · cases hrun
              case _ r2 hr2 =>
                obtain rfl : hs ++ r2 = r := Except.ok.inj hrun
                rw [iha h cid nc lo hi g d hs hq hcm hhs,
                  ihb h nid lo hi g t t' r2 hmt hr2, leavesND_cons,
                  show (NVal.dict d).leaves = leavesND d from rfl, List.map_append]


/-- C8 counterexample: over a persisted store carrying an unreferenced entry,
the second identical write shrinks the store (2 entries down to 1) because the
delete step of the second write garbage-collects, while the flat view is
unchanged - so the second write is not a no-op on the store. -/
theorem c8_second_write_shrinks_counterexample :
    c8heapW1.store? 0 = some [("junk", 0), ("1.", 1)] ∧
    c8heapW2.store? 0 = some [("1.", 1)] ∧
    to_dict 20 c8heapW1 0 = Except.ok [("k", NVal.leaf 1)] ∧
    to_dict 20 c8heapW2 0 = Except.ok [("k", NVal.leaf 1)] :=
  ⟨rfl, rfl, rfl, rfl⟩



theorem mirrorB_mono (c : Cfg V) :
    ∀ f (h : Heap V) lo hi pid S D, mirrorB c f h lo hi pid S D = true →
      mirrorB c (f + 1) h lo hi pid S D = true := by
  intro f
  induction f with
  | zero => intro h lo hi pid S D hm; rw [mirrorB] at hm; cases hm
  | succ f ih =>
    intro h lo hi pid S D hm
    match S, D with
    | [], [] => rw [mirrorB]
    | (k, Slot.str s) :: t, (k', NVal.leaf v) :: t' =>
      rw [mirrorB] at hm ⊢
      simp only [Bool.and_eq_true] at hm ⊢
      exact ⟨hm.1, ih h lo hi pid t t' hm.2⟩
    | (k, Slot.node cid) :: t, (k', NVal.dict d) :: t' =>
      rw [mirrorB] at hm ⊢
      simp only [Bool.and_eq_true] at hm ⊢
      refine ⟨⟨hm.1.1, ?_⟩, ih h lo hi pid t t' hm.2⟩
      have h2 := hm.1.2
      split at h2
      case _ ncid hcn =>
        simp only [Bool.and_eq_true] at h2 ⊢
        exact ⟨h2.1, ih h lo hi pid ncid.key_dict d h2.2⟩
      case _ => exact Bool.noConfusion h2
    | [], (_, _) :: _ => rw [mirrorB] at hm; cases hm
    | (_, _) :: _, [] => rw [mirrorB] at hm; cases hm
    | (k, Slot.str s) :: t, (k', NVal.dict d) :: t' => rw [mirrorB] at hm; cases hm
    | (k, Slot.node cid) :: t, (k', NVal.leaf v) :: t' => rw [mirrorB] at hm; cases hm
    | (k, Slot.raw v0) :: t, _ :: t' => rw [mirrorB] at hm; cases hm

theorem mirrorB_le (c : Cfg V) (f f' : Nat) (h : Heap V) (lo hi pid : Nat)
    (S : List (String × Slot V)) (D : List (String × NVal V)) (hle : f ≤ f')
    (hm : mirrorB c f h lo hi pid S D = true) : mirrorB c f' h lo hi pid S D = true := by
  induction f' with
  | zero =>
    obtain rfl : f = 0 := Nat.le_zero.mp hle
    exact hm
  | succ f' ih =>
    rcases Nat.lt_or_ge f (f' + 1) with hlt | hge
    · exact mirrorB_mono c f' h lo hi pid S D (ih (Nat.lt_succ_iff.mp hlt))
    · obtain rfl : f = f' + 1 := Nat.le_antisymm hle hge
      exact hm

theorem mirrorB_widen (c : Cfg V) :
    ∀ f (h : Heap V) lo hi lo' hi' pid S D, lo' ≤ lo → hi ≤ hi' →
      mirrorB c f h lo hi pid S D = true → mirrorB c f h lo' hi' pid S D = true := by
  intro f
  induction f with
  | zero => intro h lo hi lo' hi' pid S D _ _ hm; rw [mirrorB] at hm; cases hm
  | succ f ih =>
    intro h lo hi lo' hi' pid S D hlo hhi hm
    match S, D with
    | [], [] => rw [mirrorB]
    | (k, Slot.str s) :: t, (k', NVal.leaf v) :: t' =>
      rw [mirrorB] at hm ⊢
      simp only [Bool.and_eq_true] at hm ⊢
      exact ⟨hm.1, ih h lo hi lo' hi' pid t t' hlo hhi hm.2⟩
    | (k, Slot.node cid) :: t, (k', NVal.dict d) :: t' =>
      rw [mirrorB] at hm ⊢
      simp only [Bool.and_eq_true, decide_eq_true_eq] at hm ⊢
      obtain ⟨⟨⟨⟨hk, hlo1⟩, hhi1⟩, hsub⟩, hrest⟩ := hm
      refine ⟨⟨⟨⟨hk, le_trans hlo hlo1⟩, lt_of_lt_of_le hhi1 hhi⟩, ?_⟩,
        ih h lo hi lo' hi' pid t t' hlo hhi hrest⟩
      split at hsub
      case _ ncid hcn =>
        simp only [Bool.and_eq_true] at hsub ⊢
        exact ⟨hsub.1, ih h lo hi lo' hi' pid ncid.key_dict d hlo hhi hsub.2⟩
      case _ => exact Bool.noConfusion hsub
    | [], (_, _) :: _ => rw [mirrorB] at hm; cases hm
    | (_, _) :: _, [] => rw [mirrorB] at hm; cases hm
    | (k, Slot.str s) :: t, (k', NVal.dict d) :: t' => rw [mirrorB] at hm; cases hm
    | (k, Slot.node cid) :: t, (k', NVal.leaf v) :: t' => rw [mirrorB] at hm; cases hm
    | (k, Slot.raw v0) :: t, _ :: t' => rw [mirrorB] at hm; cases hm

theorem mirrorB_pres (c : Cfg V) :
    ∀ f (h h' : Heap V) lo hi pid S D,
      (∀ m, lo ≤ m → m < hi → h'.node? m = h.node? m) →
      mirrorB c f h lo hi pid S D = true → mirrorB c f h' lo hi pid S D = true := by
  intro f
  induction f with
  | zero => intro h h' lo hi pid S D _ hm; rw [mirrorB] at hm; cases hm
  | succ f ih =>
    intro h h' lo hi pid S D hag hm
    match S, D with
    | [], [] => rw [mirrorB]
    | (k, Slot.str s) :: t, (k', NVal.leaf v) :: t' =>
      rw [mirrorB] at hm ⊢
      simp only [Bool.and_eq_true] at hm ⊢
      exact ⟨hm.1, ih h h' lo hi pid t t' hag hm.2⟩
    | (k, Slot.node cid) :: t, (k', NVal.dict d) :: t' =>
      rw [mirrorB] at hm ⊢
      simp only [Bool.and_eq_true, decide_eq_true_eq] at hm ⊢
      obtain ⟨⟨⟨⟨hk, hlo1⟩, hhi1⟩, hsub⟩, hrest⟩ := hm
      refine ⟨⟨⟨⟨hk, hlo1⟩, hhi1⟩, ?_⟩, ih h h' lo hi pid t t' hag hrest⟩
      rw [hag cid hlo1 hhi1]
      split at hsub
      case _ ncid hcn =>
        simp only [Bool.and_eq_true] at hsub ⊢
        exact ⟨hsub.1, ih h h' lo hi pid ncid.key_dict d hag hsub.2⟩
      case _ => exact Bool.noConfusion hsub
    | [], (_, _) :: _ => rw [mirrorB] at hm; cases hm
    | (_, _) :: _, [] => rw [mirrorB] at hm; cases hm
    | (k, Slot.str s) :: t, (k', NVal.dict d) :: t' => rw [mirrorB] at hm; cases hm
    | (k, Slot.node cid) :: t, (k', NVal.leaf v) :: t' => rw [mirrorB] at hm; cases hm
    | (k, Slot.raw v0) :: t, _ :: t' => rw [mirrorB] at hm; cases hm

theorem mirrorB_append (c : Cfg V) :
    ∀ f1 f2 (h : Heap V) lo hi pid S1 D1 S2 D2,
      mirrorB c f1 h lo hi pid S1 D1 = true → mirrorB c f2 h lo hi pid S2 D2 = true →
      mirrorB c (f1 + f2) h lo hi pid (S1 ++ S2) (D1 ++ D2) = true := by
  intro f1
  induction f1 with
  | zero => intro f2 h lo hi pid S1 D1 S2 D2 hm1 _; rw [mirrorB] at hm1; cases hm1
  | succ g ih =>
    intro f2 h lo hi pid S1 D1 S2 D2 hm1 hm2
    have harith : g + 1 + f2 = (g + f2) + 1 := by omega
    match S1, D1 with
    | [], [] =>
      simpa using mirrorB_le c f2 (g + 1 + f2) h lo hi pid S2 D2 (by omega) hm2
    | (k, Slot.str s) :: t, (k', NVal.leaf v) :: t' =>
      rw [mirrorB] at hm1
      simp only [Bool.and_eq_true] at hm1
      simp only [List.cons_append]
      rw [harith, mirrorB]
      simp only [Bool.and_eq_true]
      exact ⟨hm1.1, ih f2 h lo hi pid t t' S2 D2 hm1.2 hm2⟩
    | (k, Slot.node cid) :: t, (k', NVal.dict d) :: t' =>
      rw [mirrorB] at hm1
      simp only [Bool.and_eq_true] at hm1
      simp only [List.cons_append]
      rw [harith, mirrorB]
      simp only [Bool.and_eq_true]
      obtain ⟨⟨hk, hsub⟩, hrest⟩ := hm1
      refine ⟨⟨hk, ?_⟩, ih f2 h lo hi pid t t' S2 D2 hrest hm2⟩
      split at hsub
      case _ ncid hcn =>
        simp only [Bool.and_eq_true] at hsub ⊢
        exact ⟨hsub.1, mirrorB_le c g (g + f2) h lo hi pid ncid.key_dict d (by omega) hsub.2⟩
      case _ => exact Bool.noConfusion hsub
    | [], (_, _) :: _ => rw [mirrorB] at hm1; cases hm1
    | (_, _) :: _, [] => rw [mirrorB] at hm1; cases hm1
    | (k, Slot.str s) :: t, (k', NVal.dict d) :: t' => rw [mirrorB] at hm1; cases hm1
    | (k, Slot.node cid) :: t, (k', NVal.leaf v) :: t' => rw [mirrorB] at hm1; cases hm1
    | (k, Slot.raw v0) :: t, _ :: t' => rw [mirrorB] at hm1; cases hm1

theorem mirrorB_keys (c : Cfg V) :
    ∀ f (h : Heap V) lo hi pid S D, mirrorB c f h lo hi pid S D = true →
      alistKeys S = alistKeys D := by
  intro f
  induction f with
  | zero => intro h lo hi pid S D hm; rw [mirrorB] at hm; cases hm
  | succ f ih =>
    intro h lo hi pid S D hm
    match S, D with
    | [], [] => rfl
    | (k, Slot.str s) :: t, (k', NVal.leaf v) :: t' =>
      rw [mirrorB] at hm
      simp only [Bool.and_eq_true, decide_eq_true_eq] at hm
      simp only [alistKeys, List.map_cons]
      rw [hm.1.1]
      have := ih h lo hi pid t t' hm.2
      simp only [alistKeys] at this
      rw [this]
    | (k, Slot.node cid) :: t, (k', NVal.dict d) :: t' =>
      rw [mirrorB] at hm
      simp only [Bool.and_eq_true, decide_eq_true_eq] at hm
      simp only [alistKeys, List.map_cons]
      rw [hm.1.1.1.1]
      have := ih h lo hi pid t t' hm.2
      simp only [alistKeys] at this
      rw [this]
    | [], (_, _) :: _ => rw [mirrorB] at hm; cases hm
    | (_, _) :: _, [] => rw [mirrorB] at hm; cases hm
    | (k, Slot.str s) :: t, (k', NVal.dict d) :: t' => rw [mirrorB] at hm; cases hm
    | (k, Slot.node cid) :: t, (k', NVal.leaf v) :: t' => rw [mirrorB] at hm; cases hm
    | (k, Slot.raw v0) :: t, _ :: t' => rw [mirrorB] at hm; cases hm


/-- `_get_key_dict` on a mirrored tree returns exactly the persisted key
structure `jOfND`: leaves replaced by their truncated content hashes, children
by their own recursive `_get_key_dict`. -/
theorem gkd_main {V : Type} (c : Cfg V) :
    ∀ f,
      (∀ (h : Heap V) (nid : Nat) (n : NodeObj V) (lo hi fm : Nat)
         (D : List (String × NVal V)) (kd : List (String × JVal V)),
        h.node? nid = some n →
        mirrorA c fm h lo hi nid n.key_dict D = true →
        get_key_dict f h nid = Except.ok kd → kd = jOfND c D) ∧
      (∀ (h : Heap V) (pid lo hi fm : Nat) (S2 : List (String × Slot V))
         (D2 : List (String × NVal V)) (kd : List (String × JVal V)),
        mirrorA c fm h lo hi pid S2 D2 = true →
        get_key_dict_entries f h S2 = Except.ok kd → kd = jOfND c D2) := by
  intro f
  induction f with
  | zero =>
    constructor
    · intro h nid n lo hi fm D kd _ _ hrun
      rw [get_key_dict] at hrun
      cases hrun
    · intro h pid lo hi fm S2 D2 kd _ hrun
      rw [get_key_dict_entries] at hrun
      cases hrun
  | succ f ih =>
    obtain ⟨iha, ihb⟩ := ih
    constructor
    · intro h nid n lo hi fm D kd hn hmir hrun
      simp only [get_key_dict, hn] at hrun
      exact ihb h nid lo hi fm n.key_dict D kd hmir hrun
    · intro h pid lo hi fm S2 D2 kd hmir hrun
      rcases S2 with _ | ⟨⟨k, sl⟩, t⟩ <;> rcases D2 with _ | ⟨⟨k', dv⟩, t'⟩
      · rw [get_key_dict_entries] at hrun
        obtain rfl : ([] : List (String × JVal V)) = kd := Except.ok.inj hrun
        rfl
      · cases fm with
        | zero => rw [mirrorA] at hmir; cases hmir
        | succ g => rw [mirrorA] at hmir; cases hmir
      · cases fm with
        | zero => rw [mirrorA] at hmir; cases hmir
        | succ g => rw [mirrorA] at hmir; cases hmir
      · cases fm with
        | zero => rw [mirrorA] at hmir; cases hmir
        | succ g =>
        cases sl with
        | raw w =>
          rw [mirrorA] at hmir
          cases hmir
        | str s =>
          cases dv with
          | dict d =>
            rw [mirrorA] at hmir
            cases hmir
          | leaf v =>
            rw [mirrorA] at hmir
            simp only [Bool.and_eq_true, decide_eq_true_eq] at hmir
            obtain ⟨⟨rfl, rfl⟩, hmt⟩ := hmir
            simp only [get_key_dict_entries] at hrun
            split at hrun
            · cases hrun
            case _ r2 hr2 =>
              obtain rfl : (k, JVal.str (hashId c v)) :: r2 = kd := Except.ok.inj hrun
              rw [ihb h pid lo hi g t t' r2 hmt hr2]
              rfl
        | node cid =>
          cases dv with
          | leaf v =>
            rw [mirrorA] at hmir
            cases hmir
          | dict d =>
            rw [mirrorA] at hmir
            simp only [Bool.and_eq_true, decide_eq_true_eq] at hmir
            obtain ⟨⟨⟨⟨rfl, hlo⟩, hhi⟩, hmatch⟩, hmt⟩ := hmir
            rcases hq : h.node? cid with _ | nc
            · rw [hq] at hmatch
              cases hmatch
            rw [hq] at hmatch
            simp only [Bool.and_eq_true, decide_eq_true_eq] at hmatch
            obtain ⟨hpar, hcm⟩ := hmatch
            simp only [get_key_dict_entries] at hrun
            split at hrun
            · cases hrun
            case _ jv heq =>
              split at heq
              · cases heq
              case _ d2 hgk =>
                obtain rfl : JVal.dict d2 = jv := Except.ok.inj heq
                split at hrun
                · cases hrun
                case _ r2 hr2 =>
                  obtain rfl : (k, JVal.dict d2) :: r2 = kd := Except.ok.inj hrun
                  rw [iha h cid nc lo hi g d d2 hq hcm hgk,
                    ihb h pid lo hi g t t' r2 hmt hr2]
                  rfl

/-- `to_json_save_dict` on a mirrored tree returns the `jOfND` key structure
paired with the ADDRESS of the effective store (shared by reference). -/
theorem tjs_main {V : Type} (c : Cfg V) (f : Nat) (h : Heap V) (nid : Nat)
    (n : NodeObj V) (lo hi fm sid : Nat) (D : List (String × NVal V))
    (kd : List (String × JVal V)) (sid0 : Nat)
    (hn : h.node? nid = some n)
    (hmir : mirrorA c fm h lo hi nid n.key_dict D = true)
    (hch : chainsTo h nid sid)
    (hrun : to_json_save_dict f h nid = Except.ok (kd, sid0)) :
    kd = jOfND c D ∧ sid0 = sid := by
  simp only [to_json_save_dict] at hrun
  split at hrun
  · cases hrun
  case _ kd0 hgk =>
    split at hrun
    · cases hrun
    case _ r hvs =>
      have hpair := Except.ok.inj hrun
      have hkd : kd0 = kd := congrArg Prod.fst hpair
      have hsid : r = sid0 := congrArg Prod.snd hpair
      constructor
      · rw [← hkd]
        exact (gkd_main c f).1 h nid n lo hi fm D kd0 hn hmir hgk
      · rw [← hsid]
        exact hch f r hvs

/-- `_set_key_dict` run on the persisted key structure of `D` rebuilds a tree
mirroring `D` in the reconstructed shape (`mirrorB`): children are parentless
with their `_value_dict` attribute referencing the SAME store `sid`, and no
pre-existing store object is modified. -/
theorem setkd_main {V : Type} (c : Cfg V) :
    ∀ f, ∀ (h : Heap V) (nid : Nat) (n : NodeObj V) (sid : Nat)
      (D : List (String × NVal V)) (h' : Heap V) (u : Unit),
      h.node? nid = some n → n.parent = none → n.value_dict = sid →
      nid < h.nextNode → sid < h.nextStore →
      (∀ x ∈ alistKeys D, alistGet? n.key_dict x = none) →
      ndWellFormed D = true →
      set_key_dict c f h nid (jOfND c D) = (h', Except.ok u) →
      ∃ S fm,
        h'.node? nid = some { n with key_dict := n.key_dict ++ S } ∧
        mirrorB c fm h' h.nextNode h'.nextNode sid S D = true ∧
        (∀ m, m ≠ nid → m < h.nextNode → h'.node? m = h.node? m) ∧
        (∀ s2, s2 < h.nextStore → h'.store? s2 = h.store? s2) ∧
        h.nextNode ≤ h'.nextNode ∧ h.nextStore ≤ h'.nextStore := by
  intro f
  induction f with
  | zero =>
    intro h nid n sid D h' u _ _ _ _ _ _ _ hrun
    rw [set_key_dict] at hrun
    exact absurd (congrArg Prod.snd hrun) (by simp)
  | succ f ih =>
    intro h nid n sid D h' u hn hpar hvd hnlt hslt hfresh hwf hrun
    rcases D with _ | ⟨⟨k, dv⟩, D'⟩
    · rw [show jOfND c ([] : List (String × NVal V)) = [] from rfl,
        set_key_dict] at hrun
      injection hrun with hh hu
      obtain rfl : h = h' := hh
      refine ⟨[], 1, ?_, ?_, fun m _ _ => rfl, fun s2 _ => rfl, le_refl _, le_refl _⟩
      · simpa using hn
      · rw [mirrorB]
    · obtain ⟨hv1, hwf', hkfresh⟩ := ndWellFormed_cons k dv D' hwf
      have hfk : alistGet? n.key_dict k = none :=
        hfresh k (by
          rw [show alistKeys ((k, dv) :: D') = k :: alistKeys D' from rfl]
          exact List.mem_cons_self _ _)
      have hfreshrest : ∀ (sl : Slot V), ∀ x ∈ alistKeys D',
          alistGet? (n.key_dict ++ [(k, sl)]) x = none := by
        intro sl x hx
        rw [alistGet?_append, hfresh x (by
          rw [show alistKeys ((k, dv) :: D') = k :: alistKeys D' from rfl]
          exact List.mem_cons_of_mem _ hx)]
        rw [alistGet?, if_neg ?_, alistGet?]
        intro he
        rw [← he] at hx
        exact hkfresh hx
      cases dv with
      | leaf v =>
        rw [show jOfND c ((k, NVal.leaf v) :: D') =
          (k, JVal.str (hashId c v)) :: jOfND c D' from rfl] at hrun
        simp only [set_key_dict, hn] at hrun
        have hres := ih (h.setNode nid
            { n with key_dict := alistSet n.key_dict k (Slot.str (hashId c v)) })
            nid { n with key_dict := n.key_dict ++ [(k, Slot.str (hashId c v))] }
            sid D' h' u
            (by
              rw [← alistSet_fresh_append n.key_dict k _ hfk]
              exact node?_setNode_self _ _ _)
            hpar hvd hnlt hslt (hfreshrest (Slot.str (hashId c v))) hwf' hrun
        obtain ⟨S2, fm2, hnode2, hmir2, hunN2, hunS2, hle12, hle22⟩ := hres
        refine ⟨(k, Slot.str (hashId c v)) :: S2, fm2 + 1, ?_, ?_, ?_, ?_, hle12, hle22⟩
        · rw [show n.key_dict ++ ((k, Slot.str (hashId c v)) :: S2) =
            (n.key_dict ++ [(k, Slot.str (hashId c v))]) ++ S2 from by
              rw [List.append_assoc]; rfl]
          exact hnode2
        · have hmir2' : mirrorB c fm2 h' h.nextNode h'.nextNode sid S2 D' = true := hmir2
          rw [mirrorB]
          simp [hmir2']
        · intro m hmne hmlt
          rw [hunN2 m hmne hmlt]
          exact node?_setNode_ne _ _ _ _ hmne
        · intro s2 hs2
          rw [hunS2 s2 hs2]
          exact store?_setNode _ _ _ _
      | dict d =>
        rw [show jOfND c ((k, NVal.dict d) :: D') =
          (k, JVal.dict (jOfND c d)) :: jOfND c D' from rfl] at hrun
        simp only [set_key_dict] at hrun
        split at hrun
        · exact absurd (congrArg Prod.snd hrun) (by simp)
        case _ h1 cid hdd =>
          -- DeDuplicationDict() : fresh node over a fresh private store
          cases f with
          | zero =>
            rw [ddInit] at hdd
            exact absurd (congrArg Prod.snd hdd) (by simp)
          | succ fa =>
          obtain ⟨rfl, rfl⟩ : h1 = ((h.allocStore []).1.allocNode
              { key_dict := [], value_dict := (h.allocStore []).2,
                parent := none }).1 ∧ cid = h.nextNode := by
            simp only [ddInit] at hdd
            cases fa with
            | zero =>
              rw [setitems] at hdd
              exact absurd (congrArg Prod.snd hdd) (by simp)
            | succ fb =>
              rw [setitems] at hdd
              injection hdd with hh1 hcid
              exact ⟨hh1.symm, (Except.ok.inj hcid).symm⟩
          split at hrun
          · exact absurd (congrArg Prod.snd hrun) (by simp)
          case _ r hvs =>
            have hnB : ((h.allocStore []).1.allocNode
                { key_dict := [], value_dict := (h.allocStore []).2,
                  parent := none }).1.node? nid = some n := by
              rw [node?_allocNode_ne (h.allocStore []).1 _ nid (Nat.ne_of_lt hnlt)]
              exact hn
            obtain rfl : sid = r := by
              have hr := value_sid_root _ nid n _ r hnB hpar hvs
              exact (hr.trans hvd).symm
            have hqc : ((h.allocStore []).1.allocNode
                { key_dict := [], value_dict := (h.allocStore []).2,
                  parent := none }).1.node? h.nextNode = some
                { key_dict := [], value_dict := (h.allocStore []).2,
                  parent := none } :=
              node?_allocNode_fresh (h.allocStore []).1
                { key_dict := [], value_dict := (h.allocStore []).2, parent := none }
            simp only [set_value_dict, hqc] at hrun
            split at hrun
            · exact absurd (congrArg Prod.snd hrun) (by simp)
            case _ h3 u3 hckd =>
              have hcres := ih (((h.allocStore []).1.allocNode
                  { key_dict := [], value_dict := (h.allocStore []).2,
                    parent := none }).1.setNode h.nextNode
                  { key_dict := [], value_dict := sid, parent := none }) h.nextNode
                ({ key_dict := [], value_dict := sid, parent := none } : NodeObj V)
                sid d h3 u3 (node?_setNode_self _ _ _) rfl rfl
                (Nat.lt_succ_self h.nextNode) (Nat.lt_succ_of_lt hslt)
                (fun x _ => rfl)
                (by
                  have h1w := hv1
                  rw [NVal.nodupKeysB] at h1w
                  rw [ndWellFormed]
                  exact h1w) hckd
              obtain ⟨Sc, fmc, hcnode, hcmir, hcunN, hcunS, hcle1, hcle2⟩ := hcres
              split at hrun
              · exact absurd (congrArg Prod.snd hrun) (by simp)
              case _ n3 hn3 =>
                obtain rfl : n = n3 := by
                  rw [hcunN nid (Nat.ne_of_lt hnlt) (Nat.lt_succ_of_lt hnlt),
                    node?_setNode_ne _ _ _ _ (Nat.ne_of_lt hnlt), hnB] at hn3
                  exact Option.some.inj hn3
                have hres := ih (h3.setNode nid
                    { n with key_dict := alistSet n.key_dict k (Slot.node h.nextNode) })
                    nid { n with key_dict := n.key_dict ++ [(k, Slot.node h.nextNode)] }
                    sid D' h' u
                    (by
                      rw [← alistSet_fresh_append n.key_dict k _ hfk]
                      exact node?_setNode_self _ _ _)
                    hpar hvd
                    (Nat.lt_of_lt_of_le (Nat.lt_succ_of_lt hnlt) hcle1)
                    (Nat.lt_of_lt_of_le (Nat.lt_succ_of_lt hslt) hcle2)
                    (hfreshrest (Slot.node h.nextNode)) hwf' hrun
                obtain ⟨S2, fm2, hnode2, hmir2, hunN2, hunS2, hle12, hle22⟩ := hres
                have hle1' : h.nextNode + 1 ≤ h3.nextNode := hcle1
                have hle2' : h.nextStore + 1 ≤ h3.nextStore := hcle2
                have hle1'' : h3.nextNode ≤ h'.nextNode := hle12
                have hle2'' : h3.nextStore ≤ h'.nextStore := hle22
                refine ⟨(k, Slot.node h.nextNode) :: S2, fmc + fm2 + 1, ?_, ?_, ?_, ?_,
                  ?_, ?_⟩
                · rw [show n.key_dict ++ ((k, Slot.node h.nextNode) :: S2) =
                    (n.key_dict ++ [(k, Slot.node h.nextNode)]) ++ S2 from by
                      rw [List.append_assoc]; rfl]
                  exact hnode2
                · have hchild : h'.node? h.nextNode = some ⟨Sc, sid, none⟩ := by
                    rw [hunN2 h.nextNode (Ne.symm (Nat.ne_of_lt hnlt))
                      (Nat.lt_of_lt_of_le (Nat.lt_succ_self _) hle1'),
                      node?_setNode_ne _ _ _ _ (Ne.symm (Nat.ne_of_lt hnlt))]
                    simpa using hcnode
                  have hag : ∀ m, h.nextNode + 1 ≤ m → m < h3.nextNode →
                      h'.node? m = h3.node? m := by
                    intro m hm1 hm2
                    rw [hunN2 m (by omega) hm2]
                    exact node?_setNode_ne _ _ _ _ (by omega)
                  have hcmir' : mirrorB c (fmc + fm2) h' h.nextNode h'.nextNode
                      sid Sc d = true := by
                    refine mirrorB_le c fmc (fmc + fm2) h' h.nextNode h'.nextNode sid
                      Sc d (Nat.le_add_right _ _) ?_
                    refine mirrorB_widen c fmc h' (h.nextNode + 1) h3.nextNode
                      h.nextNode h'.nextNode sid Sc d (Nat.le_succ _) hle1'' ?_
                    exact mirrorB_pres c fmc h3 h' (h.nextNode + 1) h3.nextNode sid
                      Sc d hag hcmir
                  have htail : mirrorB c (fmc + fm2) h' h.nextNode h'.nextNode
                      sid S2 D' = true := by
                    refine mirrorB_le c fm2 (fmc + fm2) h' h.nextNode h'.nextNode sid
                      S2 D' (Nat.le_add_left _ _) ?_
                    exact mirrorB_widen c fm2 h' h3.nextNode h'.nextNode h.nextNode
                      h'.nextNode sid S2 D' (le_trans (Nat.le_succ_of_le (le_refl _))
                        hle1') (le_refl _) hmir2
                  have hlt2 : h.nextNode < h'.nextNode :=
                    Nat.lt_of_lt_of_le (Nat.lt_succ_self _) (le_trans hle1' hle1'')
                  rw [mirrorB, hchild]
                  simp [hcmir', htail, hlt2]
                · intro m hmne hmlt
                  rw [hunN2 m hmne (Nat.lt_of_lt_of_le (Nat.lt_succ_of_lt hmlt) hle1'),
                    node?_setNode_ne _ _ _ _ hmne,
                    hcunN m (Nat.ne_of_lt hmlt) (Nat.lt_succ_of_lt hmlt),
                    node?_setNode_ne _ _ _ _ (Nat.ne_of_lt hmlt)]
                  exact node?_allocNode_ne _ _ m (Nat.ne_of_lt hmlt)
                · intro s2 hs2
                  rw [hunS2 s2 (Nat.lt_of_lt_of_le (Nat.lt_succ_of_lt hs2) hle2'),
                    store?_setNode, hcunS s2 (Nat.lt_succ_of_lt hs2), store?_setNode]
                  exact store?_allocStore_ne h [] s2 (Nat.ne_of_lt hs2)
                · exact le_trans (le_trans (Nat.le_succ _) hle1') hle1''
                · exact le_trans (le_trans (Nat.le_succ _) hle2') hle2''



theorem toDictB_main {V : Type} (c : Cfg V) (L : List V)
    (hinj : ∀ a ∈ L, ∀ b ∈ L, hashId c a = hashId c b → a = b) :
    ∀ f,
      (∀ (h : Heap V) (nid : Nat) (n : NodeObj V) (lo hi sid : Nat)
         (st : List (String × V)) (fm : Nat) (D : List (String × NVal V))
         (R : List (String × NVal V)),
        h.node? nid = some n →
        mirrorB c fm h lo hi sid n.key_dict D = true →
        chainsTo h nid sid →
        h.store? sid = some st → storeInv c L st →
        (∀ v ∈ leavesND D, v ∈ L) →
        ndWellFormed D = true →
        to_dict f h nid = Except.ok R → R = D) ∧
      (∀ (h : Heap V) (nid : Nat) (n : NodeObj V) (lo hi sid : Nat)
         (st : List (String × V)) (fm : Nat) (S2 : List (String × Slot V))
         (D2 : List (String × NVal V)) (R : List (String × NVal V)),
        h.node? nid = some n →
        (∀ p ∈ S2, alistGet? n.key_dict p.1 = some p.2) →
        mirrorB c fm h lo hi sid S2 D2 = true →
        chainsTo h nid sid →
        h.store? sid = some st → storeInv c L st →
        (∀ v ∈ leavesND D2, v ∈ L) →
        nodupKeysLB D2 = true →
        to_dict_entries f h nid (S2.map Prod.fst) = Except.ok R → R = D2) := by
  intro f
  induction f with
  | zero =>
    constructor
    · intro h nid n lo hi sid st fm D R _ _ _ _ _ _ _ hrun
      rw [to_dict] at hrun
      cases hrun
    · intro h nid n lo hi sid st fm S2 D2 R _ _ _ _ _ _ _ _ hrun
      rw [to_dict_entries] at hrun
      cases hrun
  | succ f ih =>
    obtain ⟨iha, ihb⟩ := ih
    constructor
    · intro h nid n lo hi sid st fm D R hn hmir hch hst hinv hlv hwf hrun
      simp only [to_dict, hn] at hrun
      rw [ndWellFormed, Bool.and_eq_true, decide_eq_true_eq] at hwf
      have hnodup : (alistKeys n.key_dict).Nodup := by
        rw [mirrorB_keys c fm h lo hi sid n.key_dict D hmir]
        exact hwf.1
      exact ihb h nid n lo hi sid st fm n.key_dict D R hn
        (fun p hp => alistGet?_of_mem_nodup n.key_dict p hnodup hp)
        hmir hch hst hinv hlv hwf.2 hrun
    · intro h nid n lo hi sid st fm S2 D2 R hn hlk hmir hch hst hinv hlv hwf hrun
      rcases S2 with _ | ⟨⟨k, sl⟩, t⟩ <;> rcases D2 with _ | ⟨⟨k', dv⟩, t'⟩
      · rw [show (([] : List (String × Slot V)).map Prod.fst) = [] from rfl,
          to_dict_entries] at hrun
        exact (Except.ok.inj hrun).symm
      · cases fm with
        | zero => rw [mirrorB] at hmir; cases hmir
        | succ g => rw [mirrorB] at hmir; cases hmir
      · cases fm with
        | zero => rw [mirrorB] at hmir; cases hmir
        | succ g => rw [mirrorB] at hmir; cases hmir
      · cases fm with
        | zero => rw [mirrorB] at hmir; cases hmir
        | succ g =>
        rw [nodupKeysLB, Bool.and_eq_true] at hwf
        cases sl with
        | raw w =>
          rw [mirrorB] at hmir
          cases hmir
        | str s =>
          cases dv with
          | dict d =>
            rw [mirrorB] at hmir
            cases hmir
          | leaf v =>
            rw [mirrorB] at hmir
            simp only [Bool.and_eq_true, decide_eq_true_eq] at hmir
            obtain ⟨⟨rfl, rfl⟩, hmt⟩ := hmir
            rw [show ((k, Slot.str (hashId c v)) :: t).map Prod.fst =
                k :: t.map Prod.fst from rfl] at hrun
            simp only [to_dict_entries] at hrun
            have hlkh := hlk (k, Slot.str (hashId c v)) (List.mem_cons_self _ _)
            split at hrun
            · cases hrun
            case _ w heq =>
              obtain ⟨w2, hwe, hw⟩ :=
                getitem_str_ok f h nid n k (hashId c v) sid st _ hn hlkh hch hst heq
              obtain rfl : w = w2 := GetRes.value.inj hwe
              have hwmem := alistGet?_some_mem st (hashId c v) w hw
              have hprop := hinv.1 _ hwmem
              have hvL : v ∈ L := by
                apply hlv v
                rw [leavesND_cons, show (NVal.leaf v).leaves = [v] from rfl]
                exact List.mem_append_left _ (List.mem_singleton_self v)
              obtain rfl : v = w := (hinj w hprop.2 v hvL hprop.1.symm).symm
              split at hrun
              · cases hrun
              case _ r2 hr2 =>
                obtain rfl : (k, NVal.leaf v) :: r2 = R := Except.ok.inj hrun
                have hr2t := ihb h nid n lo hi sid st g t t' r2 hn
                  (fun p hp => hlk p (List.mem_cons_of_mem _ hp)) hmt hch hst hinv
                  (fun x hx => hlv x (by
                    rw [leavesND_cons]
                    exact List.mem_append_right _ hx)) hwf.2 hr2
                rw [hr2t]
            case _ cid2 heq =>
              obtain ⟨w2, hwe, _⟩ :=
                getitem_str_ok f h nid n k (hashId c v) sid st _ hn hlkh hch hst heq
              cases hwe
        | node cid =>
          cases dv with
          | leaf v =>
            rw [mirrorB] at hmir
            cases hmir
          | dict d =>
            rw [mirrorB] at hmir
            simp only [Bool.and_eq_true, decide_eq_true_eq] at hmir
            obtain ⟨⟨⟨⟨rfl, hlo⟩, hhi⟩, hmatch⟩, hmt⟩ := hmir
            rcases hq : h.node? cid with _ | nc
            · rw [hq] at hmatch
              cases hmatch
            · rw [hq] at hmatch
              simp only [Bool.and_eq_true, decide_eq_true_eq] at hmatch
              obtain ⟨⟨hpar, hvdc⟩, hcm⟩ := hmatch
              rw [show ((k, Slot.node cid) :: t).map Prod.fst =
                  k :: t.map Prod.fst from rfl] at hrun
              simp only [to_dict_entries,
                getitem_node_eq f h nid n k cid hn
                  (hlk (k, Slot.node cid) (List.mem_cons_self _ _))] at hrun
              split at hrun
              · cases hrun
              case _ sub hsub =>
                split at hrun
                · cases hrun
                case _ r2 hr2 =>
                  obtain rfl : (k, NVal.dict sub) :: r2 = R := Except.ok.inj hrun
                  have hchc : chainsTo h cid sid := by
                    have hcr := chainsTo_root h cid nc hq hpar
                    rwa [hvdc] at hcr
                  have hwfd : ndWellFormed d = true := by
                    have h1 := hwf.1
                    rw [NVal.nodupKeysB] at h1
                    rw [ndWellFormed]
                    exact h1
                  have hsubd := iha h cid nc lo hi sid st g d sub hq hcm hchc hst hinv
                    (fun x hx => hlv x (by
                      rw [leavesND_cons]
                      exact List.mem_append_left _ hx)) hwfd hsub
                  have hr2t := ihb h nid n lo hi sid st g t t' r2 hn
                    (fun p hp => hlk p (List.mem_cons_of_mem _ hp)) hmt hch hst hinv
                    (fun x hx => hlv x (by
                      rw [leavesND_cons]
                      exact List.mem_append_right _ hx)) hwf.2 hr2
                  rw [hsubd, hr2t]


/-- C1: round-trip - building a tree from a nested mapping `D`, persisting it
with `to_json_save_dict`, reconstructing with `from_json_save_dict` and
flattening with `to_dict` reproduces `D` exactly, provided `D` is a genuine
nested dict (unique keys per level) and the truncated content hashes of its
leaf values do not collide. -/
theorem c1_roundtrip {V : Type} (c : Cfg V) (D : List (String × NVal V))
    (f0 f1 f2 f3 : Nat) (h0 h2 : Heap V) (nid n2 : Nat)
    (kd : List (String × JVal V)) (sid : Nat) (R : List (String × NVal V))
    (hwf : ndWellFormed D = true)
    (hinj : ∀ a ∈ leavesND D, ∀ b ∈ leavesND D, hashId c a = hashId c b → a = b)
    (hb : build c f0 emptyHeap D = (h0, Except.ok nid))
    (hs : to_json_save_dict f1 h0 nid = Except.ok (kd, sid))
    (hf : from_json_save_dict c f2 h0 kd sid = (h2, Except.ok n2))
    (ht : to_dict f3 h2 n2 = Except.ok R) :
    R = D := by
  obtain ⟨rfl, S, fm, st', hnode, hmir, hsto, hinv, hcov, hold_n, hold_s, hnn, hns⟩ :=
    (build_main c (leavesND D) f0).2.2 emptyHeap D h0 nid (fun w hw => hw) hwf hb
  have hchr : chainsTo h0 (emptyHeap : Heap V).nextNode (emptyHeap : Heap V).nextStore :=
    chainsTo_root h0 (emptyHeap : Heap V).nextNode
      ⟨S, (emptyHeap : Heap V).nextStore, none⟩ hnode rfl
  obtain ⟨rfl, rfl⟩ : kd = jOfND c D ∧ sid = (emptyHeap : Heap V).nextStore :=
    tjs_main c f1 h0 (emptyHeap : Heap V).nextNode
      ⟨S, (emptyHeap : Heap V).nextStore, none⟩ ((emptyHeap : Heap V).nextNode + 1)
      h0.nextNode fm (emptyHeap : Heap V).nextStore D kd sid hnode hmir hchr hs
  simp only [from_json_save_dict] at hf
  split at hf
  · exact absurd (congrArg Prod.snd hf) (by simp)
  case _ h1x rid hdd =>
    cases f2 with
    | zero =>
      rw [ddInit] at hdd
      exact absurd (congrArg Prod.snd hdd) (by simp)
    | succ fa =>
    obtain ⟨rfl, rfl⟩ : h1x = ((h0.allocStore []).1.allocNode
        { key_dict := [], value_dict := (h0.allocStore []).2,
          parent := none }).1 ∧ rid = h0.nextNode := by
      simp only [ddInit] at hdd
      cases fa with
      | zero =>
        rw [setitems] at hdd
        exact absurd (congrArg Prod.snd hdd) (by simp)
      | succ fb =>
        rw [setitems] at hdd
        injection hdd with hh1 hcid
        exact ⟨hh1.symm, (Except.ok.inj hcid).symm⟩
    have hqc : ((h0.allocStore []).1.allocNode
        { key_dict := [], value_dict := (h0.allocStore []).2,
          parent := none }).1.node? h0.nextNode = some
        { key_dict := [], value_dict := (h0.allocStore []).2,
          parent := none } :=
      node?_allocNode_fresh (h0.allocStore []).1
        { key_dict := [], value_dict := (h0.allocStore []).2, parent := none }
    simp only [set_value_dict, hqc] at hf
    split at hf
    · exact absurd (congrArg Prod.snd hf) (by simp)
    case _ h3 u3 hskd =>
      have hres := setkd_main c (fa + 1) (((h0.allocStore []).1.allocNode
          { key_dict := [], value_dict := (h0.allocStore []).2,
            parent := none }).1.setNode h0.nextNode
          { key_dict := [], value_dict := (emptyHeap : Heap V).nextStore,
            parent := none }) h0.nextNode
        ({ key_dict := [], value_dict := (emptyHeap : Heap V).nextStore,
           parent := none } : NodeObj V)
        (emptyHeap : Heap V).nextStore D h3 u3 (node?_setNode_self _ _ _) rfl rfl
        (Nat.lt_succ_self h0.nextNode) (Nat.lt_succ_of_lt hns)
        (fun x _ => rfl) hwf hskd
      obtain ⟨S2, fm2, hnode2, hmir2, hunN2, hunS2, hle1, hle2⟩ := hres
      injection hf with hfh hfn
      obtain rfl : h3 = h2 := hfh
      obtain rfl : h0.nextNode = n2 := Except.ok.inj hfn
      have hst3 : h3.store? (emptyHeap : Heap V).nextStore = some st' := by
        rw [hunS2 (emptyHeap : Heap V).nextStore (Nat.lt_succ_of_lt hns)]
        have e4 : (((h0.allocStore []).1.allocNode
            { key_dict := [], value_dict := (h0.allocStore []).2,
              parent := none }).1.setNode h0.nextNode
            { key_dict := [], value_dict := (emptyHeap : Heap V).nextStore,
              parent := none }).store? (emptyHeap : Heap V).nextStore =
            (h0.allocStore []).1.store? (emptyHeap : Heap V).nextStore := rfl
        rw [e4, store?_allocStore_ne h0 [] _ (Nat.ne_of_lt hns)]
        exact hsto
      exact (toDictB_main c (leavesND D) hinj f3).1 h3 h0.nextNode
        { key_dict := [] ++ S2, value_dict := (emptyHeap : Heap V).nextStore,
          parent := none }
        (h0.nextNode + 1) h3.nextNode (emptyHeap : Heap V).nextStore st' fm2 D R
        hnode2 hmir2
        (chainsTo_root h3 h0.nextNode
          { key_dict := [] ++ S2, value_dict := (emptyHeap : Heap V).nextStore,
            parent := none } hnode2 rfl)
        hst3 hinv (fun w hw => hw) hwf ht

/-- Witness: the round-trip evaluated on the nested mapping
`{"a": 1, "b": {"c": 1, "d": 2}}` with the concrete hash collaborators. -/
theorem c1_roundtrip_witness :
    to_dict 30 (from_json_save_dict cfgNat 30 (build cfgNat 30 emptyHeap ddD7).1
      (jOfND cfgNat ddD7) 0).1 2 = Except.ok ddD7 ∧ ddD7 = ddD7 :=
  ⟨rfl, c1_roundtrip cfgNat ddD7 30 30 30 30
    (build cfgNat 30 emptyHeap ddD7).1
    (from_json_save_dict cfgNat 30 (build cfgNat 30 emptyHeap ddD7).1
      (jOfND cfgNat ddD7) 0).1
    0 2 (jOfND cfgNat ddD7) 0 ddD7
    (by decide) (by decide) rfl rfl rfl rfl⟩

set_option maxHeartbeats 1000000

theorem alistDel_of_none {α β : Type} [DecidableEq α] (l : List (α × β)) (k : α)
    (h : alistGet? l k = none) : alistDel l k = l := by
  induction l with
  | nil => rfl
  | cons p t ih =>
    obtain ⟨k0, v0⟩ := p
    rw [alistGet?] at h
    split at h
    · cases h
    case _ hk0 =>
      rw [alistDel, if_neg hk0, ih h]

theorem alistGet?_filter_notMem {α β : Type} [DecidableEq α]
    (l : List (α × β)) (U : List α) (x : α) (hx : x ∉ U) :
    alistGet? (l.filter (fun p => decide (p.1 ∈ U))) x = none := by
  cases hopt : alistGet? (l.filter (fun p => decide (p.1 ∈ U))) x with
  | none => rfl
  | some w =>
    have hmem : x ∈ alistKeys (l.filter (fun p => decide (p.1 ∈ U))) :=
      (mem_alistKeys_iff_get?_isSome _ _).mpr (by rw [hopt]; rfl)
    exact absurd ((mem_alistKeys_filter l U x).mp hmem).2 hx

theorem leavesND_del_subset {V : Type} (D : List (String × NVal V)) (k : String) :
    ∀ v ∈ leavesND (alistDel D k), v ∈ leavesND D := by
  induction D with
  | nil => intro v hv; exact hv
  | cons p t ih =>
    obtain ⟨k1, nv⟩ := p
    intro v hv
    by_cases hk1 : k1 = k
    · rw [show alistDel ((k1, nv) :: t) k = t from by rw [alistDel, if_pos hk1]] at hv
      rw [leavesND_cons, List.mem_append]
      exact Or.inr hv
    · rw [show alistDel ((k1, nv) :: t) k = (k1, nv) :: alistDel t k from by
        rw [alistDel, if_neg hk1]] at hv
      rw [leavesND_cons, List.mem_append] at hv
      rw [leavesND_cons, List.mem_append]
      rcases hv with hv | hv
      · exact Or.inl hv
      · exact Or.inr (ih v hv)

/-- Deleting the same key from a mirrored `key_dict` and from the nested mapping
preserves the mirror relation: `__delitem__`'s first mutation keeps the shape. -/
theorem mirrorA_del {V : Type} (c : Cfg V) (k : String) :
    ∀ f (h : Heap V) lo hi pid S D, mirrorA c f h lo hi pid S D = true →
      mirrorA c f h lo hi pid (alistDel S k) (alistDel D k) = true := by
  intro f
  induction f with
  | zero => intro h lo hi pid S D hm; rw [mirrorA] at hm; cases hm
  | succ f ih =>
    intro h lo hi pid S D hm
    match S, D with
    | [], [] =>
      show mirrorA c (f + 1) h lo hi pid [] [] = true
      rw [mirrorA]
    | (k1, Slot.str s) :: t, (k1', NVal.leaf v) :: t' =>
      rw [mirrorA] at hm
      simp only [Bool.and_eq_true, decide_eq_true_eq] at hm
      obtain ⟨⟨hk, hs⟩, hrest⟩ := hm
      by_cases hk1 : k1 = k
      · rw [show alistDel ((k1, Slot.str s) :: t) k = t from by rw [alistDel, if_pos hk1],
          show alistDel ((k1', NVal.leaf v) :: t') k = t' from by
            rw [alistDel, if_pos (hk ▸ hk1)]]
        exact mirrorA_mono c f h lo hi pid t t' hrest
      · rw [show alistDel ((k1, Slot.str s) :: t) k = (k1, Slot.str s) :: alistDel t k from by
          rw [alistDel, if_neg hk1],
          show alistDel ((k1', NVal.leaf v) :: t') k = (k1', NVal.leaf v) :: alistDel t' k
            from by rw [alistDel, if_neg (fun hc => hk1 (hk ▸ hc))]]
        rw [mirrorA]
        simp only [Bool.and_eq_true, decide_eq_true_eq]
        exact ⟨⟨hk, hs⟩, ih h lo hi pid t t' hrest⟩
    | (k1, Slot.node cid) :: t, (k1', NVal.dict d) :: t' =>
      rw [mirrorA] at hm
      simp only [Bool.and_eq_true, decide_eq_true_eq] at hm
      obtain ⟨⟨⟨⟨hk, hlo1⟩, hhi1⟩, hsub⟩, hrest⟩ := hm
      by_cases hk1 : k1 = k
      · rw [show alistDel ((k1, Slot.node cid) :: t) k = t from by rw [alistDel, if_pos hk1],
          show alistDel ((k1', NVal.dict d) :: t') k = t' from by
            rw [alistDel, if_pos (hk ▸ hk1)]]
        exact mirrorA_mono c f h lo hi pid t t' hrest
      · rw [show alistDel ((k1, Slot.node cid) :: t) k =
            (k1, Slot.node cid) :: alistDel t k from by rw [alistDel, if_neg hk1],
          show alistDel ((k1', NVal.dict d) :: t') k = (k1', NVal.dict d) :: alistDel t' k
            from by rw [alistDel, if_neg (fun hc => hk1 (hk ▸ hc))]]
        rw [mirrorA]
        simp only [Bool.and_eq_true, decide_eq_true_eq]
        exact ⟨⟨⟨⟨hk, hlo1⟩, hhi1⟩, hsub⟩, ih h lo hi pid t t' hrest⟩
    | [], (_, _) :: _ => rw [mirrorA] at hm; cases hm
    | (_, _) :: _, [] => rw [mirrorA] at hm; cases hm
    | (k1, Slot.str s) :: t, (k1', NVal.dict d) :: t' => rw [mirrorA] at hm; cases hm
    | (k1, Slot.node cid) :: t, (k1', NVal.leaf v) :: t' => rw [mirrorA] at hm; cases hm
    | (k1, Slot.raw v0) :: t, _ :: t' => rw [mirrorA] at hm; cases hm

/-- The slot a key holds in a mirrored `key_dict` is a hash string or a child
reference to a node of the build range whose `parent` points at the enclosing
node; never a raw payload. -/
theorem mirrorA_get {V : Type} (c : Cfg V) :
    ∀ f (h : Heap V) lo hi pid S D (k : String) (sl : Slot V),
      mirrorA c f h lo hi pid S D = true → alistGet? S k = some sl →
      (∃ s, sl = Slot.str s) ∨
      (∃ cid nc, sl = Slot.node cid ∧ lo ≤ cid ∧ cid < hi ∧
        h.node? cid = some nc ∧ nc.parent = some pid) := by
  intro f
  induction f with
  | zero => intro h lo hi pid S D k sl hm; rw [mirrorA] at hm; cases hm
  | succ f ih =>
    intro h lo hi pid S D k sl hm hget
    match S, D with
    | [], [] => cases hget
    | (k1, Slot.str s) :: t, (k1', NVal.leaf v) :: t' =>
      rw [mirrorA] at hm
      simp only [Bool.and_eq_true, decide_eq_true_eq] at hm
      rw [alistGet?] at hget
      split at hget
      · exact Or.inl ⟨s, (Option.some.inj hget).symm⟩
      · exact ih h lo hi pid t t' k sl hm.2 hget
    | (k1, Slot.node cid) :: t, (k1', NVal.dict d) :: t' =>
      rw [mirrorA] at hm
      simp only [Bool.and_eq_true, decide_eq_true_eq] at hm
      obtain ⟨⟨⟨⟨hk, hlo1⟩, hhi1⟩, hsub⟩, hrest⟩ := hm
      rw [alistGet?] at hget
      split at hget
      · rcases hq : h.node? cid with _ | nc
        · rw [hq] at hsub
          cases hsub
        · rw [hq] at hsub
          simp only [Bool.and_eq_true, decide_eq_true_eq] at hsub
          exact Or.inr ⟨cid, nc, (Option.some.inj hget).symm, hlo1, hhi1, hq, hsub.1⟩
      · exact ih h lo hi pid t t' k sl hrest hget
    | [], (_, _) :: _ => rw [mirrorA] at hm; cases hm
    | (_, _) :: _, [] => rw [mirrorA] at hm; cases hm
    | (k1, Slot.str s) :: t, (k1', NVal.dict d) :: t' => rw [mirrorA] at hm; cases hm
    | (k1, Slot.node cid) :: t, (k1', NVal.leaf v) :: t' => rw [mirrorA] at hm; cases hm
    | (k1, Slot.raw v0) :: t, _ :: t' => rw [mirrorA] at hm; cases hm

/-- Method `all_hashes_in_use` reads only the `key_dict` attribute of each
traversed object, so on a heap whose nodes carry the same `key_dict`s as a heap
mirroring a nested mapping it still returns exactly the content hashes of the
leaves - even if `parent` or `_value_dict` attributes were rewritten in
between. -/
theorem ahiu_main2 {V : Type} (c : Cfg V) :
    ∀ f,
      (∀ (h h0 : Heap V) (nid : Nat) (n : NodeObj V) (lo hi fm : Nat)
         (D : List (String × NVal V)) (r : List String),
        h.node? nid = some n →
        mirrorA c fm h0 lo hi nid n.key_dict D = true →
        (∀ m n0, lo ≤ m → m < hi → h0.node? m = some n0 →
          ∃ n1, h.node? m = some n1 ∧ n1.key_dict = n0.key_dict) →
        all_hashes_in_use f h nid = Except.ok r →
        r = (leavesND D).map (hashId c)) ∧
      (∀ (h h0 : Heap V) (nid lo hi fm : Nat) (S2 : List (String × Slot V))
         (D2 : List (String × NVal V)) (r : List String),
        mirrorA c fm h0 lo hi nid S2 D2 = true →
        (∀ m n0, lo ≤ m → m < hi → h0.node? m = some n0 →
          ∃ n1, h.node? m = some n1 ∧ n1.key_dict = n0.key_dict) →
        hashes_of_slots f h (S2.map Prod.snd) = Except.ok r →
        r = (leavesND D2).map (hashId c)) := by
  intro f
  induction f with
  | zero =>
    constructor
    · intro h h0 nid n lo hi fm D r _ _ _ hrun
      rw [all_hashes_in_use] at hrun
      cases hrun
    · intro h h0 nid lo hi fm S2 D2 r _ _ hrun
      rw [hashes_of_slots] at hrun
      cases hrun
  | succ f ih =>
    obtain ⟨iha, ihb⟩ := ih
    constructor
    · intro h h0 nid n lo hi fm D r hn hmir hag hrun
      simp only [all_hashes_in_use, hn] at hrun
      exact ihb h h0 nid lo hi fm n.key_dict D r hmir hag hrun
    · intro h h0 nid lo hi fm S2 D2 r hmir hag hrun
      rcases S2 with _ | ⟨⟨k, sl⟩, t⟩ <;> rcases D2 with _ | ⟨⟨k', dv⟩, t'⟩
      · rw [show (([] : List (String × Slot V)).map Prod.snd) = [] from rfl,
          hashes_of_slots] at hrun
        obtain rfl : ([] : List String) = r := Except.ok.inj hrun
        rfl
      · cases fm with
        | zero => rw [mirrorA] at hmir; cases hmir
        | succ g => rw [mirrorA] at hmir; cases hmir
      · cases fm with
        | zero => rw [mirrorA] at hmir; cases hmir
        | succ g => rw [mirrorA] at hmir; cases hmir
      · cases fm with
        | zero => rw [mirrorA] at hmir; cases hmir
        | succ g =>
        cases sl with
        | raw w =>
          rw [mirrorA] at hmir
          cases hmir
        | str s =>
          cases dv with
          | dict d =>
            rw [mirrorA] at hmir
            cases hmir
          | leaf v =>
            rw [mirrorA] at hmir
            simp only [Bool.and_eq_true, decide_eq_true_eq] at hmir
            obtain ⟨⟨rfl, rfl⟩, hmt⟩ := hmir
            rw [show ((k, Slot.str (hashId c v)) :: t).map Prod.snd =
                Slot.str (hashId c v) :: t.map Prod.snd from rfl] at hrun
            rw [hashes_of_slots] at hrun
            split at hrun
            · cases hrun
            case _ r2 hr2 =>
              obtain rfl : hashId c v :: r2 = r := Except.ok.inj hrun
              rw [ihb h h0 nid lo hi g t t' r2 hmt hag hr2, leavesND_cons,
                show (NVal.leaf v).leaves = [v] from rfl]
              rfl
        | node cid =>
          cases dv with
          | leaf v =>
            rw [mirrorA] at hmir
            cases hmir
          | dict d =>
            rw [mirrorA] at hmir
            simp only [Bool.and_eq_true, decide_eq_true_eq] at hmir
            obtain ⟨⟨⟨⟨rfl, hlo⟩, hhi⟩, hmatch⟩, hmt⟩ := hmir
            rcases hq : h0.node? cid with _ | nc
            · rw [hq] at hmatch
              cases hmatch
            rw [hq] at hmatch
            simp only [Bool.and_eq_true, decide_eq_true_eq] at hmatch
            obtain ⟨hpar, hcm⟩ := hmatch
            obtain ⟨n1, hq1, hkd1⟩ := hag cid nc hlo hhi hq
            rw [show ((k, Slot.node cid) :: t).map Prod.snd =
                Slot.node cid :: t.map Prod.snd from rfl] at hrun
            rw [hashes_of_slots] at hrun
            split at hrun
            · cases hrun
            case _ hs hhs =>
              split at hrun
              · cases hrun
              case _ r2 hr2 =>
                obtain rfl : hs ++ r2 = r := Except.ok.inj hrun
                rw [iha h h0 cid n1 lo hi g d hs hq1 (by rw [hkd1]; exact hcm) hag hhs,
                  ihb h h0 nid lo hi g t t' r2 hmt hag hr2, leavesND_cons,
                  show (NVal.dict d).leaves = leavesND d from rfl, List.map_append]

/-- A repeated `__setitem__` of the same key and payload is exactly the
identity on any heap in which the key's hash slot sits last in the root's
`key_dict` and the store is clean up to that binding: the implicit delete and
clean-up remove exactly what the re-insert restores. -/
theorem setitem_rewrite_exact {V : Type} (c : Cfg V) (hauto : c.auto_clean_up = true)
    (f2 : Nat) (h1 hW2 : Heap V) (nid : Nat) (k : String) (v : V) (u2 : Unit)
    (T : List (String × Slot V)) (sid : Nat) (st1 : List (String × V)) (U : List String)
    (hn : h1.node? nid = some ⟨T ++ [(k, Slot.str (hashId c v))], sid, none⟩)
    (hkT : alistGet? T k = none)
    (hst : h1.store? sid = some st1)
    (hchar : ∀ g r,
      all_hashes_in_use g (h1.setNode nid ⟨T, sid, none⟩) nid = Except.ok r → r = U)
    (hdisj : (hashId c v ∈ alistKeys st1 ∧
        st1.filter (fun p => decide (p.1 ∈ U)) = st1) ∨
      (∃ st0, st1 = st0 ++ [(hashId c v, v)] ∧
        st0.filter (fun p => decide (p.1 ∈ U)) = st0 ∧
        alistGet? st0 (hashId c v) = none ∧ hashId c v ∉ U))
    (hw2 : setitem c f2 h1 nid k (PyVal.leaf v) = (hW2, Except.ok u2)) :
    hW2 = h1 := by
  have hlk : alistGet? (T ++ [(k, Slot.str (hashId c v))]) k =
      some (Slot.str (hashId c v)) := by
    rw [alistGet?_append, hkT]
    show alistGet? [(k, Slot.str (hashId c v))] k = some (Slot.str (hashId c v))
    rw [alistGet?, if_pos rfl]
  have hdelT : alistDel (T ++ [(k, Slot.str (hashId c v))]) k = T :=
    alistDel_append_fresh T k _ hkT
  have hsetT : alistSet T k (Slot.str (hashId c v)) = T ++ [(k, Slot.str (hashId c v))] :=
    alistSet_fresh_append T k _ hkT
  cases f2 with
  | zero =>
    rw [setitem] at hw2
    exact absurd (congrArg Prod.snd hw2) (by simp)
  | succ g2 =>
  simp only [setitem, hn, hlk, Option.isSome_some, eq_self_iff_true, if_true] at hw2
  split at hw2
  · exact absurd (congrArg Prod.snd hw2) (by simp)
  case _ h1d u1d hdel =>
    cases g2 with
    | zero =>
      rw [delitem] at hdel
      exact absurd (congrArg Prod.snd hdel) (by simp)
    | succ g3 =>
    simp only [delitem, hn, hlk, hdelT, hauto, eq_self_iff_true, if_true] at hdel
    cases g3 with
    | zero =>
      rw [clean_up] at hdel
      exact absurd (congrArg Prod.snd hdel) (by simp)
    | succ g4 =>
    simp only [clean_up, node?_setNode_self] at hdel
    split at hdel
    · exact absurd (congrArg Prod.snd hdel) (by simp)
    case _ inUse hahiu =>
      obtain rfl : U = inUse := (hchar g4 inUse hahiu).symm
      have hstA : (h1.setNode nid (⟨T, sid, none⟩ : NodeObj V)).store? sid = some st1 := by
        rw [store?_setNode]
        exact hst
      simp only [hstA] at hdel
      injection hdel with hfd hsd
      have h1deq := hfd.symm
      have hn1d : h1d.node? nid = some (⟨T, sid, none⟩ : NodeObj V) := by
        rw [h1deq, node?_setStoreC]
        exact node?_setNode_self _ _ _
      simp only [hn1d] at hw2
      split at hw2
      · exact absurd (congrArg Prod.snd hw2) (by simp)
      case _ sid2 hsid2 =>
        obtain rfl : sid = sid2 :=
          (value_sid_root _ nid _ _ sid2 (node?_setNode_self h1d nid _) rfl hsid2).symm
        split at hw2
        · exact absurd (congrArg Prod.snd hw2) (by simp)
        case _ st2 hst2 =>
          obtain rfl : st1.filter (fun p => decide (p.1 ∈ U)) = st2 := by
            rw [store?_setNode, h1deq, store?_setStoreC_self] at hst2
            exact Option.some.inj hst2
          rcases hdisj with ⟨hvmem, hfid⟩ | ⟨st0, hst10, hf0, hg0, hvU⟩
          · rw [hfid] at hw2
            rcases hq : alistGet? st1 (hashId c v) with _ | w
            · rw [mem_alistKeys_iff_get?_isSome, hq] at hvmem
              cases hvmem
            rw [hq] at hw2
            simp only [Option.isSome_some, if_true] at hw2
            injection hw2 with hf2 hs2
            have hW2eq := hf2.symm
            refine heap_ext hW2 h1 ?_ ?_ ?_ ?_
            · show hW2.nodes = h1.nodes
              have e1 : hW2.nodes = alistSet h1d.nodes nid
                  ⟨alistSet T k (Slot.str (hashId c v)), sid, none⟩ := by
                rw [hW2eq]
                rfl
              have e2 : h1d.nodes = alistSet h1.nodes nid (⟨T, sid, none⟩ : NodeObj V) := by
                rw [h1deq]
                rfl
              rw [e1, e2, alistSet_alistSet, hsetT]
              exact alistSet_self _ _ _ hn
            · show hW2.stores = h1.stores
              have e1 : hW2.stores = h1d.stores := by
                rw [hW2eq]
                rfl
              have e2 : h1d.stores = alistSet h1.stores sid
                  (st1.filter (fun p => decide (p.1 ∈ U))) := by
                rw [h1deq]
                rfl
              rw [e1, e2, hfid]
              exact alistSet_self _ _ _ hst
            · rw [hW2eq, h1deq]
              rfl
            · rw [hW2eq, h1deq]
              rfl
          · have hstF : st1.filter (fun p => decide (p.1 ∈ U)) = st0 := by
              rw [hst10, List.filter_append, hf0]
              have hone : List.filter (fun p => decide (p.1 ∈ U)) [((hashId c v), v)] =
                  [] := by
                rw [show List.filter (fun p => decide (p.1 ∈ U)) [((hashId c v), v)] =
                    if (decide ((hashId c v) ∈ U)) = true
                    then [((hashId c v), v)] else [] from by
                  rw [List.filter]
                  split <;> simp_all]
                rw [if_neg]
                intro hmemd
                rw [decide_eq_true_eq] at hmemd
                exact hvU hmemd
              rw [hone, List.append_nil]
            rw [hstF] at hw2
            rw [if_neg (by rw [hg0]; simp)] at hw2
            injection hw2 with hf2 hs2
            have hW2eq := hf2.symm
            have hsetSt : alistSet st0 (hashId c v) v = st1 := by
              rw [alistSet_fresh_append st0 _ _ hg0, hst10]
            refine heap_ext hW2 h1 ?_ ?_ ?_ ?_
            · show hW2.nodes = h1.nodes
              have e1 : hW2.nodes = alistSet h1d.nodes nid
                  ⟨alistSet T k (Slot.str (hashId c v)), sid, none⟩ := by
                rw [hW2eq]
                rfl
              have e2 : h1d.nodes = alistSet h1.nodes nid (⟨T, sid, none⟩ : NodeObj V) := by
                rw [h1deq]
                rfl
              rw [e1, e2, alistSet_alistSet, hsetT]
              exact alistSet_self _ _ _ hn
            · show hW2.stores = h1.stores
              have e1 : hW2.stores = alistSet h1d.stores sid
                  (alistSet st0 (hashId c v) v) := by
                rw [hW2eq]
                rfl
              have e2 : h1d.stores = alistSet h1.stores sid
                  (st1.filter (fun p => decide (p.1 ∈ U))) := by
                rw [h1deq]
                rfl
              rw [e1, e2, alistSet_alistSet, hsetSt]
              exact alistSet_self _ _ _ hst
            · rw [hW2eq, h1deq]
              rfl
            · rw [hW2eq, h1deq]
              rfl

theorem filter_keys_self {α β : Type} [DecidableEq α] (st : List (α × β)) (U : List α)
    (h : ∀ p ∈ st, p.1 ∈ U) : st.filter (fun p => decide (p.1 ∈ U)) = st :=
  List.filter_eq_self.mpr (fun p hp => decide_eq_true (h p hp))

theorem filter_keys_idem {α β : Type} [DecidableEq α] (st : List (α × β)) (U : List α) :
    (st.filter (fun p => decide (p.1 ∈ U))).filter (fun p => decide (p.1 ∈ U)) =
      st.filter (fun p => decide (p.1 ∈ U)) :=
  filter_keys_self _ _ (fun _ hp => of_decide_eq_true (List.mem_filter.mp hp).2)

theorem set_parent_one_none {V : Type} (c : Cfg V) (h : Heap V) (x : Nat) :
    set_parent c 1 h x none = (h, Except.error PErr.noFuel) := rfl

/-- C8 (amended): writing any key twice with the same non-mapping payload, on a
freshly built tree, leaves the whole heap - store contents, store size, key
structure, allocators, hence also the flat view - exactly as after the first
write, whether the key was fresh or already bound (to a leaf or to a nested
dict) in the built mapping. -/
theorem c8_idempotent_write_on_built {V : Type} (c : Cfg V)
    (hauto : c.auto_clean_up = true)
    (D : List (String × NVal V)) (k : String) (v : V)
    (f0 f1 f2 : Nat) (h0 hW1 hW2 : Heap V) (nid : Nat) (u1 u2 : Unit)
    (hwf : ndWellFormed D = true)
    (hb : build c f0 emptyHeap D = (h0, Except.ok nid))
    (hw1 : setitem c f1 h0 nid k (PyVal.leaf v) = (hW1, Except.ok u1))
    (hw2 : setitem c f2 hW1 nid k (PyVal.leaf v) = (hW2, Except.ok u2)) :
    hW2 = hW1 := by
  obtain ⟨rfl, S, fm, st', hnode, hmir, hsto, hinv, hcov, hold_n, hold_s, hnn, hns⟩ :=
    (build_main c (leavesND D) f0).2.2 emptyHeap D h0 nid (fun w hw => hw) hwf hb
  have hndD : (alistKeys D).Nodup := by
    have hwf2 := hwf
    rw [ndWellFormed, Bool.and_eq_true, decide_eq_true_eq] at hwf2
    exact hwf2.1
  have hkeys : alistKeys S = alistKeys D :=
    mirrorA_keys c fm h0 ((emptyHeap : Heap V).nextNode + 1) h0.nextNode
      (emptyHeap : Heap V).nextNode S D hmir
  have hndS : (alistKeys S).Nodup := by
    rw [hkeys]
    exact hndD
  have hTk : alistGet? (alistDel S k) k = none := alistGet?_del_self S k hndS
  have hmirDel : mirrorA c fm h0 ((emptyHeap : Heap V).nextNode + 1) h0.nextNode
      (emptyHeap : Heap V).nextNode (alistDel S k) (alistDel D k) = true :=
    mirrorA_del c k fm h0 _ _ _ S D hmir
  have hub : ∀ p ∈ st', p.1 ∈ (leavesND D).map (hashId c) := by
    intro p hp
    obtain ⟨hkey, hmem⟩ := hinv.1 p hp
    rw [hkey]
    exact List.mem_map_of_mem _ hmem
  have hUsub : ∀ x, x ∈ (leavesND (alistDel D k)).map (hashId c) → x ∈ alistKeys st' := by
    intro x hx
    obtain ⟨w, hw, rfl⟩ := List.mem_map.mp hx
    exact hcov w (leavesND_del_subset D k w hw)
  cases f1 with
  | zero =>
    rw [setitem] at hw1
    exact absurd (congrArg Prod.snd hw1) (by simp)
  | succ G =>
  simp only [setitem, hnode] at hw1
  rcases hS : alistGet? S k with _ | sl
  · -- the key is fresh: the first write appends without deleting
    rw [if_neg (by rw [hS]; simp)] at hw1
    simp only at hw1
    have hDelS : alistDel S k = S := alistDel_of_none S k hS
    have hDelD : alistDel D k = D := by
      refine alistDel_of_none D k (alistGet?_eq_none_of_not_mem D k ?_)
      rw [← hkeys, mem_alistKeys_iff_get?_isSome, hS]
      simp
    have hSapp : alistSet S k (Slot.str (hashId c v)) =
        alistDel S k ++ [(k, Slot.str (hashId c v))] := by
      rw [alistSet_fresh_append S k _ hS, hDelS]
    split at hw1
    · exact absurd (congrArg Prod.snd hw1) (by simp)
    case _ n1 hn1 =>
      obtain rfl : (⟨S, (emptyHeap : Heap V).nextStore, none⟩ : NodeObj V) = n1 := by
        rw [hnode] at hn1
        exact Option.some.inj hn1
      split at hw1
      · exact absurd (congrArg Prod.snd hw1) (by simp)
      case _ sid0 hsid0 =>
        obtain rfl : (emptyHeap : Heap V).nextStore = sid0 :=
          (value_sid_root _ (emptyHeap : Heap V).nextNode _ G sid0
            (node?_setNode_self h0 (emptyHeap : Heap V).nextNode _) rfl hsid0).symm
        split at hw1
        · exact absurd (congrArg Prod.snd hw1) (by simp)
        case _ st0 hst0 =>
          obtain rfl : st' = st0 := by
            rw [store?_setNode, hsto] at hst0
            exact Option.some.inj hst0
          split at hw1
          case _ hpres =>
            injection hw1 with hf1 hs1
            have hW1eq := hf1.symm
            refine setitem_rewrite_exact c hauto f2 hW1 hW2
              (emptyHeap : Heap V).nextNode k v u2 (alistDel S k)
              (emptyHeap : Heap V).nextStore st'
              ((leavesND (alistDel D k)).map (hashId c)) ?_ hTk ?_ ?_ ?_ hw2
            · rw [hW1eq, ← hSapp]
              exact node?_setNode_self _ _ _
            · rw [hW1eq, store?_setNode]
              exact hsto
            · intro g r hr
              refine (ahiu_main2 c g).1 _ h0 (emptyHeap : Heap V).nextNode
                ⟨alistDel S k, (emptyHeap : Heap V).nextStore, none⟩
                ((emptyHeap : Heap V).nextNode + 1) h0.nextNode fm (alistDel D k) r
                (node?_setNode_self _ _ _) hmirDel ?_ hr
              intro m n0 hm1 hm2 hm0
              refine ⟨n0, ?_, rfl⟩
              rw [node?_setNode_ne _ _ _ _ (by omega), hW1eq,
                node?_setNode_ne _ _ _ _ (by omega)]
              exact hm0
            · refine Or.inl ⟨(mem_alistKeys_iff_get?_isSome st' _).mpr hpres, ?_⟩
              rw [hDelD]
              exact filter_keys_self st' _ hub
          case _ hpres =>
            injection hw1 with hf1 hs1
            have hW1eq := hf1.symm
            have habs : alistGet? st' (hashId c v) = none := by
              rcases hq0 : alistGet? st' (hashId c v) with _ | w
              · rfl
              · rw [hq0] at hpres
                simp at hpres
            refine setitem_rewrite_exact c hauto f2 hW1 hW2
              (emptyHeap : Heap V).nextNode k v u2 (alistDel S k)
              (emptyHeap : Heap V).nextStore (alistSet st' (hashId c v) v)
              ((leavesND (alistDel D k)).map (hashId c)) ?_ hTk ?_ ?_ ?_ hw2
            · rw [hW1eq, node?_setStoreC, ← hSapp]
              exact node?_setNode_self _ _ _
            · rw [hW1eq]
              exact store?_setStoreC_self _ _ _
            · intro g r hr
              refine (ahiu_main2 c g).1 _ h0 (emptyHeap : Heap V).nextNode
                ⟨alistDel S k, (emptyHeap : Heap V).nextStore, none⟩
                ((emptyHeap : Heap V).nextNode + 1) h0.nextNode fm (alistDel D k) r
                (node?_setNode_self _ _ _) hmirDel ?_ hr
              intro m n0 hm1 hm2 hm0
              refine ⟨n0, ?_, rfl⟩
              rw [node?_setNode_ne _ _ _ _ (by omega), hW1eq, node?_setStoreC,
                node?_setNode_ne _ _ _ _ (by omega)]
              exact hm0
            · refine Or.inr ⟨st', alistSet_fresh_append st' _ _ habs, ?_, habs, ?_⟩
              · rw [hDelD]
                exact filter_keys_self st' _ hub
              · intro hm
                have hmem : hashId c v ∈ alistKeys st' := hUsub _ hm
                rw [mem_alistKeys_iff_get?_isSome, habs] at hmem
                cases hmem
  · -- the key is present: the first write deletes (and cleans up) first
    rw [if_pos (by rw [hS]; rfl)] at hw1
    split at hw1
    · exact absurd (congrArg Prod.snd hw1) (by simp)
    case _ h1d u1d hdel =>
      have hsetTk : alistSet (alistDel S k) k (Slot.str (hashId c v)) =
          alistDel S k ++ [(k, Slot.str (hashId c v))] :=
        alistSet_fresh_append _ _ _ hTk
      rcases mirrorA_get c fm h0 ((emptyHeap : Heap V).nextNode + 1) h0.nextNode
          (emptyHeap : Heap V).nextNode S D k sl hmir hS with ⟨s, rfl⟩ |
          ⟨cid, nc, rfl, hlo1, hhi1, hqc, hpar⟩
      · -- the key previously held a leaf: its slot is a hash string
        cases G with
        | zero =>
          rw [delitem] at hdel
          exact absurd (congrArg Prod.snd hdel) (by simp)
        | succ G1 =>
        simp only [delitem, hnode, hS, hauto, eq_self_iff_true, if_true] at hdel
        cases G1 with
        | zero =>
          rw [clean_up] at hdel
          exact absurd (congrArg Prod.snd hdel) (by simp)
        | succ G2 =>
        simp only [clean_up, node?_setNode_self] at hdel
        split at hdel
        · exact absurd (congrArg Prod.snd hdel) (by simp)
        case _ inUse hahiu =>
          obtain rfl : (leavesND (alistDel D k)).map (hashId c) = inUse := by
            refine ((ahiu_main2 c G2).1 _ h0 (emptyHeap : Heap V).nextNode
              ⟨alistDel S k, (emptyHeap : Heap V).nextStore, none⟩
              ((emptyHeap : Heap V).nextNode + 1) h0.nextNode fm (alistDel D k) inUse
              (node?_setNode_self _ _ _) hmirDel ?_ hahiu).symm
            intro m n0 hm1 hm2 hm0
            refine ⟨n0, ?_, rfl⟩
            rw [node?_setNode_ne _ _ _ _ (by omega)]
            exact hm0
          have hstD : (h0.setNode (emptyHeap : Heap V).nextNode
              (⟨alistDel S k, (emptyHeap : Heap V).nextStore, none⟩ : NodeObj V)).store?
              (emptyHeap : Heap V).nextStore = some st' := by
            rw [store?_setNode]
            exact hsto
          simp only [hstD] at hdel
          injection hdel with hfd hsd
          have h1deq := hfd.symm
          have hn1d : h1d.node? (emptyHeap : Heap V).nextNode = some
              (⟨alistDel S k, (emptyHeap : Heap V).nextStore, none⟩ : NodeObj V) := by
            rw [h1deq, node?_setStoreC]
            exact node?_setNode_self _ _ _
          simp only [hn1d] at hw1
          split at hw1
          · exact absurd (congrArg Prod.snd hw1) (by simp)
          case _ sid2 hsid2 =>
            obtain rfl : (emptyHeap : Heap V).nextStore = sid2 :=
              (value_sid_root _ (emptyHeap : Heap V).nextNode _ _ sid2
                (node?_setNode_self h1d (emptyHeap : Heap V).nextNode _) rfl hsid2).symm
            split at hw1
            · exact absurd (congrArg Prod.snd hw1) (by simp)
            case _ st2 hst2 =>
              obtain rfl : st'.filter (fun p => decide
                  (p.1 ∈ (leavesND (alistDel D k)).map (hashId c))) = st2 := by
                rw [store?_setNode, h1deq, store?_setStoreC_self] at hst2
                exact Option.some.inj hst2
              split at hw1
              case _ hpres =>
                injection hw1 with hf1 hs1
                have hW1eq := hf1.symm
                refine setitem_rewrite_exact c hauto f2 hW1 hW2
                  (emptyHeap : Heap V).nextNode k v u2 (alistDel S k)
                  (emptyHeap : Heap V).nextStore
                  (st'.filter (fun p => decide
                    (p.1 ∈ (leavesND (alistDel D k)).map (hashId c))))
                  ((leavesND (alistDel D k)).map (hashId c)) ?_ hTk ?_ ?_ ?_ hw2
                · rw [hW1eq, ← hsetTk]
                  exact node?_setNode_self _ _ _
                · rw [hW1eq, store?_setNode, h1deq]
                  exact store?_setStoreC_self _ _ _
                · intro g r hr
                  refine (ahiu_main2 c g).1 _ h0 (emptyHeap : Heap V).nextNode
                    ⟨alistDel S k, (emptyHeap : Heap V).nextStore, none⟩
                    ((emptyHeap : Heap V).nextNode + 1) h0.nextNode fm (alistDel D k) r
                    (node?_setNode_self _ _ _) hmirDel ?_ hr
                  intro m n0 hm1 hm2 hm0
                  refine ⟨n0, ?_, rfl⟩
                  rw [node?_setNode_ne _ _ _ _ (by omega), hW1eq,
                    node?_setNode_ne _ _ _ _ (by omega), h1deq, node?_setStoreC,
                    node?_setNode_ne _ _ _ _ (by omega)]
                  exact hm0
                · exact Or.inl ⟨(mem_alistKeys_iff_get?_isSome _ _).mpr hpres,
                    filter_keys_idem st' _⟩
              case _ hpres =>
                injection hw1 with hf1 hs1
                have hW1eq := hf1.symm
                have habs : alistGet? (st'.filter (fun p => decide
                    (p.1 ∈ (leavesND (alistDel D k)).map (hashId c)))) (hashId c v) =
                    none := by
                  rcases hq0 : alistGet? (st'.filter (fun p => decide
                      (p.1 ∈ (leavesND (alistDel D k)).map (hashId c)))) (hashId c v)
                      with _ | w
                  · rfl
                  · rw [hq0] at hpres
                    simp at hpres
                refine setitem_rewrite_exact c hauto f2 hW1 hW2
                  (emptyHeap : Heap V).nextNode k v u2 (alistDel S k)
                  (emptyHeap : Heap V).nextStore
                  (alistSet (st'.filter (fun p => decide
                    (p.1 ∈ (leavesND (alistDel D k)).map (hashId c)))) (hashId c v) v)
                  ((leavesND (alistDel D k)).map (hashId c)) ?_ hTk ?_ ?_ ?_ hw2
                · rw [hW1eq, node?_setStoreC, ← hsetTk]
                  exact node?_setNode_self _ _ _
                · rw [hW1eq]
                  exact store?_setStoreC_self _ _ _
                · intro g r hr
                  refine (ahiu_main2 c g).1 _ h0 (emptyHeap : Heap V).nextNode
                    ⟨alistDel S k, (emptyHeap : Heap V).nextStore, none⟩
                    ((emptyHeap : Heap V).nextNode + 1) h0.nextNode fm (alistDel D k) r
                    (node?_setNode_self _ _ _) hmirDel ?_ hr
                  intro m n0 hm1 hm2 hm0
                  refine ⟨n0, ?_, rfl⟩
                  rw [node?_setNode_ne _ _ _ _ (by omega), hW1eq, node?_setStoreC,
                    node?_setNode_ne _ _ _ _ (by omega), h1deq, node?_setStoreC,
                    node?_setNode_ne _ _ _ _ (by omega)]
                  exact hm0
                · refine Or.inr ⟨st'.filter (fun p => decide
                    (p.1 ∈ (leavesND (alistDel D k)).map (hashId c))),
                    alistSet_fresh_append _ _ _ habs, filter_keys_idem st' _, habs, ?_⟩
                  intro hm
                  have hmem : hashId c v ∈ alistKeys st' := hUsub _ hm
                  rw [mem_alistKeys_iff_get?_isSome] at hmem
                  rw [alistGet?_filter_keyPred st' _ _ hm] at habs
                  rw [habs] at hmem
                  cases hmem
      · -- the key previously held a nested dict: its slot is a child object
        have hqc2 : (h0.setNode (emptyHeap : Heap V).nextNode
            (⟨alistDel S k, (emptyHeap : Heap V).nextStore, none⟩ : NodeObj V)).node?
            cid = some nc := by
          rw [node?_setNode_ne _ _ _ _ (by omega)]
          exact hqc
        cases G with
        | zero =>
          rw [delitem] at hdel
          exact absurd (congrArg Prod.snd hdel) (by simp)
        | succ G1 =>
        simp only [delitem, hnode, hS] at hdel
        split at hdel
        · exact absurd (congrArg Prod.snd hdel) (by simp)
        case _ h2c u2c hsp =>
          simp only [hauto, eq_self_iff_true, if_true] at hdel
          cases G1 with
          | zero =>
            rw [set_parent] at hsp
            exact absurd (congrArg Prod.snd hsp) (by simp)
          | succ G2 =>
          cases G2 with
          | zero =>
            exact absurd (congrArg Prod.snd
              (((set_parent_one_none c _ cid).symm).trans hsp)) (by simp)
          | succ G3 =>
          cases G3 with
          | zero =>
            have hvs0 : value_sid (h0.setNode (emptyHeap : Heap V).nextNode
                (⟨alistDel S k, (emptyHeap : Heap V).nextStore, none⟩ : NodeObj V))
                (0 + 1) cid = Except.error PErr.noFuel := by
              simp only [value_sid, hqc2, hpar]
            have heff0 : effStore (0 + 1) (h0.setNode (emptyHeap : Heap V).nextNode
                (⟨alistDel S k, (emptyHeap : Heap V).nextStore, none⟩ : NodeObj V)) cid =
                Except.error PErr.noFuel := by
              simp only [effStore, hvs0]
            simp only [set_parent, heff0] at hsp
            exact absurd (congrArg Prod.snd hsp) (by simp)
          | succ G4 =>
          have hvs : value_sid (h0.setNode (emptyHeap : Heap V).nextNode
              (⟨alistDel S k, (emptyHeap : Heap V).nextStore, none⟩ : NodeObj V))
              (G4 + 1 + 1) cid = Except.ok ((emptyHeap : Heap V).nextStore) := by
            simp only [value_sid, hqc2, hpar, node?_setNode_self]
          have heff : effStore (G4 + 1 + 1) (h0.setNode (emptyHeap : Heap V).nextNode
              (⟨alistDel S k, (emptyHeap : Heap V).nextStore, none⟩ : NodeObj V)) cid =
              Except.ok st' := by
            simp only [effStore, hvs, store?_setNode, hsto]
          simp only [set_parent, heff] at hsp
          have hqa : ((h0.setNode (emptyHeap : Heap V).nextNode
              (⟨alistDel S k, (emptyHeap : Heap V).nextStore, none⟩ : NodeObj V)).allocStore
              st').1.node? cid = some nc := by
            rw [node?_allocStore]
            exact hqc2
          simp only [hqa, hauto, eq_self_iff_true, if_true] at hsp
          simp only [clean_up, node?_setNode_self] at hsp
          split at hsp
          · exact absurd (congrArg Prod.snd hsp) (by simp)
          case _ USEc hahiuC =>
            split at hsp
            · exact absurd (congrArg Prod.snd hsp) (by simp)
            case _ stns hstns =>
            rw [store?_setNode] at hstns
            obtain rfl : st' = stns :=
              Option.some.inj ((store?_allocStore_fresh _ st').symm.trans hstns)
            injection hsp with hfc hsc
            have h2ceq := hfc.symm
            have hnidc : h2c.node? (emptyHeap : Heap V).nextNode = some
                (⟨alistDel S k, (emptyHeap : Heap V).nextStore, none⟩ : NodeObj V) := by
              rw [h2ceq, node?_setStoreC, node?_setNode_ne _ _ _ _ (by omega),
                node?_allocStore]
              exact node?_setNode_self _ _ _
            have hagc : ∀ m n0, (emptyHeap : Heap V).nextNode + 1 ≤ m →
                m < h0.nextNode → h0.node? m = some n0 →
                ∃ n1, h2c.node? m = some n1 ∧ n1.key_dict = n0.key_dict := by
              intro m n0 hm1 hm2 hm0
              by_cases hmc : m = cid
              · obtain rfl : cid = m := hmc.symm
                obtain rfl : nc = n0 := by
                  rw [hqc] at hm0
                  exact Option.some.inj hm0
                rcases hq2 : h2c.node? cid with _ | n1
                · rw [h2ceq, node?_setStoreC, node?_setNode_self] at hq2
                  cases hq2
                · refine ⟨n1, rfl, ?_⟩
                  rw [h2ceq, node?_setStoreC, node?_setNode_self] at hq2
                  have h3 := Option.some.inj hq2
                  rw [← h3]
              · refine ⟨n0, ?_, rfl⟩
                rw [h2ceq, node?_setStoreC, node?_setNode_ne _ _ _ _ hmc,
                  node?_allocStore, node?_setNode_ne _ _ _ _ (by omega)]
                exact hm0
            have hstc : h2c.store? (emptyHeap : Heap V).nextStore = some st' := by
              rw [h2ceq,
                store?_setStoreC_ne _ _ _ _
                  (show (emptyHeap : Heap V).nextStore ≠
                      ((h0.setNode (emptyHeap : Heap V).nextNode
                        (⟨alistDel S k, (emptyHeap : Heap V).nextStore, none⟩ :
                          NodeObj V)).allocStore st').2 from Nat.ne_of_lt hns),
                store?_setNode,
                store?_allocStore_ne _ _ _
                  (show (emptyHeap : Heap V).nextStore ≠
                      (h0.setNode (emptyHeap : Heap V).nextNode
                        (⟨alistDel S k, (emptyHeap : Heap V).nextStore, none⟩ :
                          NodeObj V)).nextStore from Nat.ne_of_lt hns),
                store?_setNode]
              exact hsto
            simp only [clean_up, hnidc] at hdel
            split at hdel
            · exact absurd (congrArg Prod.snd hdel) (by simp)
            case _ inUse hahiu =>
              obtain rfl : (leavesND (alistDel D k)).map (hashId c) = inUse := by
                refine ((ahiu_main2 c (G4 + 1 + 1)).1 h2c h0
                  (emptyHeap : Heap V).nextNode
                  ⟨alistDel S k, (emptyHeap : Heap V).nextStore, none⟩
                  ((emptyHeap : Heap V).nextNode + 1) h0.nextNode fm (alistDel D k)
                  inUse hnidc hmirDel hagc hahiu).symm
              simp only [hstc] at hdel
              injection hdel with hfd hsd
              have h1deq := hfd.symm
              have hn1d : h1d.node? (emptyHeap : Heap V).nextNode = some
                  (⟨alistDel S k, (emptyHeap : Heap V).nextStore, none⟩ : NodeObj V) := by
                rw [h1deq, node?_setStoreC]
                exact hnidc
              simp only [hn1d] at hw1
              split at hw1
              · exact absurd (congrArg Prod.snd hw1) (by simp)
              case _ sid2 hsid2 =>
                obtain rfl : (emptyHeap : Heap V).nextStore = sid2 :=
                  (value_sid_root _ (emptyHeap : Heap V).nextNode _ _ sid2
                    (node?_setNode_self h1d (emptyHeap : Heap V).nextNode _) rfl
                    hsid2).symm
                split at hw1
                · exact absurd (congrArg Prod.snd hw1) (by simp)
                case _ st2 hst2 =>
                  obtain rfl : st'.filter (fun p => decide
                      (p.1 ∈ (leavesND (alistDel D k)).map (hashId c))) = st2 := by
                    rw [store?_setNode, h1deq, store?_setStoreC_self] at hst2
                    exact Option.some.inj hst2
                  split at hw1
                  case _ hpres =>
                    injection hw1 with hf1 hs1
                    have hW1eq := hf1.symm
                    refine setitem_rewrite_exact c hauto f2 hW1 hW2
                      (emptyHeap : Heap V).nextNode k v u2 (alistDel S k)
                      (emptyHeap : Heap V).nextStore
                      (st'.filter (fun p => decide
                        (p.1 ∈ (leavesND (alistDel D k)).map (hashId c))))
                      ((leavesND (alistDel D k)).map (hashId c)) ?_ hTk ?_ ?_ ?_ hw2
                    · rw [hW1eq, ← hsetTk]
                      exact node?_setNode_self _ _ _
                    · rw [hW1eq, store?_setNode, h1deq]
                      exact store?_setStoreC_self _ _ _
                    · intro g r hr
                      refine (ahiu_main2 c g).1 _ h0 (emptyHeap : Heap V).nextNode
                        ⟨alistDel S k, (emptyHeap : Heap V).nextStore, none⟩
                        ((emptyHeap : Heap V).nextNode + 1) h0.nextNode fm
                        (alistDel D k) r (node?_setNode_self _ _ _) hmirDel ?_ hr
                      intro m n0 hm1 hm2 hm0
                      obtain ⟨n1, hn1, hk1⟩ := hagc m n0 hm1 hm2 hm0
                      refine ⟨n1, ?_, hk1⟩
                      rw [node?_setNode_ne _ _ _ _ (by omega), hW1eq,
                        node?_setNode_ne _ _ _ _ (by omega), h1deq, node?_setStoreC]
                      exact hn1
                    · exact Or.inl ⟨(mem_alistKeys_iff_get?_isSome _ _).mpr hpres,
                        filter_keys_idem st' _⟩
                  case _ hpres =>
                    injection hw1 with hf1 hs1
                    have hW1eq := hf1.symm
                    have habs : alistGet? (st'.filter (fun p => decide
                        (p.1 ∈ (leavesND (alistDel D k)).map (hashId c)))) (hashId c v) =
                        none := by
                      rcases hq0 : alistGet? (st'.filter (fun p => decide
                          (p.1 ∈ (leavesND (alistDel D k)).map (hashId c)))) (hashId c v)
                          with _ | w
                      · rfl
                      · rw [hq0] at hpres
                        simp at hpres
                    refine setitem_rewrite_exact c hauto f2 hW1 hW2
                      (emptyHeap : Heap V).nextNode k v u2 (alistDel S k)
                      (emptyHeap : Heap V).nextStore
                      (alistSet (st'.filter (fun p => decide
                        (p.1 ∈ (leavesND (alistDel D k)).map (hashId c))))
                        (hashId c v) v)
                      ((leavesND (alistDel D k)).map (hashId c)) ?_ hTk ?_ ?_ ?_ hw2
                    · rw [hW1eq, node?_setStoreC, ← hsetTk]
                      exact node?_setNode_self _ _ _
                    · rw [hW1eq]
                      exact store?_setStoreC_self _ _ _
                    · intro g r hr
                      refine (ahiu_main2 c g).1 _ h0 (emptyHeap : Heap V).nextNode
                        ⟨alistDel S k, (emptyHeap : Heap V).nextStore, none⟩
                        ((emptyHeap : Heap V).nextNode + 1) h0.nextNode fm
                        (alistDel D k) r (node?_setNode_self _ _ _) hmirDel ?_ hr
                      intro m n0 hm1 hm2 hm0
                      obtain ⟨n1, hn1, hk1⟩ := hagc m n0 hm1 hm2 hm0
                      refine ⟨n1, ?_, hk1⟩
                      rw [node?_setNode_ne _ _ _ _ (by omega), hW1eq, node?_setStoreC,
                        node?_setNode_ne _ _ _ _ (by omega), h1deq, node?_setStoreC]
                      exact hn1
                    · refine Or.inr ⟨st'.filter (fun p => decide
                        (p.1 ∈ (leavesND (alistDel D k)).map (hashId c))),
                        alistSet_fresh_append _ _ _ habs, filter_keys_idem st' _,
                        habs, ?_⟩
                      intro hm
                      have hmem : hashId c v ∈ alistKeys st' := hUsub _ hm
                      rw [mem_alistKeys_iff_get?_isSome] at hmem
                      rw [alistGet?_filter_keyPred st' _ _ hm] at habs
                      rw [habs] at hmem
                      cases hmem

/-- Witness: the amended C8 statement evaluated with the concrete hash
collaborators, overwriting the already-present key "a" of the built mapping
with a new payload, twice. -/
theorem c8_idempotent_write_on_built_witness :
    (setitem cfgNat 20 (setitem cfgNat 20 (build cfgNat 20 emptyHeap
        [("a", NVal.leaf 1)]).1 0 "a" (PyVal.leaf 2)).1 0 "a" (PyVal.leaf 2)).1 =
      (setitem cfgNat 20 (build cfgNat 20 emptyHeap [("a", NVal.leaf 1)]).1
        0 "a" (PyVal.leaf 2)).1 :=
  c8_idempotent_write_on_built cfgNat rfl [("a", NVal.leaf 1)] "a" 2 20 20 20
    (build cfgNat 20 emptyHeap [("a", NVal.leaf 1)]).1
    (setitem cfgNat 20 (build cfgNat 20 emptyHeap [("a", NVal.leaf 1)]).1
      0 "a" (PyVal.leaf 2)).1
    (setitem cfgNat 20 (setitem cfgNat 20 (build cfgNat 20 emptyHeap
      [("a", NVal.leaf 1)]).1 0 "a" (PyVal.leaf 2)).1 0 "a" (PyVal.leaf 2)).1
    0 () () (by decide) rfl rfl rfl
end DeDupDict
